import Mathlib

/-!
Verification of the EditPDF backend core against its specification.

The Python sources under `backend/` are shallowly embedded:

* Python `bytes` values become `List Nat` (each element is a byte value,
  kept below 256 exactly where the source guarantees it);
* Python `str` values become `List Char` (sequences of Unicode scalar
  values, matching CPython code points for the inputs the code handles);
* in-place list mutation in the source happens only immediately before a
  `return`, so the embedded functions return the updated list instead;
* functions that can raise return `Option` results (`none` = the raise);
* external collaborators (PyMuPDF pages, the filesystem) are abstracted
  as explicit state records passed to the embedded operations.

Each claim of the specification is settled by one theorem near the end of
the file; definitions come first.
-/

namespace EditPDF

/-- Unicode code points Python's str.strip / str.isspace treat as
whitespace; used to embed `text.strip()` checks from the source. -/
def pyWs (c : Char) : Bool :=
  (0x9 ≤ c.toNat && c.toNat ≤ 0xd) || (0x1c ≤ c.toNat && c.toNat ≤ 0x1f) ||
  c.toNat = 0x20 || c.toNat = 0x85 || c.toNat = 0xa0 || c.toNat = 0x1680 ||
  (0x2000 ≤ c.toNat && c.toNat ≤ 0x200a) || c.toNat = 0x2028 ||
  c.toNat = 0x2029 || c.toNat = 0x202f || c.toNat = 0x205f || c.toNat = 0x3000

/-- Embedding of Python `s.strip()` on str: drop whitespace from both ends. -/
def pyStrip (s : List Char) : List Char :=
  ((s.dropWhile pyWs).reverse.dropWhile pyWs).reverse

/-- Does the string contain at least one non-whitespace character? -/
def hasInk (s : List Char) : Bool := s.any (fun c => ! pyWs c)

/-! ## Document id validation (`document.py`, `_validate_doc_id`)

The source tests `re.match(r"^[0-9a-f]{16}$", doc_id)`.  CPython's `$`
(without `re.MULTILINE`) matches at the end of the string and also just
before a newline at the end of the string, so the regex accepts both a
16-character lowercase-hex string and such a string followed by one
trailing `"\n"`.  `validateDocId` embeds exactly that acceptance set. -/

/-- Is the character one of 0-9a-f (lowercase hex)? -/
def isHexLower (c : Char) : Bool :=
  ('0' ≤ c && c ≤ '9') || ('a' ≤ c && c ≤ 'f')

/-- Embedding of `_validate_doc_id`'s regex test, `true` = validation passes
(no `ValueError`).  See the note above on CPython `$` semantics. -/
def validateDocId (s : List Char) : Bool :=
  (s.length = 16 && s.all isHexLower) ||
  (s.length = 17 && (s.take 16).all isHexLower && s.getLast? = some '\n')

/-! ## Base14 font normalisation (`text_service.py`, `_normalize_font`) -/

/-- ASCII lowercasing, embedding Python `.lower()` on the ASCII font-name
tokens the normaliser compares against. -/
def lowerChar (c : Char) : Char :=
  if 'A' ≤ c && c ≤ 'Z' then Char.ofNat (c.toNat + 32) else c

/-- Lowercase a string characterwise. -/
def lowerStr (s : List Char) : List Char := s.map lowerChar

/-- Embedding of `.replace(" ", "").replace("-", "")`. -/
def dropSpaceDash (s : List Char) : List Char :=
  s.filter (fun c => c ≠ ' ' && c ≠ '-')

/-- Does list s start with list p? -/
def startsWith : List Char → List Char → Bool
  | [], _ => true
  | _ :: _, [] => false
  | p :: ps, c :: cs => p = c && startsWith ps cs

/-- Embedding of Python `pat in s` (substring containment) on str. -/
def containsSub (pat : List Char) : List Char → Bool
  | [] => startsWith pat []
  | c :: cs => startsWith pat (c :: cs) || containsSub pat cs

/-- Embedding of `key.split("+", 1)[1]` guarded by `"+" in key`: everything
after the first plus sign. -/
def afterPlus (s : List Char) : List Char :=
  if s.any (fun c => c = '+') then (s.dropWhile (fun c => c ≠ '+')).tail else s

/-- The `FONT_MAP` constant from `config.py`, in insertion order. -/
def FONT_MAP : List (List Char × List Char) :=
  [("helv".toList, "helv".toList), ("helvetica".toList, "helv".toList),
   ("arial".toList, "helv".toList), ("tisa".toList, "helv".toList),
   ("calibri".toList, "helv".toList), ("verdana".toList, "helv".toList),
   ("tahoma".toList, "helv".toList), ("trebuchet".toList, "helv".toList),
   ("segoeui".toList, "helv".toList), ("times".toList, "tiro".toList),
   ("timesnewroman".toList, "tiro".toList), ("times-roman".toList, "tiro".toList),
   ("cambria".toList, "tiro".toList), ("georgia".toList, "tiro".toList),
   ("garamond".toList, "tiro".toList), ("palatino".toList, "tiro".toList),
   ("courier".toList, "cour".toList), ("couriernew".toList, "cour".toList),
   ("consolas".toList, "cour".toList), ("lucidaconsole".toList, "cour".toList),
   ("symbol".toList, "symb".toList), ("zapfdingbats".toList, "zadb".toList)]

/-- The first-match scan over `FONT_MAP.items()` in `_normalize_font`. -/
def fontMapScan : List (List Char × List Char) → List Char → Option (List Char)
  | [], _ => none
  | (pat, b14) :: rest, key =>
      if containsSub pat key then some b14 else fontMapScan rest key

/-- Embedding of `_normalize_font` from `text_service.py`. -/
def normalizeFont (fontName : List Char) : List Char :=
  let key0 := dropSpaceDash (lowerStr fontName)
  let key := afterPlus key0
  match fontMapScan FONT_MAP key with
  | some b14 =>
      if containsSub "bold".toList key && containsSub "italic".toList key then
        b14 ++ "bi".toList
      else if containsSub "bold".toList key then b14 ++ "bo".toList
      else if containsSub "italic".toList key || containsSub "oblique".toList key then
        b14 ++ "it".toList
      else b14
  | none =>
      let rawL := lowerStr fontName
      if containsSub "bold".toList rawL && containsSub "italic".toList rawL then
        "hebo".toList
      else if containsSub "bold".toList rawL then "hebo".toList
      else if containsSub "italic".toList rawL then "heit".toList
      else "helv".toList

/-- Restatement of claim C9's description of Base14 normalisation, built
from the claim's words: normalise the name, take the first FONT_MAP
substring match and append the style suffix, else fall back on the raw
name's tokens. -/
def normalizeFontClaim (fontName : List Char) : List Char :=
  let key := afterPlus (dropSpaceDash (lowerStr fontName))
  let suffix :=
    if containsSub "bold".toList key && containsSub "italic".toList key then "bi".toList
    else if containsSub "bold".toList key then "bo".toList
    else if containsSub "italic".toList key || containsSub "oblique".toList key then
      "it".toList
    else []
  match (FONT_MAP.find? fun p => containsSub p.1 key) with
  | some p => p.2 ++ suffix
  | none =>
      let rawL := lowerStr fontName
      if containsSub "bold".toList rawL then "hebo".toList
      else if containsSub "italic".toList rawL then "heit".toList
      else "helv".toList

/-! ## Undo/redo history (`history.py`) and the document store

The history collaborator keeps two process-wide dicts of per-document
snapshot stacks; the document store is a directory of `<doc_id>.pdf`
files.  Both are modelled as one explicit state record.  A Python dict
entry that is absent and a present-but-empty list behave identically in
the source (`.get` / `.setdefault`), so stacks are total functions
defaulting to `[]`. -/

/-- MAX_UNDO from `config.py`. -/
def MAX_UNDO : Nat := 20

/-- Process state seen by `history.py`: the upload directory's files plus
the two snapshot stacks. -/
structure HState where
  files : List Char → Option (List Nat)
  undoStacks : List Char → List (List Nat)
  redoStacks : List Char → List (List Nat)

/-- Pointwise update of a string-keyed map. -/
def setMap {α : Type} (m : List Char → α) (k : List Char) (v : α) :
    List Char → α :=
  fun x => if x = k then v else m x

/-- Embedding of `_snapshot`: validate, read the file (early return when it
does not exist), push onto the undo stack, trim the oldest entry when the
bound is exceeded, and clear the redo stack.  An invalid id raises, which
leaves the state unchanged. -/
def snapshotOp (docId : List Char) (s : HState) : HState :=
  if validateDocId docId = false then s
  else
    match s.files docId with
    | none => s
    | some pdfBytes =>
        let stack := s.undoStacks docId ++ [pdfBytes]
        let stack := if MAX_UNDO < stack.length then stack.tail else stack
        { s with undoStacks := setMap s.undoStacks docId stack,
                 redoStacks := setMap s.redoStacks docId [] }

/-- Embedding of `undo`: returns `some b` for a normal return of `b` and
`none` when the call raises (invalid id, or the document file is missing
when its bytes are read).  State changes only on the successful path. -/
def undoOp (docId : List Char) (s : HState) : Option Bool × HState :=
  if validateDocId docId = false then (none, s)
  else
    match s.undoStacks docId with
    | [] => (some false, s)
    | a :: rest =>
        match s.files docId with
        | none => (none, s)
        | some current =>
            let restored := rest.getLastD a
            (some true,
             { s with
               files := setMap s.files docId (some restored),
               undoStacks := setMap s.undoStacks docId (a :: rest).dropLast,
               redoStacks := setMap s.redoStacks docId (s.redoStacks docId ++ [current]) })

/-- Embedding of `redo`, symmetric to `undoOp`. -/
def redoOp (docId : List Char) (s : HState) : Option Bool × HState :=
  if validateDocId docId = false then (none, s)
  else
    match s.redoStacks docId with
    | [] => (some false, s)
    | a :: rest =>
        match s.files docId with
        | none => (none, s)
        | some current =>
            let restored := rest.getLastD a
            (some true,
             { s with
               files := setMap s.files docId (some restored),
               undoStacks := setMap s.undoStacks docId (s.undoStacks docId ++ [current]),
               redoStacks := setMap s.redoStacks docId (a :: rest).dropLast })

/-- A write of new bytes to a document file: the step every mutating path
(edit, add-text, image operations, upload) performs after its
`_snapshot` call. -/
def writeOp (docId : List Char) (data : List Nat) (s : HState) : HState :=
  { s with files := setMap s.files docId (some data) }

/-- The operations that touch the history state. -/
inductive HOp where
  | snap : List Char → HOp
  | und : List Char → HOp
  | red : List Char → HOp
  | write : List Char → List Nat → HOp

/-- Apply one operation (discarding the reported boolean). -/
def applyHOp (op : HOp) (s : HState) : HState :=
  match op with
  | .snap d => snapshotOp d s
  | .und d => (undoOp d s).2
  | .red d => (redoOp d s).2
  | .write d b => writeOp d b s

/-- Apply a sequence of operations in order. -/
def applyHOps (ops : List HOp) (s : HState) : HState :=
  match ops with
  | [] => s
  | op :: rest => applyHOps rest (applyHOp op s)

/-- The initial history state: no files have been uploaded and both stack
dicts are empty. -/
def initHState : HState :=
  { files := fun _ => none, undoStacks := fun _ => [], redoStacks := fun _ => [] }

/-! ## PDF string codec (`stream_editor.py`)

Python `bytes` become `List Nat`.  The two codecs the source selects
between are embedded concretely: `latin-1` is the identity on byte
values, and `mac-roman` uses CPython's decoding table (identity below
0x80, the Apple table above), whose encoder is the inverse lookup.
Functions that can raise return `Option` (decoding, where any raise is
uncaught) or `EncRes` (encoding, where the driver catches `ValueError`
but not `OverflowError`). -/

/-- CPython's mac-roman decoding table for bytes 0x80..0xFF, as Unicode
code points. -/
def macRomanHigh : List Nat :=
  [196, 197, 199, 201, 209, 214, 220, 225, 224, 226, 228, 227, 229, 231,
   233, 232, 234, 235, 237, 236, 238, 239, 241, 243, 242, 244, 246, 245,
   250, 249, 251, 252, 8224, 176, 162, 163, 167, 8226, 182, 223, 174, 169,
   8482, 180, 168, 8800, 198, 216, 8734, 177, 8804, 8805, 165, 181, 8706,
   8721, 8719, 960, 8747, 170, 186, 937, 230, 248, 191, 161, 172, 8730,
   402, 8776, 8710, 171, 187, 8230, 160, 192, 195, 213, 338, 339, 8211,
   8212, 8220, 8221, 8216, 8217, 247, 9674, 255, 376, 8260, 8364, 8249,
   8250, 64257, 64258, 8225, 183, 8218, 8222, 8240, 194, 202, 193, 203,
   200, 205, 206, 207, 204, 211, 212, 63743, 210, 218, 219, 217, 305, 710,
   732, 175, 728, 729, 730, 184, 733, 731, 711]

/-- Decode one byte under mac-roman (total, like CPython's codec). -/
def macRomanDec (b : Nat) : Char :=
  if b < 128 then Char.ofNat b else Char.ofNat (macRomanHigh.getD (b - 128) 0)

/-- Encode one character under mac-roman: the inverse table lookup, `none`
when the character is not in the codec (CPython raises UnicodeEncodeError). -/
def macRomanEnc (c : Char) : Option Nat :=
  (List.range 256).find? (fun b => macRomanDec b = c)

/-- The two codecs `_decode_pdf_string` / `_encode_pdf_string` choose from. -/
inductive Codec where
  | latin1 : Codec
  | macroman : Codec

/-- Codec selection: mac-roman for "MacRomanEncoding", latin-1 otherwise
(WinAnsiEncoding and every other or missing name fall back to latin-1). -/
def codecOf (encName : Option (List Char)) : Codec :=
  if encName = some ("MacRomanEncoding".toList) then .macroman else .latin1

/-- Decode one byte to a character (total for both codecs). -/
def decByte : Codec → Nat → Char
  | .latin1, b => Char.ofNat b
  | .macroman, b => macRomanDec b

/-- Encode one character to a byte; `none` = the codec rejects it. -/
def encChar : Codec → Char → Option Nat
  | .latin1, c => if c.toNat < 256 then some c.toNat else none
  | .macroman, c => macRomanEnc c

/-- Encode a string to raw bytes, failing if any character fails. -/
def encodeBytes (codec : Codec) : List Char → Option (List Nat)
  | [] => some []
  | c :: rest =>
      match encChar codec c, encodeBytes codec rest with
      | some b, some bs => some (b :: bs)
      | _, _ => none

/-- The escaping loop shared by `_encode_pdf_string` and `_encode_with_cmap`:
backslash, parens, CR and LF are escaped, all other bytes pass through. -/
def escapePdf : List Nat → List Nat
  | [] => []
  | b :: rest =>
      if b = 0x5c then 0x5c :: 0x5c :: escapePdf rest
      else if b = 0x28 then 0x5c :: 0x28 :: escapePdf rest
      else if b = 0x29 then 0x5c :: 0x29 :: escapePdf rest
      else if b = 0x0d then 0x5c :: 0x72 :: escapePdf rest
      else if b = 0x0a then 0x5c :: 0x6e :: escapePdf rest
      else b :: escapePdf rest

/-- The `_ESCAPE_MAP` table (`n r t b f \ ( )`). -/
def escMap (b : Nat) : Option Nat :=
  if b = 0x6e then some 0x0a
  else if b = 0x72 then some 0x0d
  else if b = 0x74 then some 0x09
  else if b = 0x62 then some 0x08
  else if b = 0x66 then some 0x0c
  else if b = 0x5c then some 0x5c
  else if b = 0x28 then some 0x28
  else if b = 0x29 then some 0x29
  else none

/-- Is the byte an octal digit 0-7? -/
def isOctDigit (b : Nat) : Bool := 0x30 ≤ b && b ≤ 0x37

/-- The escape-processing loop of `_decode_pdf_string` (also used verbatim
by `_decode_with_cmap`): `_ESCAPE_MAP` entries, one- to three-digit octal
masked to 0xFF, line continuations, and a lone trailing backslash breaks.
Each iteration consumes at least one byte, so fuel equal to the input
length makes the fueled loop exact. -/
def unescapeF : Nat → List Nat → List Nat
  | 0, _ => []
  | _ + 1, [] => []
  | fuel + 1, b :: rest =>
      if b = 0x5c then
        match rest with
        | [] => []
        | nxt :: rest2 =>
            match escMap nxt with
            | some v => v :: unescapeF fuel rest2
            | none =>
                if isOctDigit nxt then
                  match rest2 with
                  | d2 :: rest3 =>
                      if isOctDigit d2 then
                        match rest3 with
                        | d3 :: rest4 =>
                            if isOctDigit d3 then
                              ((nxt - 0x30) * 64 + (d2 - 0x30) * 8 + (d3 - 0x30)) % 256 ::
                                unescapeF fuel rest4
                            else
                              ((nxt - 0x30) * 8 + (d2 - 0x30)) % 256 :: unescapeF fuel rest3
                        | [] => [((nxt - 0x30) * 8 + (d2 - 0x30)) % 256]
                      else (nxt - 0x30) % 256 :: unescapeF fuel rest2
                  | [] => [(nxt - 0x30) % 256]
                else if nxt = 0x0d then
                  match rest2 with
                  | 0x0a :: rest3 => unescapeF fuel rest3
                  | _ => unescapeF fuel rest2
                else if nxt = 0x0a then unescapeF fuel rest2
                else nxt :: unescapeF fuel rest2
      else b :: unescapeF fuel rest

/-- The escape-processing loop, with sufficient fuel supplied. -/
def unescapePdf (xs : List Nat) : List Nat := unescapeF xs.length xs

/-- Value of one hex-digit byte, `none` for non-hex bytes (which make
`bytes.fromhex` raise ValueError; bytes over 0x7F already fail the ASCII
decode the source performs first). -/
def hexDigitVal (b : Nat) : Option Nat :=
  if 0x30 ≤ b && b ≤ 0x39 then some (b - 0x30)
  else if 0x41 ≤ b && b ≤ 0x46 then some (b - 0x41 + 10)
  else if 0x61 ≤ b && b ≤ 0x66 then some (b - 0x61 + 10)
  else none

/-- Parse an even run of hex-digit bytes into byte values. -/
def hexPairs : List Nat → Option (List Nat)
  | [] => some []
  | [_] => none
  | h :: l :: rest =>
      match hexDigitVal h, hexDigitVal l, hexPairs rest with
      | some hv, some lv, some bs => some ((hv * 16 + lv) :: bs)
      | _, _, _ => none

/-- The hex-token body handling of the decoders: strip space/LF/CR, pad an
odd nibble count with "0", then `bytes.fromhex`. -/
def parseHexBody (inner : List Nat) : Option (List Nat) :=
  let h := inner.filter (fun b => b ≠ 0x20 && b ≠ 0x0a && b ≠ 0x0d)
  let h2 := if h.length % 2 = 1 then h ++ [0x30] else h
  hexPairs h2

/-- Embedding of `_decode_pdf_string`; `none` = an uncaught raise (bad hex
digits in a hex token). -/
def decodePdfString (token : List Nat) (encName : Option (List Char)) :
    Option (List Char) :=
  if token.head? = some 0x28 && token.getLast? = some 0x29 then
    some ((unescapePdf token.tail.dropLast).map (decByte (codecOf encName)))
  else if token.head? = some 0x3c && token.getLast? = some 0x3e then
    match parseHexBody token.tail.dropLast with
    | some raw => some (raw.map (decByte (codecOf encName)))
    | none => none
  else some []

/-- Embedding of `_encode_pdf_string`; `none` = ValueError (a character the
codec cannot represent). -/
def encodePdfString (text : List Char) (encName : Option (List Char)) :
    Option (List Nat) :=
  match encodeBytes (codecOf encName) text with
  | none => none
  | some raw => some (0x28 :: escapePdf raw ++ [0x29])

/-! ## CMap maps and codec (`stream_editor.py`) -/

/-- Association-list lookup, embedding Python dict `.get` (dict keys are
unique, which theorems assume via `Nodup` where it matters). -/
def alookup {α β : Type} [DecidableEq α] : List (α × β) → α → Option β
  | [], _ => none
  | (k, v) :: rest, x => if x = k then some v else alookup rest x

/-- A forward ToUnicode map: char code to Unicode string, insertion order. -/
def CMapFwd : Type := List (Nat × List Char)

/-- The `_CHAR_EQUIVALENTS` table. -/
def CHAR_EQUIVALENTS : List (Char × List Char) :=
  [(' ', [Char.ofNat 0xa0]),
   (Char.ofNat 0xa0, [' ']),
   (Char.ofNat 0x2018, [Char.ofNat 0x27]),
   (Char.ofNat 0x2019, [Char.ofNat 0x27]),
   (Char.ofNat 0x27, [Char.ofNat 0x2019, Char.ofNat 0x2018]),
   (Char.ofNat 0x201c, [Char.ofNat 0x22]),
   (Char.ofNat 0x201d, [Char.ofNat 0x22]),
   (Char.ofNat 0x22, [Char.ofNat 0x201d, Char.ofNat 0x201c]),
   (Char.ofNat 0x2013, ['-']),
   (Char.ofNat 0x2014, ['-']),
   ('-', [Char.ofNat 0x2013, Char.ofNat 0x2014])]

/-- Embedding of `_build_reverse_cmap`: invert single-character forward
entries in iteration order, first entry wins. -/
def buildRevAux (acc : List (Char × Nat)) : List (Nat × List Char) → List (Char × Nat)
  | [] => acc
  | (code, uni) :: rest =>
      match uni with
      | [c] =>
          if (alookup acc c).isSome then buildRevAux acc rest
          else buildRevAux (acc ++ [(c, code)]) rest
      | _ => buildRevAux acc rest

/-- Invert a forward CMap, as `_build_reverse_cmap` does. -/
def buildReverseCmap (fwd : List (Nat × List Char)) : List (Char × Nat) :=
  buildRevAux [] fwd

/-- First equivalents-table alternative that is present in the reverse map. -/
def firstAlt (rev : List (Char × Nat)) : List Char → Option Nat
  | [] => none
  | a :: rest =>
      match alookup rev a with
      | some code => some code
      | none => firstAlt rev rest

/-- Character-to-code resolution of `_encode_with_cmap`: the reverse map
directly, else the first mapped equivalent. -/
def cmapCharCode (rev : List (Char × Nat)) (c : Char) : Option Nat :=
  match alookup rev c with
  | some code => some code
  | none => firstAlt rev ((alookup CHAR_EQUIVALENTS c).getD [])

/-- Big-endian bytes of a code in the given width, `int.to_bytes` without
its overflow check. -/
def beBytes : Nat → Nat → List Nat
  | 0, _ => []
  | w + 1, code => (code / 256 ^ w) % 256 :: beBytes w code

/-- Big-endian value of a byte run, `int.from_bytes`. -/
def beVal : List Nat → Nat
  | [] => 0
  | b :: rest => b * 256 ^ rest.length + beVal rest

/-- Outcome of an encoding call: the raised Python exception class matters
because the replacement driver catches only `ValueError`. -/
inductive EncRes where
  | ok : List Nat → EncRes
  | valErr : EncRes
  | othErr : EncRes
deriving DecidableEq

/-- The per-character loop of `_encode_with_cmap`: resolve each character
(ValueError when impossible), then `to_bytes` (OverflowError when the code
does not fit the width). -/
def encCmapRaw (rev : List (Char × Nat)) (bpc : Nat) : List Char → EncRes
  | [] => .ok []
  | c :: rest =>
      match cmapCharCode rev c with
      | none => .valErr
      | some code =>
          if 256 ^ bpc ≤ code then .othErr
          else
            match encCmapRaw rev bpc rest with
            | .ok bs => .ok (beBytes bpc code ++ bs)
            | e => e

/-- Uppercase-hex digit byte of a value below 16. -/
def hexDigitU (n : Nat) : Nat := if n < 10 then 0x30 + n else 0x41 + (n - 10)

/-- Embedding of `raw.hex().upper()`. -/
def toHexUpper : List Nat → List Nat
  | [] => []
  | b :: rest => hexDigitU (b / 16) :: hexDigitU (b % 16) :: toHexUpper rest

/-- Embedding of `_encode_with_cmap`: hex string for multi-byte codes,
escaped literal string for single-byte codes. -/
def encodeWithCmap (text : List Char) (rev : List (Char × Nat)) (bpc : Nat) :
    EncRes :=
  match encCmapRaw rev bpc text with
  | .ok raw =>
      if 1 < bpc then .ok (0x3c :: toHexUpper raw ++ [0x3e])
      else .ok (0x28 :: escapePdf raw ++ [0x29])
  | .valErr => .valErr
  | .othErr => .othErr

/-- Split raw bytes into big-endian codes of width `bpc`, dropping a short
tail, with explicit fuel (the Python loop does not terminate when
`bytes_per_code` is zero, which the parser never produces). -/
def chunkCodesF : Nat → Nat → List Nat → List Nat
  | 0, _, _ => []
  | fuel + 1, bpc, xs =>
      if bpc ≤ xs.length && 0 < bpc then
        beVal (xs.take bpc) :: chunkCodesF fuel bpc (xs.drop bpc)
      else []

/-- The code-to-text loop of `_decode_with_cmap`: forward-map hits append
their string; a miss falls back to the literal code point only for
single-byte fonts. -/
def cmapDecodeCodes (fwd : List (Nat × List Char)) (bpc : Nat) :
    List Nat → List Char
  | [] => []
  | code :: rest =>
      match alookup fwd code with
      | some uni => uni ++ cmapDecodeCodes fwd bpc rest
      | none =>
          if bpc = 1 then Char.ofNat code :: cmapDecodeCodes fwd bpc rest
          else cmapDecodeCodes fwd bpc rest

/-- Embedding of `_decode_with_cmap`; `none` = an uncaught raise from the
hex parse. -/
def decodeWithCmap (token : List Nat) (fwd : List (Nat × List Char))
    (bpc : Nat) : Option (List Char) :=
  if token.head? = some 0x28 && token.getLast? = some 0x29 then
    let raw := unescapePdf token.tail.dropLast
    some (cmapDecodeCodes fwd bpc (chunkCodesF (raw.length + 1) bpc raw))
  else if token.head? = some 0x3c && token.getLast? = some 0x3e then
    match parseHexBody token.tail.dropLast with
    | some raw => some (cmapDecodeCodes fwd bpc (chunkCodesF (raw.length + 1) bpc raw))
    | none => none
  else some []

/-! ## Content-stream tokenizer (`stream_editor.py`, `_tokenize_stream`)

The Python function is a single index-advancing loop.  Each inner scan
(literal string, hex string, array) is embedded as a function from the
bytes after the opening delimiter to `(consumed-including-closer, rest)`,
returning `none` when the input ends before the closer (the source then
emits the whole remainder as the final token).  The array scanner and the
outer loop take explicit fuel; one unit is spent per loop iteration and
every iteration consumes at least one byte, so fuel `length + 1` is
exact.  On a stray `)`, `]`, or un-doubled `>` the Python loop stops
advancing and never terminates; the embedding returns `none` there, so
`tokenizeStream raw = some ts` states that the source produces `ts`. -/

/-- The tokenizer's whitespace set: space, tab, CR, LF, NUL, FF. -/
def wsByte (b : Nat) : Bool :=
  b = 0x20 || b = 0x09 || b = 0x0d || b = 0x0a || b = 0x00 || b = 0x0c

/-- Bytes that end a regular token or name. -/
def stopByte (b : Nat) : Bool :=
  wsByte b || b = 0x28 || b = 0x29 || b = 0x3c || b = 0x3e || b = 0x5b ||
  b = 0x5d || b = 0x2f || b = 0x25

/-- Scan a literal string body at nesting depth `d + 1` (the argument is
the Python depth minus one): backslash skips two bytes, parens adjust the
depth, scanning stops after the paren that closes depth one.  Returns the
consumed bytes (closer included) and the rest, `none` when unterminated. -/
def scanStr : List Nat → Nat → Option (List Nat × List Nat)
  | [], _ => none
  | b :: rest, d =>
      if b = 0x5c then
        match rest with
        | [] => none
        | y :: ys => (scanStr ys d).map (fun p => (0x5c :: y :: p.1, p.2))
      else if b = 0x28 then (scanStr rest (d + 1)).map (fun p => (0x28 :: p.1, p.2))
      else if b = 0x29 then
        match d with
        | 0 => some ([0x29], rest)
        | e + 1 => (scanStr rest e).map (fun p => (0x29 :: p.1, p.2))
      else (scanStr rest d).map (fun p => (b :: p.1, p.2))

/-- Scan a hex string body: everything up to and including the first `>`. -/
def scanHex : List Nat → Option (List Nat × List Nat)
  | [] => none
  | b :: rest =>
      if b = 0x3e then some ([0x3e], rest)
      else (scanHex rest).map (fun p => (b :: p.1, p.2))

/-- Scan an array body at bracket depth `d + 1`, skipping literal and hex
strings so delimiters inside them are not counted; `<` followed by `<` is
consumed as a plain byte.  Fueled: outer `none` = out of fuel, inner
`none` = unterminated. -/
def scanArrF : Nat → List Nat → Nat → Option (Option (List Nat × List Nat))
  | 0, _, _ => none
  | _ + 1, [], _ => some none
  | fuel + 1, b :: rest, d =>
      if b = 0x28 then
        (scanStr rest 0).elim (some none) (fun q =>
          (scanArrF fuel q.2 d).map (Option.map (fun p => (0x28 :: (q.1 ++ p.1), p.2))))
      else if b = 0x3c then
        if rest.head? = some 0x3c then
          (scanArrF fuel rest d).map (Option.map (fun p => (0x3c :: p.1, p.2)))
        else
          (scanHex rest).elim (some none) (fun q =>
            (scanArrF fuel q.2 d).map (Option.map (fun p => (0x3c :: (q.1 ++ p.1), p.2))))
      else if b = 0x5b then
        (scanArrF fuel rest (d + 1)).map (Option.map (fun p => (0x5b :: p.1, p.2)))
      else if b = 0x5d then
        if d = 0 then some (some ([0x5d], rest))
        else (scanArrF fuel rest (d - 1)).map (Option.map (fun p => (0x5d :: p.1, p.2)))
      else
        (scanArrF fuel rest d).map (Option.map (fun p => (b :: p.1, p.2)))

/-- The array scanner with sufficient fuel (`scanArrF_total` shows the
out-of-fuel branch is dead). -/
def scanArr (xs : List Nat) (d : Nat) : Option (List Nat × List Nat) :=
  match scanArrF (xs.length + 1) xs d with
  | some res => res
  | none => none

/-- One pass of `_tokenize_stream`, with fuel spent once per loop
iteration; `none` = the Python loop never terminates (stray `)`, `]`, or
un-doubled `>`). -/
def tokenizeF : Nat → List Nat → Option (List (List Nat))
  | 0, _ => none
  | _ + 1, [] => some []
  | fuel + 1, b :: rest =>
      if wsByte b then tokenizeF fuel rest
      else if b = 0x25 then
        tokenizeF fuel (rest.dropWhile (fun c => c ≠ 0x0d && c ≠ 0x0a))
      else if b = 0x28 then
        (scanStr rest 0).elim (some [0x28 :: rest]) (fun q =>
          (tokenizeF fuel q.2).map (fun ts => (0x28 :: q.1) :: ts))
      else if b = 0x3c then
        if rest.head? = some 0x3c then
          (tokenizeF fuel rest.tail).map (fun ts => [0x3c, 0x3c] :: ts)
        else
          (scanHex rest).elim (some [0x3c :: rest]) (fun q =>
            (tokenizeF fuel q.2).map (fun ts => (0x3c :: q.1) :: ts))
      else if b = 0x3e then
        if rest.head? = some 0x3e then
          (tokenizeF fuel rest.tail).map (fun ts => [0x3e, 0x3e] :: ts)
        else none
      else if b = 0x5b then
        (scanArr rest 0).elim (some [0x5b :: rest]) (fun q =>
          (tokenizeF fuel q.2).map (fun ts => (0x5b :: q.1) :: ts))
      else if b = 0x29 then none
      else if b = 0x5d then none
      else if b = 0x2f then
        (tokenizeF fuel (rest.dropWhile (fun c => ! stopByte c))).map
          (fun ts => (0x2f :: rest.takeWhile (fun c => ! stopByte c)) :: ts)
      else
        (tokenizeF fuel (rest.dropWhile (fun c => ! stopByte c))).map
          (fun ts => (b :: rest.takeWhile (fun c => ! stopByte c)) :: ts)

/-- Embedding of `_tokenize_stream`; `some ts` = the source terminates and
produces `ts`, `none` = it never terminates. -/
def tokenizeStream (raw : List Nat) : Option (List (List Nat)) :=
  tokenizeF (raw.length + 1) raw

/-- Embedding of `b" ".join(tokens)`. -/
def joinTokens : List (List Nat) → List Nat
  | [] => []
  | [t] => t
  | t :: ts => t ++ 0x20 :: joinTokens ts

/-- The string-extraction loop of `_extract_tj_strings` on the bytes
between the array brackets, fueled like the tokenizer. -/
def extractTjF : Nat → List Nat → List (List Nat)
  | 0, _ => []
  | _ + 1, [] => []
  | fuel + 1, b :: rest =>
      if b = 0x28 then
        (scanStr rest 0).elim [0x28 :: rest] (fun q =>
          (0x28 :: q.1) :: extractTjF fuel q.2)
      else if b = 0x3c then
        if rest.head? = some 0x3c then extractTjF fuel rest
        else
          (scanHex rest).elim [0x3c :: rest] (fun q =>
            (0x3c :: q.1) :: extractTjF fuel q.2)
      else extractTjF fuel rest

/-- Embedding of `_extract_tj_strings`. -/
def extractTjStrings (arrTok : List Nat) : List (List Nat) :=
  extractTjF arrTok.tail.dropLast.length arrTok.tail.dropLast

/-! ## The replacement driver (`stream_editor.py`, `_find_and_replace_text`
and `try_direct_edit`)

The driver consults the document and page through `_is_cid_font`,
`_is_subset_font`, `_has_custom_encoding`, `_get_tounicode_maps` and
`_get_font_encoding`, all read-only PyMuPDF lookups keyed by the font tag
(the bytes after the leading `/` of the name token; the source's
ASCII-with-replacement decode of the tag is injective on the tags a single
page presents, so raw tag bytes serve as the key).  They are abstracted as
one environment record per font tag.  `_get_tounicode_maps` returns either
`(None, None, 1)` or two nonempty maps, which the driver tests by dict
truthiness; the empty list plays the role of `None` here.  The source's
`cmap_cache` only memoises `_resolve_font`'s deterministic lookups, so it
is dropped.  In-place token mutations in the source happen only on the
lines immediately before a `return True`, so the embedding returns the
updated token list together with the outcome. -/

/-- Per-font-tag answers of the PyMuPDF lookups the driver performs. -/
structure FontInfo where
  isCid : Bool
  isSubset : Bool
  hasDiff : Bool
  fwd : List (Nat × List Char)
  rev : List (Char × Nat)
  bpc : Nat
  enc : Option (List Char)

/-- The font environment of one page: lookup results per font tag. -/
def FontEnv : Type := List Nat → FontInfo

/-- The six-tuple `_resolve_font` returns: `(skip_font, use_cmap,
encoding, cmap_fwd, cmap_rev, bpc)`; the empty list stands for `None` in
the unused map slots. -/
structure FontMode where
  skip : Bool
  useCmap : Bool
  enc : Option (List Char)
  fwd : List (Nat × List Char)
  rev : List (Char × Nat)
  bpc : Nat

/-- Embedding of `_resolve_font`: CMap handling for any unsafe font that
has nonempty maps, skip for unsafe fonts without, simple encoding
otherwise. -/
def resolveFont (env : FontEnv) (ft : List Nat) : FontMode :=
  let fi := env ft
  if fi.isCid || fi.isSubset || fi.hasDiff then
    if !fi.fwd.isEmpty && !fi.rev.isEmpty then
      ⟨false, true, none, fi.fwd, fi.rev, fi.bpc⟩
    else ⟨true, false, none, [], [], 1⟩
  else ⟨false, false, fi.enc, [], [], 1⟩

/-- The initial font mode of both passes (`None`/`False`/1 locals). -/
def initFM : FontMode := ⟨false, false, none, [], [], 1⟩

/-- String-operand decoding as both passes perform it: CMap decode when
`use_cmap` else simple decode; `none` = an uncaught raise. -/
def decTok (fm : FontMode) (tok : List Nat) : Option (List Char) :=
  if fm.useCmap then decodeWithCmap tok fm.fwd fm.bpc
  else decodePdfString tok fm.enc

/-- Decode and concatenate the string parts of a `TJ` array in order
(`full_text`/`block_text` accumulation); `none` = a part raised. -/
def decParts (fm : FontMode) : List (List Nat) → Option (List Char)
  | [] => some []
  | p :: rest =>
      match decTok fm p, decParts fm rest with
      | some d, some ds => some (d ++ ds)
      | _, _ => none

/-- Replacement-text encoding as both passes perform it, keeping the
raised exception class: `UnicodeEncodeError` from the simple path is a
`ValueError`, so the driver's `except ValueError` catches it. -/
def encTok (fm : FontMode) (text : List Char) : EncRes :=
  if fm.useCmap then encodeWithCmap text fm.rev fm.bpc
  else
    match encodePdfString text fm.enc with
    | some bs => .ok bs
    | none => .valErr

/-- The operator byte constants `b"Tf"`, `b"Tj"`, `b"TJ"`, `b"BT"`,
`b"ET"`. -/
def TfTok : List Nat := [0x54, 0x66]

/-- `b"Tj"`. -/
def TjTok : List Nat := [0x54, 0x6a]

/-- `b"TJ"`. -/
def TJTok : List Nat := [0x54, 0x4a]

/-- `b"BT"`. -/
def BTTok : List Nat := [0x42, 0x54]

/-- `b"ET"`. -/
def ETTok : List Nat := [0x45, 0x54]

/-- The font-mode update both passes apply at a `Tf` operator: resolve the
tag of `tokens[i-2]` when it is a name token (`p2` carries `tokens[i-2]`,
absent while `i < 2`). -/
def tfStep (env : FontEnv) (fm : FontMode) (tok : List Nat)
    (p2 : Option (List Nat)) : FontMode :=
  if tok = TfTok then
    match p2 with
    | some ft => if ft.head? = some 0x2f then resolveFont env ft.tail else fm
    | none => fm
  else fm

/-- Outcome of pass 1: a replacement at a token index (the new token fully
built, bracket wrap included), `return False` from a caught ValueError, an
uncaught raise, or no match. -/
inductive P1Res where
  | found : Nat → List Nat → P1Res
  | fail : P1Res
  | err : P1Res
  | noMatch : P1Res

/-- The encode-and-replace step shared by both match sites of pass 1:
`return False` for a caught ValueError, an uncaught raise otherwise, and
on success the replacement token at index `idx` (bracket wrapped for a
`TJ` operand). -/
def encOut (fm : FontMode) (new : List Char) (idx : Nat) (wrap : Bool) : P1Res :=
  match encTok fm new with
  | .ok bs => .found idx (if wrap then 0x5b :: bs ++ [0x5d] else bs)
  | .valErr => .fail
  | .othErr => .err

/-- Pass 1 of `_find_and_replace_text`: walk the tokens tracking the font
via `Tf`, and match a single `Tj`/`TJ` operand against the stripped
target.  `i` is the loop index; `p1`, `p2` carry `tokens[i-1]`,
`tokens[i-2]` (absent near the start, matching the `i >= 1`/`i >= 2`
guards). -/
def pass1 (env : FontEnv) (tgtS new : List Char) :
    List (List Nat) → Nat → Option (List Nat) → Option (List Nat) →
    FontMode → P1Res
  | [], _, _, _, _ => .noMatch
  | tok :: rest, i, p1, p2, fm =>
      let fm' := tfStep env fm tok p2
      let next := pass1 env tgtS new rest (i + 1) (some tok) p1 fm'
      if fm'.skip then next
      else if tok = TjTok then
        p1.elim next (fun st =>
          if st.head? = some 0x28 || st.head? = some 0x3c then
            (decTok fm' st).elim .err (fun d =>
              if pyStrip d = tgtS then encOut fm' new (i - 1) false else next)
          else next)
      else if tok = TJTok then
        p1.elim next (fun arr =>
          if arr.head? = some 0x5b && arr.getLast? = some 0x5d then
            if (extractTjStrings arr).isEmpty then next
            else
              (decParts fm' (extractTjStrings arr)).elim .err (fun full =>
                if pyStrip full = tgtS then encOut fm' new (i - 1) true else next)
          else next)
      else next

/-- The per-block state of pass 2: accumulated text, block font mode
(`block_encoding`, `block_use_cmap`, `block_cmap_*`; the mode's `skip`
field is unused here), the unsafe-font flag, the `Tf` switch count and the
recorded operands (`true` = `Tj`, `false` = `TJ`, with the operand's token
index). -/
structure BState where
  text : List Char
  fm : FontMode
  hasUnsafeFont : Bool
  changes : Nat
  ops : List (Bool × Nat)

/-- Block state at a `BT` operator, initialised from the outer font
state. -/
def initB (fm : FontMode) : BState := ⟨[], fm, fm.skip, 0, []⟩

/-- The `Tf` handling inside a `BT` block: a name token two back counts a
font switch and either marks the block unsafe or installs the resolved
block font mode. -/
def bTf (env : FontEnv) (tok : List Nat) (p2 : Option (List Nat))
    (β : BState) : BState :=
  if tok = TfTok then
    p2.elim β (fun ft =>
      if ft.head? = some 0x2f then
        if (resolveFont env ft.tail).skip then
          { β with changes := β.changes + 1, hasUnsafeFont := true }
        else { β with changes := β.changes + 1, fm := resolveFont env ft.tail }
      else β)
  else β

/-- The operand handling of one in-block token, after the `Tf` update:
`Tj`/`TJ` operands are decoded and recorded while the block is safe.
`none` = a decode raised. -/
def bStepCore (i : Nat) (p1 : Option (List Nat)) (tok : List Nat)
    (β1 : BState) : Option BState :=
  if β1.hasUnsafeFont then some β1
  else if tok = TjTok then
    p1.elim (some β1) (fun st =>
      if st.head? = some 0x28 || st.head? = some 0x3c then
        (decTok β1.fm st).map (fun d =>
          { β1 with text := β1.text ++ d, ops := β1.ops ++ [(true, i - 1)] })
      else some β1)
  else if tok = TJTok then
    p1.elim (some β1) (fun arr =>
      if arr.head? = some 0x5b && arr.getLast? = some 0x5d then
        (decParts β1.fm (extractTjStrings arr)).map (fun d =>
          { β1 with text := β1.text ++ d, ops := β1.ops ++ [(false, i - 1)] })
      else some β1)
  else some β1

/-- One in-block token of pass 2 (everything between the `BT` reset and
the `ET` decision): the `Tf` switch handling followed by the operand
handling. -/
def bStep (env : FontEnv) (i : Nat) (p1 p2 : Option (List Nat))
    (tok : List Nat) (β : BState) : Option BState :=
  bStepCore i p1 tok (bTf env tok p2 β)

/-- Run `bStep` over a token run (no `BT`/`ET` handling): the block-scan
of a block body. -/
def blockFold (env : FontEnv) :
    List (List Nat) → Nat → Option (List Nat) → Option (List Nat) →
    BState → Option BState
  | [], _, _, _, β => some β
  | tok :: rest, i, p1, p2, β =>
      (bStep env i p1 p2 tok β).elim none (fun β2 =>
        blockFold env rest (i + 1) (some tok) p1 β2)

/-- Outcome of pass 2: the `ET` decision fired with the recorded operands
and the encoded replacement, `return False` from a caught ValueError, an
uncaught raise, or no match. -/
inductive P2Res where
  | success : List (Bool × Nat) → List Nat → P2Res
  | fail : P2Res
  | err : P2Res
  | noMatch : P2Res

/-- The `ET` decision's encode step: success carries the recorded
operands and the encoded replacement. -/
def etOut (β2 : BState) (new : List Char) : P2Res :=
  match encTok β2.fm new with
  | .ok bs => .success β2.ops bs
  | .valErr => .fail
  | .othErr => .err

/-- Pass 2 of `_find_and_replace_text`: `BT` resets the block state from
the outer font state; outside a block only `Tf` is tracked; inside,
`bStep` runs and `ET` takes the block-level decision. -/
def pass2 (env : FontEnv) (tgtS new : List Char) :
    List (List Nat) → Nat → Option (List Nat) → Option (List Nat) →
    FontMode → Bool → BState → P2Res
  | [], _, _, _, _, _, _ => .noMatch
  | tok :: rest, i, p1, p2, fm, inBt, β =>
      if tok = BTTok then
        pass2 env tgtS new rest (i + 1) (some tok) p1 fm true (initB fm)
      else if !inBt then
        pass2 env tgtS new rest (i + 1) (some tok) p1 (tfStep env fm tok p2) false β
      else
        (bStep env i p1 p2 tok β).elim .err (fun β2 =>
          if tok = ETTok then
            if β2.hasUnsafeFont || decide (1 < β2.changes) then
              pass2 env tgtS new rest (i + 1) (some tok) p1 fm false β2
            else if β2.ops.isEmpty || (pyStrip β2.text).isEmpty then
              pass2 env tgtS new rest (i + 1) (some tok) p1 fm false β2
            else if pyStrip β2.text = tgtS then etOut β2 new
            else pass2 env tgtS new rest (i + 1) (some tok) p1 fm false β2
          else pass2 env tgtS new rest (i + 1) (some tok) p1 fm true β2)

/-- The first recorded operand's replacement: the encoded token, bracket
wrapped when the operand belonged to a `TJ`. -/
def applyFirstOp (tokens : List (List Nat)) (op : Bool × Nat)
    (bs : List Nat) : List (List Nat) :=
  tokens.set op.2 (if op.1 then bs else 0x5b :: bs ++ [0x5d])

/-- The remaining recorded operands' replacement with the empty
equivalents `()` / `[()]`, one `tokens[op_idx] = ...` assignment per
operand. -/
def applyRestOps : List (List Nat) → List (Bool × Nat) → List (List Nat)
  | tokens, [] => tokens
  | tokens, q :: rest =>
      applyRestOps (tokens.set q.2 (if q.1 then [0x28, 0x29] else [0x5b, 0x28, 0x29, 0x5d])) rest

/-- Result of `_find_and_replace_text` on a token list: the returned
Boolean (`none` = an uncaught raise) together with the token list as the
call leaves it. -/
structure FRRes where
  ret : Option Bool
  tokens : List (List Nat)

/-- Embedding of `_find_and_replace_text`: pass 1, then pass 2; the token
list is updated only on the `return True` paths. -/
def findAndReplaceText (env : FontEnv) (tokens : List (List Nat))
    (target new : List Char) : FRRes :=
  match pass1 env (pyStrip target) new tokens 0 none none initFM with
  | .found idx bs => ⟨some true, tokens.set idx bs⟩
  | .fail => ⟨some false, tokens⟩
  | .err => ⟨none, tokens⟩
  | .noMatch =>
      match pass2 env (pyStrip target) new tokens 0 none none initFM false
          (initB initFM) with
      | .success ops bs =>
          match ops with
          | [] => ⟨some true, tokens⟩
          | op :: rest => ⟨some true, applyRestOps (applyFirstOp tokens op bs) rest⟩
      | .fail => ⟨some false, tokens⟩
      | .err => ⟨none, tokens⟩
      | .noMatch => ⟨some false, tokens⟩

/-- Embedding of `try_direct_edit`.  `raw` is the page's cleaned content
stream (`none` when there is no content, the stream is empty, or a PyMuPDF
call raised — every such path returns `False` with nothing written).  The
result is `none` when the tokenizer never terminates, otherwise the
returned Boolean together with the stream written by `update_stream`
(`none` = the stream was left untouched). -/
def tryDirectEdit (env : FontEnv) (raw : Option (List Nat))
    (target new : List Char) : Option (Bool × Option (List Nat)) :=
  if target.any (fun c => c = '\n') then some (false, none)
  else
    match raw with
    | none => some (false, none)
    | some r =>
        match tokenizeStream r with
        | none => none
        | some ts =>
            let res := findAndReplaceText env ts target new
            match res.ret with
            | some true => some (true, some (joinTokens res.tokens))
            | _ => some (false, none)

/-- A font environment with no font-level obstacles: every tag resolves
to the simple path with no named encoding (latin-1). -/
def trivEnv : FontEnv := fun _ => ⟨false, false, false, [], [], 1, none⟩

/-- A font environment where tag `F1` is a CID font without a usable
ToUnicode CMap (`_resolve_font` skips it) and every other tag is simple. -/
def cexEnv : FontEnv := fun ft =>
  if ft = [0x46, 0x31] then ⟨true, false, false, [], [], 1, none⟩
  else ⟨false, false, false, [], [], 1, none⟩

/-- The token list `BT (a) Tj (b) Tj /F1 12 Tf ET`. -/
def cexToks : List (List Nat) :=
  [BTTok, [0x28, 0x61, 0x29], TjTok, [0x28, 0x62, 0x29], TjTok,
   [0x2f, 0x46, 0x31], [0x31, 0x32], TfTok, ETTok]

/-- The block body of `cexToks` (the tokens between `BT` and `ET`). -/
def cexBody : List (List Nat) :=
  [[0x28, 0x61, 0x29], TjTok, [0x28, 0x62, 0x29], TjTok,
   [0x2f, 0x46, 0x31], [0x31, 0x32], TfTok]

/-! ## Page text extraction (`text_service.py`)

`extract_text_spans` reads the page's PyMuPDF text dictionary
(`page.get_text("dict")`): blocks of lines of spans, each span carrying
text, font name, size, colour and flags, each line and block a bounding
box.  The dictionary is modelled by the records below; PyMuPDF float
coordinates and sizes are idealised as rationals (the comparisons the
code performs are field arithmetic, faithfully mirrored over `ℚ`).
`round(size, 2)` is modelled with `round`, which agrees with CPython's
bankers rounding except on exact half-way ties, immaterial under the
float idealisation.  Python evaluates `span["font"]` etc. of an item's
first span, which exists for every collected item (its line text has
ink, so some span has ink); the embedding's `none` fall-backs for these
accessors are unreachable. -/

/-- One PyMuPDF text-dict span. -/
structure PSpan where
  text : List Char
  font : List Char
  size : ℚ
  color : Nat
  flags : Nat

/-- A bounding box `(x0, y0, x1, y1)`. -/
structure BBox where
  x0 : ℚ
  y0 : ℚ
  x1 : ℚ
  y1 : ℚ

/-- One text-dict line. -/
structure PLine where
  spans : List PSpan
  bbox : BBox

/-- One text-dict block (`type` 0 = text). -/
structure PBlock where
  btype : Nat
  lines : List PLine

/-- The `SYMBOL_FONT_HINTS` constant from `config.py` (a set; only
membership is used). -/
def SYMBOL_FONT_HINTS : List (List Char) :=
  ["symbol".toList, "zapf".toList, "dingbat".toList, "wingding".toList,
   "webding".toList, "bullet".toList]

/-- Embedding of `.replace(" ", "")`. -/
def dropSpace (s : List Char) : List Char := s.filter (fun c => c ≠ ' ')

/-- The symbol-font test of `_line_is_bullet`. -/
def symbolFontHint (font : List Char) : Bool :=
  SYMBOL_FONT_HINTS.any (fun h => containsSub h (dropSpace (lowerStr font)))

/-- The explicit bullet characters of `_BULLET_RE`'s first alternative. -/
def isBulletSym (c : Char) : Bool :=
  c.toNat = 0x2022 || c.toNat = 0x2023 || c.toNat = 0x25e6 ||
  c.toNat = 0x2043 || c.toNat = 0x2219 || c.toNat = 0xb7 ||
  c.toNat = 0x25aa || c.toNat = 0x25b8 || c.toNat = 0x25ba ||
  c.toNat = 0x25cb || c.toNat = 0x25cf

/-- ASCII letter, the `[a-zA-Z]` class. -/
def isAsciiLetter (c : Char) : Bool := ('a' ≤ c && c ≤ 'z') || ('A' ≤ c && c ≤ 'Z')

/-- ASCII digit, the `\d` class (idealised to ASCII). -/
def isAsciiDigit (c : Char) : Bool := '0' ≤ c && c ≤ '9'

/-- Does the string start with a whitespace character (`\s`)? -/
def headWs : List Char → Bool
  | w :: _ => pyWs w
  | [] => false

/-- Embedding of `_BULLET_RE.match(text)`: after optional leading
whitespace, a bullet character, a Private Use Area character, a
dash/asterisk followed by whitespace, digits followed by `.`/`)` and
whitespace, or a letter followed by `.`/`)` and whitespace. -/
def bulletMatch (text : List Char) : Bool :=
  match text.dropWhile pyWs with
  | [] => false
  | c :: rest =>
      if isBulletSym c then true
      else if 0xe000 ≤ c.toNat && c.toNat ≤ 0xf8ff then true
      else if c.toNat = 0x2013 || c.toNat = 0x2014 || c = '-' || c = '*' then
        headWs rest
      else if isAsciiDigit c then
        match rest.dropWhile isAsciiDigit with
        | p :: r2 => (p = '.' || p = ')') && headWs r2
        | [] => false
      else if isAsciiLetter c then
        match rest with
        | p :: r2 => (p = '.' || p = ')') && headWs r2
        | [] => false
      else false

/-- The span loop of `_line_is_bullet`: skip blank spans; the first inky
span decides by symbol font or bullet text. -/
def lineIsBulletGo : List PSpan → Bool
  | [] => false
  | s :: rest =>
      if !hasInk s.text then lineIsBulletGo rest
      else if symbolFontHint s.font then true
      else bulletMatch s.text

/-- Embedding of `_line_is_bullet`. -/
def lineIsBullet (l : PLine) : Bool := lineIsBulletGo l.spans

/-- `"".join(parts)`: a line's concatenated span text. -/
def lineText (l : PLine) : List Char := (l.spans.map PSpan.text).flatten

/-- The first span of a line with inky text (`line_first_span`). -/
def lineFirstSpan (l : PLine) : Option PSpan :=
  l.spans.find? (fun s => hasInk s.text)

/-- The first span of a block with inky text (`block_first_span`), in
line-then-span order. -/
def blockFirstSpan (b : PBlock) : Option PSpan :=
  ((b.lines.map PLine.spans).flatten).find? (fun s => hasInk s.text)

/-- One collected line: `(line_text, line_bbox, is_bullet,
line_first_span)`. -/
structure RLine where
  text : List Char
  bbox : BBox
  bullet : Bool
  fspan : Option PSpan

/-- The raw-line collection of `_collect_block_lines`: lines whose joined
text has ink. -/
def rawLines (b : PBlock) : List RLine :=
  b.lines.filterMap (fun l =>
    if hasInk (lineText l) then
      some ⟨lineText l, l.bbox, lineIsBullet l, lineFirstSpan l⟩
    else none)

/-- The same-visual-row test (`min_h > 0 and y_overlap > 0.5 * min_h`),
shared by the line merge and the page-item merge. -/
def sameRow (a b : BBox) : Bool :=
  0 < min (a.y1 - a.y0) (b.y1 - b.y0) &&
  (1 / 2 : ℚ) * min (a.y1 - a.y0) (b.y1 - b.y0) <
    min a.y1 b.y1 - max a.y0 b.y0

/-- The enclosing bounding box of two boxes. -/
def unionBox (a b : BBox) : BBox :=
  ⟨min a.x0 b.x0, min a.y0 b.y0, max a.x1 b.x1, max a.y1 b.y1⟩

/-- The merge separator: empty when the left part ends or the right part
starts with a space, one space otherwise. -/
def sepSpace (a b : List Char) : List Char :=
  if a.getLast? = some ' ' || b.head? = some ' ' then [] else [' ']

/-- Merge two same-row lines (`prev + sep + text`, union box, keeping the
earlier bullet flag and first span). -/
def mergeRLine (a b : RLine) : RLine :=
  ⟨a.text ++ sepSpace a.text b.text ++ b.text, unionBox a.bbox b.bbox,
   a.bullet, a.fspan⟩

/-- The same-row merge loop of `_collect_block_lines`: compare each line
with the last kept line, merging or appending. -/
def mergeRows : RLine → List RLine → List RLine
  | last, [] => [last]
  | last, r :: rest =>
      if sameRow last.bbox r.bbox then mergeRows (mergeRLine last r) rest
      else last :: mergeRows r rest

/-- Embedding of `_collect_block_lines`. -/
def collectBlockLines (b : PBlock) : List RLine × Option PSpan :=
  (match rawLines b with
   | [] => []
   | r :: rest => mergeRows r rest,
   blockFirstSpan b)

/-- The gap grouping of `_split_block` for bullet-free blocks: split
between consecutive lines whenever the vertical gap exceeds the previous
line's height (the Python loop builds the same groups left to right). -/
def gapGroups : RLine → List RLine → List (List RLine)
  | l, [] => [[l]]
  | l, r :: rest =>
      if l.bbox.y1 - l.bbox.y0 < r.bbox.y0 - l.bbox.y1 then
        [l] :: gapGroups r rest
      else
        match gapGroups r rest with
        | g :: gs => (l :: g) :: gs
        | [] => [[l]]

/-- The bullet grouping of `_split_block`: a bullet line starts a new
group when the current group is nonempty; other lines continue it. -/
def bulletGroups : List RLine → List RLine → List (List RLine)
  | cur, [] => if cur.isEmpty then [] else [cur]
  | cur, r :: rest =>
      if r.bullet && !cur.isEmpty then cur :: bulletGroups [r] rest
      else bulletGroups (cur ++ [r]) rest

/-- One logical page item: `(text, bbox, first_span)`. -/
structure PItem where
  text : List Char
  bbox : BBox
  fspan : Option PSpan

/-- Embedding of `"\n".join`. -/
def joinNl : List (List Char) → List Char
  | [] => []
  | [t] => t
  | t :: ts => t ++ '\n' :: joinNl ts

/-- Embedding of `_union_bbox` over a nonempty list (the empty case is
never reached). -/
def unionBoxes : List BBox → BBox
  | [] => ⟨0, 0, 0, 0⟩
  | [b] => b
  | b :: bs => unionBox b (unionBoxes bs)

/-- Build one yielded item from a line group: joined text, union box and
the group's first line's first span. -/
def groupItem (g : List RLine) : PItem :=
  ⟨joinNl (g.map RLine.text), unionBoxes (g.map RLine.bbox),
   g.head?.elim none RLine.fspan⟩

/-- Embedding of `_split_block`. -/
def splitBlock (b : PBlock) : List PItem :=
  match collectBlockLines b with
  | ([], _) => []
  | (_, none) => []
  | (l :: ls, some _) =>
      if (l :: ls).any RLine.bullet then
        (bulletGroups [] (l :: ls)).map groupItem
      else (gapGroups l ls).map groupItem

/-- The reading-order key comparison `(y0, x0)` (lexicographic, weak). -/
def keyLe (a b : PItem) : Bool :=
  a.bbox.y0 < b.bbox.y0 || (a.bbox.y0 = b.bbox.y0 && a.bbox.x0 ≤ b.bbox.x0)

/-- Stable insertion for `raw.sort(key=(y0, x0))`: an element goes after
every earlier element with a key not greater than its own. -/
def insertItem (x : PItem) : List PItem → List PItem
  | [] => [x]
  | y :: ys => if keyLe x y then x :: y :: ys else y :: insertItem x ys

/-- Stable sort by `(y0, x0)`, embedding Python's stable `list.sort`. -/
def sortItems : List PItem → List PItem
  | [] => []
  | x :: xs => insertItem x (sortItems xs)

/-- `span.get("size", 12)`; the `none` span is unreachable (see the
section comment). -/
def psize (s : Option PSpan) : ℚ := s.elim 12 PSpan.size

/-- Merge two same-line page items. -/
def mergePItem (a b : PItem) : PItem :=
  ⟨a.text ++ sepSpace a.text b.text ++ b.text, unionBox a.bbox b.bbox,
   a.fspan⟩

/-- The cross-block merge loop of `_collect_page_items`: same visual row
and a small non-negative horizontal gap merge into the previous item. -/
def mergeItems : PItem → List PItem → List PItem
  | last, [] => [last]
  | last, r :: rest =>
      if sameRow last.bbox r.bbox &&
          (0 : ℚ) ≤ r.bbox.x0 - last.bbox.x1 &&
          r.bbox.x0 - last.bbox.x1 < max (psize last.fspan) (psize r.fspan) then
        mergeItems (mergePItem last r) rest
      else last :: mergeItems r rest

/-- Embedding of `_collect_page_items`. -/
def collectPageItems (blocks : List PBlock) : List PItem :=
  match sortItems (((blocks.filter (fun b => b.btype = 0)).map
      splitBlock).flatten) with
  | [] => []
  | r :: rest => mergeItems r rest

/-- Lowercase hex digit character. -/
def hexCharLower (n : Nat) : Char :=
  if n < 10 then Char.ofNat (0x30 + n) else Char.ofNat (0x61 + (n - 10))

/-- Two lowercase hex digits of a byte (`f"{b:02x}"`). -/
def byteHex (b : Nat) : List Char :=
  [hexCharLower (b / 16 % 16), hexCharLower (b % 16)]

/-- Embedding of `_int_to_hex_color`. -/
def intToHexColor (c : Nat) : List Char :=
  '#' :: (byteHex (c / 65536 % 256) ++ byteHex (c / 256 % 256) ++
    byteHex (c % 256))

/-- `round(q, 2)` under the rational idealisation. -/
def round2 (q : ℚ) : ℚ := (round (q * 100) : ℤ) / 100

/-- `span["font"]` of an item's first span (`none` unreachable). -/
def spanFont (s : Option PSpan) : List Char := s.elim [] PSpan.font

/-- `span["color"]` of an item's first span (`none` unreachable). -/
def spanColor (s : Option PSpan) : Nat := s.elim 0 PSpan.color

/-- `span["flags"]` of an item's first span (`none` unreachable). -/
def spanFlags (s : Option PSpan) : Nat := s.elim 0 PSpan.flags

/-- One span dict of `extract_text_spans`'s result. -/
structure SpanOut where
  index : Nat
  text : List Char
  bbox : BBox
  font : List Char
  normFont : List Char
  size : ℚ
  color : List Char
  flags : Nat

/-- Embedding of the span-building loop of `extract_text_spans` on one
page's text dictionary. -/
def extractTextSpans (blocks : List PBlock) : List SpanOut :=
  (collectPageItems blocks).enum.map (fun p =>
    ⟨p.1, p.2.text, p.2.bbox, spanFont p.2.fspan,
     normalizeFont (spanFont p.2.fspan), round2 (psize p.2.fspan),
     intToHexColor (spanColor p.2.fspan), spanFlags p.2.fspan⟩)

/-! ## Helper lemmas -/

theorem pyStrip_ne_nil_iff (s : List Char) : pyStrip s ≠ [] ↔ hasInk s = true := by
  unfold pyStrip hasInk
  constructor
  · intro h
    by_contra hc
    simp only [List.any_eq_true, not_exists, not_and] at hc
    push_neg at hc
    apply h
    have h1 : s.dropWhile pyWs = [] := by
      rw [List.dropWhile_eq_nil_iff]
      intro x hx
      have := hc x hx
      simpa using this
    simp [h1]
  · intro h hnil
    rcases List.any_eq_true.mp h with ⟨c, hc, hcw⟩
    have h1 : s.dropWhile pyWs ≠ [] := by
      intro h0
      rw [List.dropWhile_eq_nil_iff] at h0
      have := h0 c hc
      simp [this] at hcw
    have h3 : ((s.dropWhile pyWs).reverse.dropWhile pyWs) = [] := by
      have := congrArg List.reverse hnil
      simpa using this
    rw [List.dropWhile_eq_nil_iff] at h3
    have h4 : ∀ x ∈ s.dropWhile pyWs, pyWs x = true := by
      intro x hx
      exact h3 x (List.mem_reverse.mpr hx)
    rcases List.exists_cons_of_ne_nil h1 with ⟨a, t, hat⟩
    have ha : pyWs a = false := by
      have := List.head?_dropWhile_not pyWs s
      rw [hat] at this
      simpa using this
    have := h4 a (by rw [hat]; exact List.mem_cons_self a t)
    rw [ha] at this
    exact Bool.false_ne_true this

theorem fontMapScan_eq_find (l : List (List Char × List Char)) (key : List Char) :
    fontMapScan l key = (l.find? fun p => containsSub p.1 key).map Prod.snd := by
  induction l with
  | nil => rfl
  | cons hd tl ih =>
      cases hd with
      | mk pat b14 =>
          by_cases h : containsSub pat key = true
          · simp [fontMapScan, List.find?, h]
          · simp only [Bool.not_eq_true] at h
            simp [fontMapScan, List.find?, h, ih]

theorem setMap_self {α : Type} (m : List Char → α) (k : List Char) (v : α) :
    setMap m k v k = v := by simp [setMap]

theorem setMap_other {α : Type} (m : List Char → α) (k x : List Char) (v : α)
    (h : x ≠ k) : setMap m k v x = m x := by simp [setMap, h]

/-- The per-document size invariant that bounds both snapshot stacks. -/
def histInv (s : HState) : Prop :=
  ∀ d, (s.undoStacks d).length + (s.redoStacks d).length ≤ MAX_UNDO

theorem histInv_init : histInv initHState := by
  intro d
  simp [initHState, MAX_UNDO]

theorem trimLen (L : List (List Nat)) (h : L.length ≤ MAX_UNDO + 1) :
    (if MAX_UNDO < L.length then L.tail else L).length ≤ MAX_UNDO := by
  split
  · simp only [List.length_tail]
    omega
  · omega

theorem histInv_applyHOp (op : HOp) (s : HState) (h : histInv s) :
    histInv (applyHOp op s) := by
  cases op with
  | snap d =>
      intro x
      unfold applyHOp snapshotOp
      by_cases hv : validateDocId d = false
      · simpa [hv] using h x
      · simp only [Bool.not_eq_false] at hv
        cases hf : s.files d with
        | none => simpa [hv, hf] using h x
        | some b =>
            by_cases hx : x = d
            · subst hx
              simp only [hv, hf, Bool.true_eq_false, if_false, setMap_self]
              have hb := h x
              have hlen : (s.undoStacks x ++ [b]).length ≤ MAX_UNDO + 1 := by
                simp only [List.length_append, List.length_cons, List.length_nil]
                omega
              have := trimLen (s.undoStacks x ++ [b]) hlen
              simpa using this
            · simp [hv, hf, setMap_other _ _ _ _ hx]
              exact h x
  | und d =>
      intro x
      unfold applyHOp undoOp
      by_cases hv : validateDocId d = false
      · simpa [hv] using h x
      · simp only [Bool.not_eq_false] at hv
        cases hu : s.undoStacks d with
        | nil => simpa [hv, hu] using h x
        | cons a rest =>
            cases hf : s.files d with
            | none => simpa [hv, hu, hf] using h x
            | some cur =>
                by_cases hx : x = d
                · subst hx
                  have hb := h x
                  rw [hu] at hb
                  simp only [hv, hu, hf, Bool.true_eq_false, if_false, setMap_self]
                  simp only [List.length_append, List.length_cons, List.length_nil,
                    List.length_dropLast]
                  simp only [List.length_cons] at hb ⊢
                  omega
                · simp only [hv, hu, hf, Bool.true_eq_false, if_false,
                    setMap_other _ _ _ _ hx]
                  exact h x
  | red d =>
      intro x
      unfold applyHOp redoOp
      by_cases hv : validateDocId d = false
      · simpa [hv] using h x
      · simp only [Bool.not_eq_false] at hv
        cases hu : s.redoStacks d with
        | nil => simpa [hv, hu] using h x
        | cons a rest =>
            cases hf : s.files d with
            | none => simpa [hv, hu, hf] using h x
            | some cur =>
                by_cases hx : x = d
                · subst hx
                  have hb := h x
                  rw [hu] at hb
                  simp only [hv, hu, hf, Bool.true_eq_false, if_false, setMap_self]
                  simp only [List.length_append, List.length_cons, List.length_nil,
                    List.length_dropLast]
                  simp only [List.length_cons] at hb ⊢
                  omega
                · simp only [hv, hu, hf, Bool.true_eq_false, if_false,
                    setMap_other _ _ _ _ hx]
                  exact h x
  | write d b =>
      intro x
      unfold applyHOp writeOp
      simpa using h x

theorem histInv_applyHOps (ops : List HOp) (s : HState) (h : histInv s) :
    histInv (applyHOps ops s) := by
  induction ops generalizing s with
  | nil => exact h
  | cons op rest ih => exact ih _ (histInv_applyHOp op s h)

theorem scanStr_eq_bs (y : Nat) (ys : List Nat) (d : Nat) :
    scanStr (0x5c :: y :: ys) d = (scanStr ys d).map (fun p => (0x5c :: y :: p.1, p.2)) := rfl

theorem scanStr_eq_bs1 (d : Nat) : scanStr [0x5c] d = none := rfl

theorem scanStr_eq_open (rest : List Nat) (d : Nat) :
    scanStr (0x28 :: rest) d = (scanStr rest (d + 1)).map (fun p => (0x28 :: p.1, p.2)) := by
  rw [scanStr.eq_def]
  simp

theorem scanStr_eq_close0 (rest : List Nat) :
    scanStr (0x29 :: rest) 0 = some ([0x29], rest) := by
  rw [scanStr.eq_def]
  simp

theorem scanStr_eq_closeS (rest : List Nat) (e : Nat) :
    scanStr (0x29 :: rest) (e + 1) = (scanStr rest e).map (fun p => (0x29 :: p.1, p.2)) := by
  rw [scanStr.eq_def]
  simp

theorem scanStr_eq_other (b : Nat) (rest : List Nat) (d : Nat)
    (h1 : ¬ b = 0x5c) (h2 : ¬ b = 0x28) (h3 : ¬ b = 0x29) :
    scanStr (b :: rest) d = (scanStr rest d).map (fun p => (b :: p.1, p.2)) := by
  rw [scanStr.eq_def]
  simp [h1, h2, h3]

theorem scanHex_eq_gt (rest : List Nat) : scanHex (0x3e :: rest) = some ([0x3e], rest) := rfl

theorem scanHex_eq_other (b : Nat) (rest : List Nat) (h : ¬ b = 0x3e) :
    scanHex (b :: rest) = (scanHex rest).map (fun p => (b :: p.1, p.2)) := by
  rw [scanHex.eq_def]
  simp [h]

theorem scanStr_pre (xs : List Nat) (d : Nat) :
    ∀ c r, scanStr xs d = some (c, r) → xs = c ++ r := by
  induction xs, d using scanStr.induct with
  | case1 d => intro c r h; simp [scanStr] at h
  | case2 d => intro c r h; rw [scanStr_eq_bs1] at h; cases h
  | case3 d y ys ih =>
      intro c r h
      rw [scanStr_eq_bs] at h
      cases hsc : scanStr ys d with
      | none => rw [hsc] at h; cases h
      | some p =>
          obtain ⟨c1, r1⟩ := p
          rw [hsc] at h
          simp only [Option.map_some', Option.some_inj] at h
          injection h with h1 h2
          subst h1; subst h2
          simp [ih c1 r1 hsc]
  | case4 rest d hb ih =>
      intro c r h
      rw [scanStr_eq_open] at h
      cases hsc : scanStr rest (d + 1) with
      | none => rw [hsc] at h; cases h
      | some p =>
          obtain ⟨c1, r1⟩ := p
          rw [hsc] at h
          simp only [Option.map_some', Option.some_inj] at h
          injection h with h1 h2
          subst h1; subst h2
          simp [ih c1 r1 hsc]
  | case5 rest h1 h2 =>
      intro c r h
      rw [scanStr_eq_close0] at h
      injection h with h3
      injection h3 with h4 h5
      subst h4; subst h5
      rfl
  | case6 rest e h1 h2 ih =>
      intro c r h
      rw [scanStr_eq_closeS] at h
      cases hsc : scanStr rest e with
      | none => rw [hsc] at h; cases h
      | some p =>
          obtain ⟨c1, r1⟩ := p
          rw [hsc] at h
          simp only [Option.map_some', Option.some_inj] at h
          injection h with h4 h5
          subst h4; subst h5
          simp [ih c1 r1 hsc]
  | case7 b rest d h1 h2 h3 ih =>
      intro c r h
      rw [scanStr_eq_other b rest d h1 h2 h3] at h
      cases hsc : scanStr rest d with
      | none => rw [hsc] at h; cases h
      | some p =>
          obtain ⟨c1, r1⟩ := p
          rw [hsc] at h
          simp only [Option.map_some', Option.some_inj] at h
          injection h with h4 h5
          subst h4; subst h5
          simp [ih c1 r1 hsc]

theorem scanStr_self (xs : List Nat) (d : Nat) :
    ∀ c r, scanStr xs d = some (c, r) → scanStr c d = some (c, []) := by
  induction xs, d using scanStr.induct with
  | case1 d => intro c r h; simp [scanStr] at h
  | case2 d => intro c r h; rw [scanStr_eq_bs1] at h; cases h
  | case3 d y ys ih =>
      intro c r h
      rw [scanStr_eq_bs] at h
      cases hsc : scanStr ys d with
      | none => rw [hsc] at h; cases h
      | some p =>
          obtain ⟨c1, r1⟩ := p
          rw [hsc] at h
          simp only [Option.map_some', Option.some_inj] at h
          injection h with h1 h2
          subst h1; subst h2
          rw [scanStr_eq_bs, ih c1 r1 hsc]
          rfl
  | case4 rest d hb ih =>
      intro c r h
      rw [scanStr_eq_open] at h
      cases hsc : scanStr rest (d + 1) with
      | none => rw [hsc] at h; cases h
      | some p =>
          obtain ⟨c1, r1⟩ := p
          rw [hsc] at h
          simp only [Option.map_some', Option.some_inj] at h
          injection h with h1 h2
          subst h1; subst h2
          rw [scanStr_eq_open, ih c1 r1 hsc]
          rfl
  | case5 rest h1 h2 =>
      intro c r h
      rw [scanStr_eq_close0] at h
      injection h with h3
      injection h3 with h4 h5
      subst h4; subst h5
      rw [scanStr_eq_close0]
  | case6 rest e h1 h2 ih =>
      intro c r h
      rw [scanStr_eq_closeS] at h
      cases hsc : scanStr rest e with
      | none => rw [hsc] at h; cases h
      | some p =>
          obtain ⟨c1, r1⟩ := p
          rw [hsc] at h
          simp only [Option.map_some', Option.some_inj] at h
          injection h with h4 h5
          subst h4; subst h5
          rw [scanStr_eq_closeS, ih c1 r1 hsc]
          rfl
  | case7 b rest d h1 h2 h3 ih =>
      intro c r h
      rw [scanStr_eq_other b rest d h1 h2 h3] at h
      cases hsc : scanStr rest d with
      | none => rw [hsc] at h; cases h
      | some p =>
          obtain ⟨c1, r1⟩ := p
          rw [hsc] at h
          simp only [Option.map_some', Option.some_inj] at h
          injection h with h4 h5
          subst h4; subst h5
          rw [scanStr_eq_other b c1 d h1 h2 h3, ih c1 r1 hsc]
          rfl

theorem scanStr_local (xs : List Nat) (d : Nat) :
    ∀ c r, scanStr xs d = some (c, r) → ∀ t, scanStr (xs ++ t) d = some (c, r ++ t) := by
  induction xs, d using scanStr.induct with
  | case1 d => intro c r h; simp [scanStr] at h
  | case2 d => intro c r h; rw [scanStr_eq_bs1] at h; cases h
  | case3 d y ys ih =>
      intro c r h t
      rw [scanStr_eq_bs] at h
      cases hsc : scanStr ys d with
      | none => rw [hsc] at h; cases h
      | some p =>
          obtain ⟨c1, r1⟩ := p
          rw [hsc] at h
          simp only [Option.map_some', Option.some_inj] at h
          injection h with h1 h2
          subst h1; subst h2
          rw [show (0x5c :: y :: ys) ++ t = 0x5c :: y :: (ys ++ t) from rfl]
          rw [scanStr_eq_bs, ih c1 r1 hsc t]
          rfl
  | case4 rest d hb ih =>
      intro c r h t
      rw [scanStr_eq_open] at h
      cases hsc : scanStr rest (d + 1) with
      | none => rw [hsc] at h; cases h
      | some p =>
          obtain ⟨c1, r1⟩ := p
          rw [hsc] at h
          simp only [Option.map_some', Option.some_inj] at h
          injection h with h1 h2
          subst h1; subst h2
          rw [show (0x28 :: rest) ++ t = 0x28 :: (rest ++ t) from rfl]
          rw [scanStr_eq_open, ih c1 r1 hsc t]
          rfl
  | case5 rest h1 h2 =>
      intro c r h t
      rw [scanStr_eq_close0] at h
      injection h with h3
      injection h3 with h4 h5
      subst h4; subst h5
      rw [show (0x29 :: rest) ++ t = 0x29 :: (rest ++ t) from rfl]
      rw [scanStr_eq_close0]
  | case6 rest e h1 h2 ih =>
      intro c r h t
      rw [scanStr_eq_closeS] at h
      cases hsc : scanStr rest e with
      | none => rw [hsc] at h; cases h
      | some p =>
          obtain ⟨c1, r1⟩ := p
          rw [hsc] at h
          simp only [Option.map_some', Option.some_inj] at h
          injection h with h4 h5
          subst h4; subst h5
          rw [show (0x29 :: rest) ++ t = 0x29 :: (rest ++ t) from rfl]
          rw [scanStr_eq_closeS, ih c1 r1 hsc t]
          rfl
  | case7 b rest d h1 h2 h3 ih =>
      intro c r h t
      rw [scanStr_eq_other b rest d h1 h2 h3] at h
      cases hsc : scanStr rest d with
      | none => rw [hsc] at h; cases h
      | some p =>
          obtain ⟨c1, r1⟩ := p
          rw [hsc] at h
          simp only [Option.map_some', Option.some_inj] at h
          injection h with h4 h5
          subst h4; subst h5
          rw [show (b :: rest) ++ t = b :: (rest ++ t) from rfl]
          rw [scanStr_eq_other b (rest ++ t) d h1 h2 h3, ih c1 r1 hsc t]
          rfl

theorem scanHex_pre (xs : List Nat) :
    ∀ c r, scanHex xs = some (c, r) → xs = c ++ r := by
  induction xs with
  | nil => intro c r h; simp [scanHex] at h
  | cons b rest ih =>
      intro c r h
      by_cases hb : b = 0x3e
      · subst hb
        rw [scanHex_eq_gt] at h
        injection h with h3
        injection h3 with h4 h5
        subst h4; subst h5
        rfl
      · rw [scanHex_eq_other b rest hb] at h
        cases hsc : scanHex rest with
        | none => rw [hsc] at h; cases h
        | some p =>
            obtain ⟨c1, r1⟩ := p
            rw [hsc] at h
            simp only [Option.map_some', Option.some_inj] at h
            injection h with h4 h5
            subst h4; subst h5
            simp [ih c1 r1 hsc]

theorem scanHex_self (xs : List Nat) :
    ∀ c r, scanHex xs = some (c, r) → scanHex c = some (c, []) := by
  induction xs with
  | nil => intro c r h; simp [scanHex] at h
  | cons b rest ih =>
      intro c r h
      by_cases hb : b = 0x3e
      · subst hb
        rw [scanHex_eq_gt] at h
        injection h with h3
        injection h3 with h4 h5
        subst h4; subst h5
        rw [scanHex_eq_gt]
      · rw [scanHex_eq_other b rest hb] at h
        cases hsc : scanHex rest with
        | none => rw [hsc] at h; cases h
        | some p =>
            obtain ⟨c1, r1⟩ := p
            rw [hsc] at h
            simp only [Option.map_some', Option.some_inj] at h
            injection h with h4 h5
            subst h4; subst h5
            rw [scanHex_eq_other b c1 hb, ih c1 r1 hsc]
            rfl

theorem scanHex_local (xs : List Nat) :
    ∀ c r, scanHex xs = some (c, r) → ∀ t, scanHex (xs ++ t) = some (c, r ++ t) := by
  induction xs with
  | nil => intro c r h; simp [scanHex] at h
  | cons b rest ih =>
      intro c r h t
      by_cases hb : b = 0x3e
      · subst hb
        rw [scanHex_eq_gt] at h
        injection h with h3
        injection h3 with h4 h5
        subst h4; subst h5
        rw [show (0x3e :: rest) ++ t = 0x3e :: (rest ++ t) from rfl]
        rw [scanHex_eq_gt]
      · rw [scanHex_eq_other b rest hb] at h
        cases hsc : scanHex rest with
        | none => rw [hsc] at h; cases h
        | some p =>
            obtain ⟨c1, r1⟩ := p
            rw [hsc] at h
            simp only [Option.map_some', Option.some_inj] at h
            injection h with h4 h5
            subst h4; subst h5
            rw [show (b :: rest) ++ t = b :: (rest ++ t) from rfl]
            rw [scanHex_eq_other b (rest ++ t) hb, ih c1 r1 hsc t]
            rfl

theorem scanHex_head (xs : List Nat) (c r : List Nat) (h : scanHex xs = some (c, r)) :
    c.head? = xs.head? := by
  cases xs with
  | nil => simp [scanHex] at h
  | cons b rest =>
      by_cases hb : b = 0x3e
      · subst hb
        rw [scanHex_eq_gt] at h
        injection h with h3
        injection h3 with h4 h5
        subst h4
        rfl
      · rw [scanHex_eq_other b rest hb] at h
        cases hsc : scanHex rest with
        | none => rw [hsc] at h; cases h
        | some p =>
            obtain ⟨c1, r1⟩ := p
            rw [hsc] at h
            simp only [Option.map_some', Option.some_inj] at h
            injection h with h4 h5
            subst h4
            rfl

theorem omap_some {α β : Type} (F : α → β) (o : Option α) (v : β)
    (h : o.map F = some v) : ∃ a, o = some a ∧ F a = v := by
  cases o with
  | none => simp at h
  | some a =>
      simp only [Option.map_some', Option.some_inj] at h
      exact ⟨a, rfl, h⟩

theorem scanArrF_eq_zero (xs : List Nat) (d : Nat) : scanArrF 0 xs d = none := rfl

theorem scanArrF_eq_nil (f d : Nat) : scanArrF (f + 1) [] d = some none := rfl

theorem scanArrF_str_none (f : Nat) (rest : List Nat) (d : Nat)
    (hs : scanStr rest 0 = none) : scanArrF (f + 1) (0x28 :: rest) d = some none := by
  rw [scanArrF.eq_def]
  simp [hs]

theorem scanArrF_str_some (f : Nat) (rest : List Nat) (d : Nat) (c1 r1 : List Nat)
    (hs : scanStr rest 0 = some (c1, r1)) :
    scanArrF (f + 1) (0x28 :: rest) d =
      (scanArrF f r1 d).map (Option.map (fun p => (0x28 :: (c1 ++ p.1), p.2))) := by
  rw [scanArrF.eq_def]
  simp [hs]

theorem scanArrF_lt2 (f : Nat) (rest : List Nat) (d : Nat)
    (hh : rest.head? = some 0x3c) :
    scanArrF (f + 1) (0x3c :: rest) d =
      (scanArrF f rest d).map (Option.map (fun p => (0x3c :: p.1, p.2))) := by
  rw [scanArrF.eq_def]
  simp [hh]

theorem scanArrF_hex_none (f : Nat) (rest : List Nat) (d : Nat)
    (hh : ¬ rest.head? = some 0x3c) (hs : scanHex rest = none) :
    scanArrF (f + 1) (0x3c :: rest) d = some none := by
  rw [scanArrF.eq_def]
  simp [hh, hs]

theorem scanArrF_hex_some (f : Nat) (rest : List Nat) (d : Nat) (c1 r1 : List Nat)
    (hh : ¬ rest.head? = some 0x3c) (hs : scanHex rest = some (c1, r1)) :
    scanArrF (f + 1) (0x3c :: rest) d =
      (scanArrF f r1 d).map (Option.map (fun p => (0x3c :: (c1 ++ p.1), p.2))) := by
  rw [scanArrF.eq_def]
  simp [hh, hs]

theorem scanArrF_openBr (f : Nat) (rest : List Nat) (d : Nat) :
    scanArrF (f + 1) (0x5b :: rest) d =
      (scanArrF f rest (d + 1)).map (Option.map (fun p => (0x5b :: p.1, p.2))) := by
  rw [scanArrF.eq_def]
  simp

theorem scanArrF_close0 (f : Nat) (rest : List Nat) :
    scanArrF (f + 1) (0x5d :: rest) 0 = some (some ([0x5d], rest)) := by
  rw [scanArrF.eq_def]
  simp

theorem scanArrF_closeS (f : Nat) (rest : List Nat) (e : Nat) :
    scanArrF (f + 1) (0x5d :: rest) (e + 1) =
      (scanArrF f rest e).map (Option.map (fun p => (0x5d :: p.1, p.2))) := by
  rw [scanArrF.eq_def]
  simp

theorem scanArrF_other (f : Nat) (b : Nat) (rest : List Nat) (d : Nat)
    (h1 : ¬ b = 0x28) (h2 : ¬ b = 0x3c) (h3 : ¬ b = 0x5b) (h4 : ¬ b = 0x5d) :
    scanArrF (f + 1) (b :: rest) d =
      (scanArrF f rest d).map (Option.map (fun p => (b :: p.1, p.2))) := by
  rw [scanArrF.eq_def]
  simp [h1, h2, h3, h4]

theorem scanArrF_pre (f : Nat) :
    ∀ (xs : List Nat) (d : Nat) (c r : List Nat),
    scanArrF f xs d = some (some (c, r)) → xs = c ++ r := by
  induction f with
  | zero => intro xs d c r h; rw [scanArrF_eq_zero] at h; cases h
  | succ f ih =>
      intro xs d c r h
      cases xs with
      | nil =>
          rw [scanArrF_eq_nil] at h
          injection h with h2
          cases h2
      | cons b rest =>
          by_cases hb1 : b = 0x28
          · subst hb1
            cases hs : scanStr rest 0 with
            | none =>
                rw [scanArrF_str_none f rest d hs] at h
                injection h with h2; cases h2
            | some q =>
                obtain ⟨c1, r1⟩ := q
                rw [scanArrF_str_some f rest d c1 r1 hs] at h
                obtain ⟨res, hres, hval⟩ := omap_some _ _ _ h
                cases res with
                | none => simp at hval
                | some p =>
                    obtain ⟨c2, r2⟩ := p
                    simp only [Option.map_some', Option.some_inj] at hval
                    injection hval with hv1 hv2
                    subst hv1; subst hv2
                    have e1 := scanStr_pre rest 0 c1 r1 hs
                    have e2 := ih r1 d c2 r2 hres
                    simp [e1, e2]
          · by_cases hb2 : b = 0x3c
            · subst hb2
              by_cases hh : rest.head? = some 0x3c
              · rw [scanArrF_lt2 f rest d hh] at h
                obtain ⟨res, hres, hval⟩ := omap_some _ _ _ h
                cases res with
                | none => simp at hval
                | some p =>
                    obtain ⟨c2, r2⟩ := p
                    simp only [Option.map_some', Option.some_inj] at hval
                    injection hval with hv1 hv2
                    subst hv1; subst hv2
                    simp [ih rest d c2 r2 hres]
              · cases hs : scanHex rest with
                | none =>
                    rw [scanArrF_hex_none f rest d hh hs] at h
                    injection h with h2; cases h2
                | some q =>
                    obtain ⟨c1, r1⟩ := q
                    rw [scanArrF_hex_some f rest d c1 r1 hh hs] at h
                    obtain ⟨res, hres, hval⟩ := omap_some _ _ _ h
                    cases res with
                    | none => simp at hval
                    | some p =>
                        obtain ⟨c2, r2⟩ := p
                        simp only [Option.map_some', Option.some_inj] at hval
                        injection hval with hv1 hv2
                        subst hv1; subst hv2
                        have e1 := scanHex_pre rest c1 r1 hs
                        have e2 := ih r1 d c2 r2 hres
                        simp [e1, e2]
            · by_cases hb3 : b = 0x5b
              · subst hb3
                rw [scanArrF_openBr] at h
                obtain ⟨res, hres, hval⟩ := omap_some _ _ _ h
                cases res with
                | none => simp at hval
                | some p =>
                    obtain ⟨c2, r2⟩ := p
                    simp only [Option.map_some', Option.some_inj] at hval
                    injection hval with hv1 hv2
                    subst hv1; subst hv2
                    simp [ih rest (d + 1) c2 r2 hres]
              · by_cases hb4 : b = 0x5d
                · subst hb4
                  cases d with
                  | zero =>
                      rw [scanArrF_close0] at h
                      injection h with h2
                      injection h2 with h3
                      injection h3 with h4 h5
                      subst h4; subst h5
                      rfl
                  | succ e =>
                      rw [scanArrF_closeS] at h
                      obtain ⟨res, hres, hval⟩ := omap_some _ _ _ h
                      cases res with
                      | none => simp at hval
                      | some p =>
                          obtain ⟨c2, r2⟩ := p
                          simp only [Option.map_some', Option.some_inj] at hval
                          injection hval with hv1 hv2
                          subst hv1; subst hv2
                          simp [ih rest e c2 r2 hres]
                · rw [scanArrF_other f b rest d hb1 hb2 hb3 hb4] at h
                  obtain ⟨res, hres, hval⟩ := omap_some _ _ _ h
                  cases res with
                  | none => simp at hval
                  | some p =>
                      obtain ⟨c2, r2⟩ := p
                      simp only [Option.map_some', Option.some_inj] at hval
                      injection hval with hv1 hv2
                      subst hv1; subst hv2
                      simp [ih rest d c2 r2 hres]

theorem scanArrF_total (f : Nat) :
    ∀ (xs : List Nat) (d : Nat), xs.length < f → scanArrF f xs d ≠ none := by
  induction f with
  | zero => intro xs d h; omega
  | succ f ih =>
      intro xs d hlen
      cases xs with
      | nil => rw [scanArrF_eq_nil]; simp
      | cons b rest =>
          simp only [List.length_cons] at hlen
          by_cases hb1 : b = 0x28
          · subst hb1
            cases hs : scanStr rest 0 with
            | none => rw [scanArrF_str_none f rest d hs]; simp
            | some q =>
                obtain ⟨c1, r1⟩ := q
                rw [scanArrF_str_some f rest d c1 r1 hs]
                have hr1 : r1.length < f := by
                  have e1 := scanStr_pre rest 0 c1 r1 hs
                  have e2 : rest.length = c1.length + r1.length := by rw [e1]; simp
                  omega
                cases ha : scanArrF f r1 d with
                | none => exact absurd ha (ih r1 d hr1)
                | some res => simp [ha]
          · by_cases hb2 : b = 0x3c
            · subst hb2
              by_cases hh : rest.head? = some 0x3c
              · rw [scanArrF_lt2 f rest d hh]
                cases ha : scanArrF f rest d with
                | none => exact absurd ha (ih rest d (by omega))
                | some res => simp [ha]
              · cases hs : scanHex rest with
                | none => rw [scanArrF_hex_none f rest d hh hs]; simp
                | some q =>
                    obtain ⟨c1, r1⟩ := q
                    rw [scanArrF_hex_some f rest d c1 r1 hh hs]
                    have hr1 : r1.length < f := by
                      have e1 := scanHex_pre rest c1 r1 hs
                      have e2 : rest.length = c1.length + r1.length := by rw [e1]; simp
                      omega
                    cases ha : scanArrF f r1 d with
                    | none => exact absurd ha (ih r1 d hr1)
                    | some res => simp [ha]
            · by_cases hb3 : b = 0x5b
              · subst hb3
                rw [scanArrF_openBr]
                cases ha : scanArrF f rest (d + 1) with
                | none => exact absurd ha (ih rest (d + 1) (by omega))
                | some res => simp [ha]
              · by_cases hb4 : b = 0x5d
                · subst hb4
                  cases d with
                  | zero => rw [scanArrF_close0]; simp
                  | succ e =>
                      rw [scanArrF_closeS]
                      cases ha : scanArrF f rest e with
                      | none => exact absurd ha (ih rest e (by omega))
                      | some res => simp [ha]
                · rw [scanArrF_other f b rest d hb1 hb2 hb3 hb4]
                  cases ha : scanArrF f rest d with
                  | none => exact absurd ha (ih rest d (by omega))
                  | some res => simp [ha]

theorem scanArrF_mono (f : Nat) :
    ∀ (xs : List Nat) (d : Nat) (res : Option (List Nat × List Nat)) (k : Nat),
    scanArrF f xs d = some res → scanArrF (f + k) xs d = some res := by
  induction f with
  | zero => intro xs d res k h; rw [scanArrF_eq_zero] at h; cases h
  | succ f ih =>
      intro xs d res k h
      have hfk : f + 1 + k = (f + k) + 1 := by omega
      cases xs with
      | nil =>
          rw [scanArrF_eq_nil] at h
          rw [hfk, scanArrF_eq_nil]
          exact h
      | cons b rest =>
          by_cases hb1 : b = 0x28
          · subst hb1
            cases hs : scanStr rest 0 with
            | none =>
                rw [scanArrF_str_none f rest d hs] at h
                rw [hfk, scanArrF_str_none (f + k) rest d hs]
                exact h
            | some q =>
                obtain ⟨c1, r1⟩ := q
                rw [scanArrF_str_some f rest d c1 r1 hs] at h
                rw [hfk, scanArrF_str_some (f + k) rest d c1 r1 hs]
                obtain ⟨res2, hres2, hval⟩ := omap_some _ _ _ h
                rw [ih r1 d res2 k hres2, ← hval]
                rfl
          · by_cases hb2 : b = 0x3c
            · subst hb2
              by_cases hh : rest.head? = some 0x3c
              · rw [scanArrF_lt2 f rest d hh] at h
                rw [hfk, scanArrF_lt2 (f + k) rest d hh]
                obtain ⟨res2, hres2, hval⟩ := omap_some _ _ _ h
                rw [ih rest d res2 k hres2, ← hval]
                rfl
              · cases hs : scanHex rest with
                | none =>
                    rw [scanArrF_hex_none f rest d hh hs] at h
                    rw [hfk, scanArrF_hex_none (f + k) rest d hh hs]
                    exact h
                | some q =>
                    obtain ⟨c1, r1⟩ := q
                    rw [scanArrF_hex_some f rest d c1 r1 hh hs] at h
                    rw [hfk, scanArrF_hex_some (f + k) rest d c1 r1 hh hs]
                    obtain ⟨res2, hres2, hval⟩ := omap_some _ _ _ h
                    rw [ih r1 d res2 k hres2, ← hval]
                    rfl
            · by_cases hb3 : b = 0x5b
              · subst hb3
                rw [scanArrF_openBr] at h
                rw [hfk, scanArrF_openBr]
                obtain ⟨res2, hres2, hval⟩ := omap_some _ _ _ h
                rw [ih rest (d + 1) res2 k hres2, ← hval]
                rfl
              · by_cases hb4 : b = 0x5d
                · subst hb4
                  cases d with
                  | zero =>
                      rw [scanArrF_close0] at h
                      rw [hfk, scanArrF_close0]
                      exact h
                  | succ e =>
                      rw [scanArrF_closeS] at h
                      rw [hfk, scanArrF_closeS]
                      obtain ⟨res2, hres2, hval⟩ := omap_some _ _ _ h
                      rw [ih rest e res2 k hres2, ← hval]
                      rfl
                · rw [scanArrF_other f b rest d hb1 hb2 hb3 hb4] at h
                  rw [hfk, scanArrF_other (f + k) b rest d hb1 hb2 hb3 hb4]
                  obtain ⟨res2, hres2, hval⟩ := omap_some _ _ _ h
                  rw [ih rest d res2 k hres2, ← hval]
                  rfl

theorem scanArrF_head (f : Nat) (xs : List Nat) (d : Nat) (c r : List Nat)
    (h : scanArrF f xs d = some (some (c, r))) : c.head? = xs.head? := by
  cases f with
  | zero => rw [scanArrF_eq_zero] at h; cases h
  | succ f =>
      cases xs with
      | nil => rw [scanArrF_eq_nil] at h; injection h with h2; cases h2
      | cons b rest =>
          by_cases hb1 : b = 0x28
          · subst hb1
            cases hs : scanStr rest 0 with
            | none =>
                rw [scanArrF_str_none f rest d hs] at h
                injection h with h2; cases h2
            | some q =>
                obtain ⟨c1, r1⟩ := q
                rw [scanArrF_str_some f rest d c1 r1 hs] at h
                obtain ⟨res, hres, hval⟩ := omap_some _ _ _ h
                cases res with
                | none => simp at hval
                | some p =>
                    simp only [Option.map_some', Option.some_inj] at hval
                    injection hval with hv1 hv2
                    subst hv1
                    rfl
          · by_cases hb2 : b = 0x3c
            · subst hb2
              by_cases hh : rest.head? = some 0x3c
              · rw [scanArrF_lt2 f rest d hh] at h
                obtain ⟨res, hres, hval⟩ := omap_some _ _ _ h
                cases res with
                | none => simp at hval
                | some p =>
                    simp only [Option.map_some', Option.some_inj] at hval
                    injection hval with hv1 hv2
                    subst hv1
                    rfl
              · cases hs : scanHex rest with
                | none =>
                    rw [scanArrF_hex_none f rest d hh hs] at h
                    injection h with h2; cases h2
                | some q =>
                    obtain ⟨c1, r1⟩ := q
                    rw [scanArrF_hex_some f rest d c1 r1 hh hs] at h
                    obtain ⟨res, hres, hval⟩ := omap_some _ _ _ h
                    cases res with
                    | none => simp at hval
                    | some p =>
                        simp only [Option.map_some', Option.some_inj] at hval
                        injection hval with hv1 hv2
                        subst hv1
                        rfl
            · by_cases hb3 : b = 0x5b
              · subst hb3
                rw [scanArrF_openBr] at h
                obtain ⟨res, hres, hval⟩ := omap_some _ _ _ h
                cases res with
                | none => simp at hval
                | some p =>
                    simp only [Option.map_some', Option.some_inj] at hval
                    injection hval with hv1 hv2
                    subst hv1
                    rfl
              · by_cases hb4 : b = 0x5d
                · subst hb4
                  cases d with
                  | zero =>
                      rw [scanArrF_close0] at h
                      injection h with h2
                      injection h2 with h3
                      injection h3 with h4 h5
                      subst h4
                      rfl
                  | succ e =>
                      rw [scanArrF_closeS] at h
                      obtain ⟨res, hres, hval⟩ := omap_some _ _ _ h
                      cases res with
                      | none => simp at hval
                      | some p =>
                          simp only [Option.map_some', Option.some_inj] at hval
                          injection hval with hv1 hv2
                          subst hv1
                          rfl
                · rw [scanArrF_other f b rest d hb1 hb2 hb3 hb4] at h
                  obtain ⟨res, hres, hval⟩ := omap_some _ _ _ h
                  cases res with
                  | none => simp at hval
                  | some p =>
                      simp only [Option.map_some', Option.some_inj] at hval
                      injection hval with hv1 hv2
                      subst hv1
                      rfl

theorem scanArrF_local (f : Nat) :
    ∀ (xs : List Nat) (d : Nat) (c r t : List Nat),
    scanArrF f xs d = some (some (c, r)) →
    scanArrF f (xs ++ t) d = some (some (c, r ++ t)) := by
  induction f with
  | zero => intro xs d c r t h; rw [scanArrF_eq_zero] at h; cases h
  | succ f ih =>
      intro xs d c r t h
      cases xs with
      | nil => rw [scanArrF_eq_nil] at h; injection h with h2; cases h2
      | cons b rest =>
          by_cases hb1 : b = 0x28
          · subst hb1
            cases hs : scanStr rest 0 with
            | none =>
                rw [scanArrF_str_none f rest d hs] at h
                injection h with h2; cases h2
            | some q =>
                obtain ⟨c1, r1⟩ := q
                rw [scanArrF_str_some f rest d c1 r1 hs] at h
                obtain ⟨res, hres, hval⟩ := omap_some _ _ _ h
                cases res with
                | none => simp at hval
                | some p =>
                    obtain ⟨c2, r2⟩ := p
                    simp only [Option.map_some', Option.some_inj] at hval
                    injection hval with hv1 hv2
                    subst hv1; subst hv2
                    show scanArrF (f + 1) (0x28 :: (rest ++ t)) d = _
                    rw [scanArrF_str_some f (rest ++ t) d c1 (r1 ++ t)
                        (scanStr_local rest 0 c1 r1 hs t)]
                    rw [ih r1 d c2 r2 t hres]
                    rfl
          · by_cases hb2 : b = 0x3c
            · subst hb2
              by_cases hh : rest.head? = some 0x3c
              · rw [scanArrF_lt2 f rest d hh] at h
                obtain ⟨res, hres, hval⟩ := omap_some _ _ _ h
                cases res with
                | none => simp at hval
                | some p =>
                    obtain ⟨c2, r2⟩ := p
                    simp only [Option.map_some', Option.some_inj] at hval
                    injection hval with hv1 hv2
                    subst hv1; subst hv2
                    have hh2 : (rest ++ t).head? = some 0x3c := by
                      cases rest with
                      | nil => simp at hh
                      | cons y ys => simpa using hh
                    show scanArrF (f + 1) (0x3c :: (rest ++ t)) d = _
                    rw [scanArrF_lt2 f (rest ++ t) d hh2]
                    rw [ih rest d c2 r2 t hres]
                    rfl
              · cases hs : scanHex rest with
                | none =>
                    rw [scanArrF_hex_none f rest d hh hs] at h
                    injection h with h2; cases h2
                | some q =>
                    obtain ⟨c1, r1⟩ := q
                    rw [scanArrF_hex_some f rest d c1 r1 hh hs] at h
                    obtain ⟨res, hres, hval⟩ := omap_some _ _ _ h
                    cases res with
                    | none => simp at hval
                    | some p =>
                        obtain ⟨c2, r2⟩ := p
                        simp only [Option.map_some', Option.some_inj] at hval
                        injection hval with hv1 hv2
                        subst hv1; subst hv2
                        have hne : rest ≠ [] := by
                          intro h0
                          rw [h0] at hs
                          cases hs
                        have hh2 : ¬ (rest ++ t).head? = some 0x3c := by
                          cases rest with
                          | nil => exact absurd rfl hne
                          | cons y ys => simpa using hh
                        show scanArrF (f + 1) (0x3c :: (rest ++ t)) d = _
                        rw [scanArrF_hex_some f (rest ++ t) d c1 (r1 ++ t) hh2
                            (scanHex_local rest c1 r1 hs t)]
                        rw [ih r1 d c2 r2 t hres]
                        rfl
            · by_cases hb3 : b = 0x5b
              · subst hb3
                rw [scanArrF_openBr] at h
                obtain ⟨res, hres, hval⟩ := omap_some _ _ _ h
                cases res with
                | none => simp at hval
                | some p =>
                    obtain ⟨c2, r2⟩ := p
                    simp only [Option.map_some', Option.some_inj] at hval
                    injection hval with hv1 hv2
                    subst hv1; subst hv2
                    show scanArrF (f + 1) (0x5b :: (rest ++ t)) d = _
                    rw [scanArrF_openBr]
                    rw [ih rest (d + 1) c2 r2 t hres]
                    rfl
              · by_cases hb4 : b = 0x5d
                · subst hb4
                  cases d with
                  | zero =>
                      rw [scanArrF_close0] at h
                      injection h with h2
                      injection h2 with h3
                      injection h3 with h4 h5
                      subst h4; subst h5
                      show scanArrF (f + 1) (0x5d :: (rest ++ t)) 0 = _
                      rw [scanArrF_close0]
                  | succ e =>
                      rw [scanArrF_closeS] at h
                      obtain ⟨res, hres, hval⟩ := omap_some _ _ _ h
                      cases res with
                      | none => simp at hval
                      | some p =>
                          obtain ⟨c2, r2⟩ := p
                          simp only [Option.map_some', Option.some_inj] at hval
                          injection hval with hv1 hv2
                          subst hv1; subst hv2
                          show scanArrF (f + 1) (0x5d :: (rest ++ t)) (e + 1) = _
                          rw [scanArrF_closeS]
                          rw [ih rest e c2 r2 t hres]
                          rfl
                · rw [scanArrF_other f b rest d hb1 hb2 hb3 hb4] at h
                  obtain ⟨res, hres, hval⟩ := omap_some _ _ _ h
                  cases res with
                  | none => simp at hval
                  | some p =>
                      obtain ⟨c2, r2⟩ := p
                      simp only [Option.map_some', Option.some_inj] at hval
                      injection hval with hv1 hv2
                      subst hv1; subst hv2
                      show scanArrF (f + 1) (b :: (rest ++ t)) d = _
                      rw [scanArrF_other f b (rest ++ t) d hb1 hb2 hb3 hb4]
                      rw [ih rest d c2 r2 t hres]
                      rfl

theorem scanArrF_self (f : Nat) :
    ∀ (xs : List Nat) (d : Nat) (c r : List Nat),
    scanArrF f xs d = some (some (c, r)) →
    scanArrF f c d = some (some (c, [])) := by
  induction f with
  | zero => intro xs d c r h; rw [scanArrF_eq_zero] at h; cases h
  | succ f ih =>
      intro xs d c r h
      cases xs with
      | nil => rw [scanArrF_eq_nil] at h; injection h with h2; cases h2
      | cons b rest =>
          by_cases hb1 : b = 0x28
          · subst hb1
            cases hs : scanStr rest 0 with
            | none =>
                rw [scanArrF_str_none f rest d hs] at h
                injection h with h2; cases h2
            | some q =>
                obtain ⟨c1, r1⟩ := q
                rw [scanArrF_str_some f rest d c1 r1 hs] at h
                obtain ⟨res, hres, hval⟩ := omap_some _ _ _ h
                cases res with
                | none => simp at hval
                | some p =>
                    obtain ⟨c2, r2⟩ := p
                    simp only [Option.map_some', Option.some_inj] at hval
                    injection hval with hv1 hv2
                    subst hv1; subst hv2
                    have hstr : scanStr (c1 ++ c2) 0 = some (c1, c2) := by
                      have h1 := scanStr_self rest 0 c1 r1 hs
                      have h2 := scanStr_local c1 0 c1 [] h1 c2
                      simpa using h2
                    rw [scanArrF_str_some f (c1 ++ c2) d c1 c2 hstr]
                    rw [ih r1 d c2 r2 hres]
                    rfl
          · by_cases hb2 : b = 0x3c
            · subst hb2
              by_cases hh : rest.head? = some 0x3c
              · rw [scanArrF_lt2 f rest d hh] at h
                obtain ⟨res, hres, hval⟩ := omap_some _ _ _ h
                cases res with
                | none => simp at hval
                | some p =>
                    obtain ⟨c2, r2⟩ := p
                    simp only [Option.map_some', Option.some_inj] at hval
                    injection hval with hv1 hv2
                    subst hv1; subst hv2
                    have hh2 : c2.head? = some 0x3c := by
                      rw [scanArrF_head f rest d c2 r2 hres]
                      exact hh
                    rw [scanArrF_lt2 f c2 d hh2]
                    rw [ih rest d c2 r2 hres]
                    rfl
              · cases hs : scanHex rest with
                | none =>
                    rw [scanArrF_hex_none f rest d hh hs] at h
                    injection h with h2; cases h2
                | some q =>
                    obtain ⟨c1, r1⟩ := q
                    rw [scanArrF_hex_some f rest d c1 r1 hh hs] at h
                    obtain ⟨res, hres, hval⟩ := omap_some _ _ _ h
                    cases res with
                    | none => simp at hval
                    | some p =>
                        obtain ⟨c2, r2⟩ := p
                        simp only [Option.map_some', Option.some_inj] at hval
                        injection hval with hv1 hv2
                        subst hv1; subst hv2
                        have hch : c1.head? = rest.head? := scanHex_head rest c1 r1 hs
                        have hc1ne : c1 ≠ [] := by
                          cases rest with
                          | nil => cases hs
                          | cons y ys =>
                              intro h0
                              rw [h0] at hch
                              cases hch
                        have hh2 : ¬ (c1 ++ c2).head? = some 0x3c := by
                          cases c1 with
                          | nil => exact absurd rfl hc1ne
                          | cons z zs =>
                              intro h0
                              apply hh
                              rw [← hch]
                              simpa using h0
                        have hhex : scanHex (c1 ++ c2) = some (c1, c2) := by
                          have h1 := scanHex_self rest c1 r1 hs
                          have h2 := scanHex_local c1 c1 [] h1 c2
                          simpa using h2
                        rw [scanArrF_hex_some f (c1 ++ c2) d c1 c2 hh2 hhex]
                        rw [ih r1 d c2 r2 hres]
                        rfl
            · by_cases hb3 : b = 0x5b
              · subst hb3
                rw [scanArrF_openBr] at h
                obtain ⟨res, hres, hval⟩ := omap_some _ _ _ h
                cases res with
                | none => simp at hval
                | some p =>
                    obtain ⟨c2, r2⟩ := p
                    simp only [Option.map_some', Option.some_inj] at hval
                    injection hval with hv1 hv2
                    subst hv1; subst hv2
                    rw [scanArrF_openBr]
                    rw [ih rest (d + 1) c2 r2 hres]
                    rfl
              · by_cases hb4 : b = 0x5d
                · subst hb4
                  cases d with
                  | zero =>
                      rw [scanArrF_close0] at h
                      injection h with h2
                      injection h2 with h3
                      injection h3 with h4 h5
                      subst h4; subst h5
                      rw [scanArrF_close0]
                  | succ e =>
                      rw [scanArrF_closeS] at h
                      obtain ⟨res, hres, hval⟩ := omap_some _ _ _ h
                      cases res with
                      | none => simp at hval
                      | some p =>
                          obtain ⟨c2, r2⟩ := p
                          simp only [Option.map_some', Option.some_inj] at hval
                          injection hval with hv1 hv2
                          subst hv1; subst hv2
                          rw [scanArrF_closeS]
                          rw [ih rest e c2 r2 hres]
                          rfl
                · rw [scanArrF_other f b rest d hb1 hb2 hb3 hb4] at h
                  obtain ⟨res, hres, hval⟩ := omap_some _ _ _ h
                  cases res with
                  | none => simp at hval
                  | some p =>
                      obtain ⟨c2, r2⟩ := p
                      simp only [Option.map_some', Option.some_inj] at hval
                      injection hval with hv1 hv2
                      subst hv1; subst hv2
                      rw [scanArrF_other f b c2 d hb1 hb2 hb3 hb4]
                      rw [ih rest d c2 r2 hres]
                      rfl

theorem scanArr_some_iff (xs : List Nat) (d : Nat) (c r : List Nat) :
    scanArr xs d = some (c, r) ↔
    scanArrF (xs.length + 1) xs d = some (some (c, r)) := by
  unfold scanArr
  cases ha : scanArrF (xs.length + 1) xs d with
  | none => simp
  | some res => cases res <;> simp

theorem scanArr_pre (xs : List Nat) (d : Nat) (c r : List Nat)
    (h : scanArr xs d = some (c, r)) : xs = c ++ r :=
  scanArrF_pre (xs.length + 1) xs d c r ((scanArr_some_iff xs d c r).mp h)

theorem scanArr_self (xs : List Nat) (d : Nat) (c r : List Nat)
    (h : scanArr xs d = some (c, r)) : scanArr c d = some (c, []) := by
  have h1 := (scanArr_some_iff xs d c r).mp h
  have h2 := scanArrF_self (xs.length + 1) xs d c r h1
  have hcle : c.length ≤ xs.length := by
    have := scanArr_pre xs d c r h
    rw [this]
    simp
  cases hb : scanArrF (c.length + 1) c d with
  | none => exact absurd hb (scanArrF_total (c.length + 1) c d (by omega))
  | some res =>
      have h4 := scanArrF_mono (c.length + 1) c d res (xs.length - c.length) hb
      have harr : c.length + 1 + (xs.length - c.length) = xs.length + 1 := by omega
      rw [harr] at h4
      rw [h4] at h2
      injection h2 with h5
      subst h5
      exact (scanArr_some_iff c d c []).mpr (by rw [hb])

theorem scanArr_local (xs : List Nat) (d : Nat) (c r t : List Nat)
    (h : scanArr xs d = some (c, r)) : scanArr (xs ++ t) d = some (c, r ++ t) := by
  have h1 := (scanArr_some_iff xs d c r).mp h
  have h2 := scanArrF_local (xs.length + 1) xs d c r t h1
  have h3 := scanArrF_mono (xs.length + 1) (xs ++ t) d (some (c, r ++ t)) t.length h2
  apply (scanArr_some_iff (xs ++ t) d c (r ++ t)).mpr
  have harr : (xs ++ t).length + 1 = xs.length + 1 + t.length := by
    simp [List.length_append]
    omega
  rw [harr]
  exact h3

theorem tokF_zero (xs : List Nat) : tokenizeF 0 xs = none := rfl

theorem tokF_nil (f : Nat) : tokenizeF (f + 1) [] = some [] := rfl

theorem tokF_ws (f : Nat) (b : Nat) (rest : List Nat) (hw : wsByte b = true) :
    tokenizeF (f + 1) (b :: rest) = tokenizeF f rest := by
  rw [tokenizeF.eq_def]
  simp [hw]

theorem tokF_comment (f : Nat) (rest : List Nat) :
    tokenizeF (f + 1) (0x25 :: rest) =
      tokenizeF f (rest.dropWhile (fun c => c ≠ 0x0d && c ≠ 0x0a)) := by
  rw [tokenizeF.eq_def]
  simp [wsByte]

theorem tokF_str_some (f : Nat) (rest c1 r1 : List Nat)
    (hs : scanStr rest 0 = some (c1, r1)) :
    tokenizeF (f + 1) (0x28 :: rest) =
      (tokenizeF f r1).map (fun ts => (0x28 :: c1) :: ts) := by
  rw [tokenizeF.eq_def]
  simp [wsByte, hs]

theorem tokF_str_none (f : Nat) (rest : List Nat) (hs : scanStr rest 0 = none) :
    tokenizeF (f + 1) (0x28 :: rest) = some [0x28 :: rest] := by
  rw [tokenizeF.eq_def]
  simp [wsByte, hs]

theorem tokF_lt2 (f : Nat) (rest : List Nat) (hh : rest.head? = some 0x3c) :
    tokenizeF (f + 1) (0x3c :: rest) =
      (tokenizeF f rest.tail).map (fun ts => [0x3c, 0x3c] :: ts) := by
  rw [tokenizeF.eq_def]
  simp [wsByte, hh]

theorem tokF_hex_some (f : Nat) (rest c1 r1 : List Nat)
    (hh : ¬ rest.head? = some 0x3c) (hs : scanHex rest = some (c1, r1)) :
    tokenizeF (f + 1) (0x3c :: rest) =
      (tokenizeF f r1).map (fun ts => (0x3c :: c1) :: ts) := by
  rw [tokenizeF.eq_def]
  simp [wsByte, hh, hs]

theorem tokF_hex_none (f : Nat) (rest : List Nat)
    (hh : ¬ rest.head? = some 0x3c) (hs : scanHex rest = none) :
    tokenizeF (f + 1) (0x3c :: rest) = some [0x3c :: rest] := by
  rw [tokenizeF.eq_def]
  simp [wsByte, hh, hs]

theorem tokF_gt2 (f : Nat) (rest : List Nat) (hh : rest.head? = some 0x3e) :
    tokenizeF (f + 1) (0x3e :: rest) =
      (tokenizeF f rest.tail).map (fun ts => [0x3e, 0x3e] :: ts) := by
  rw [tokenizeF.eq_def]
  simp [wsByte, hh]

theorem tokF_gt_stuck (f : Nat) (rest : List Nat) (hh : ¬ rest.head? = some 0x3e) :
    tokenizeF (f + 1) (0x3e :: rest) = none := by
  rw [tokenizeF.eq_def]
  simp [wsByte, hh]

theorem tokF_arr_some (f : Nat) (rest c1 r1 : List Nat)
    (hs : scanArr rest 0 = some (c1, r1)) :
    tokenizeF (f + 1) (0x5b :: rest) =
      (tokenizeF f r1).map (fun ts => (0x5b :: c1) :: ts) := by
  rw [tokenizeF.eq_def]
  simp [wsByte, hs]

theorem tokF_arr_none (f : Nat) (rest : List Nat) (hs : scanArr rest 0 = none) :
    tokenizeF (f + 1) (0x5b :: rest) = some [0x5b :: rest] := by
  rw [tokenizeF.eq_def]
  simp [wsByte, hs]

theorem tokF_paren_stuck (f : Nat) (rest : List Nat) :
    tokenizeF (f + 1) (0x29 :: rest) = none := by
  rw [tokenizeF.eq_def]
  simp [wsByte]

theorem tokF_brk_stuck (f : Nat) (rest : List Nat) :
    tokenizeF (f + 1) (0x5d :: rest) = none := by
  rw [tokenizeF.eq_def]
  simp [wsByte]

theorem tokF_name (f : Nat) (rest : List Nat) :
    tokenizeF (f + 1) (0x2f :: rest) =
      (tokenizeF f (rest.dropWhile (fun c => ! stopByte c))).map
        (fun ts => (0x2f :: rest.takeWhile (fun c => ! stopByte c)) :: ts) := by
  rw [tokenizeF.eq_def]
  simp [wsByte]

theorem tokF_reg (f : Nat) (b : Nat) (rest : List Nat) (hw : wsByte b = false)
    (h1 : ¬ b = 0x25) (h2 : ¬ b = 0x28) (h3 : ¬ b = 0x3c) (h4 : ¬ b = 0x3e)
    (h5 : ¬ b = 0x5b) (h6 : ¬ b = 0x29) (h7 : ¬ b = 0x5d) (h8 : ¬ b = 0x2f) :
    tokenizeF (f + 1) (b :: rest) =
      (tokenizeF f (rest.dropWhile (fun c => ! stopByte c))).map
        (fun ts => (b :: rest.takeWhile (fun c => ! stopByte c)) :: ts) := by
  rw [tokenizeF.eq_def]
  simp [hw, h1, h2, h3, h4, h5, h6, h7, h8]

theorem joinTokens_cons (t : List Nat) (ts : List (List Nat)) (h : ts ≠ []) :
    joinTokens (t :: ts) = t ++ 0x20 :: joinTokens ts := by
  cases ts with
  | nil => exact absurd rfl h
  | cons t2 ts2 => rfl

theorem takeWhile_all_append (p : Nat → Bool) (c : List Nat) (y : Nat) (t : List Nat)
    (hall : ∀ x ∈ c, p x = true) (hy : p y = false) :
    (c ++ y :: t).takeWhile p = c := by
  induction c with
  | nil => simp [List.takeWhile, hy]
  | cons a as ih =>
      have ha := hall a (List.mem_cons_self _ _)
      simp only [List.cons_append, List.takeWhile_cons, ha]
      simp only [if_true]
      rw [ih (fun x hx => hall x (List.mem_cons_of_mem _ hx))]

theorem dropWhile_all_append (p : Nat → Bool) (c : List Nat) (y : Nat) (t : List Nat)
    (hall : ∀ x ∈ c, p x = true) (hy : p y = false) :
    (c ++ y :: t).dropWhile p = y :: t := by
  induction c with
  | nil => simp [List.dropWhile, hy]
  | cons a as ih =>
      have ha := hall a (List.mem_cons_self _ _)
      simp only [List.cons_append, List.dropWhile_cons, ha]
      simp only [if_true]
      exact ih (fun x hx => hall x (List.mem_cons_of_mem _ hx))

theorem takeWhile_all_self (p : Nat → Bool) (c : List Nat)
    (hall : ∀ x ∈ c, p x = true) : c.takeWhile p = c := by
  induction c with
  | nil => rfl
  | cons a as ih =>
      have ha := hall a (List.mem_cons_self _ _)
      simp only [List.takeWhile_cons, ha, if_true]
      rw [ih (fun x hx => hall x (List.mem_cons_of_mem _ hx))]

theorem dropWhile_all_nil (p : Nat → Bool) (c : List Nat)
    (hall : ∀ x ∈ c, p x = true) : c.dropWhile p = [] := by
  induction c with
  | nil => rfl
  | cons a as ih =>
      have ha := hall a (List.mem_cons_self _ _)
      simp only [List.dropWhile_cons, ha, if_true]
      exact ih (fun x hx => hall x (List.mem_cons_of_mem _ hx))

theorem dropWhile_length_le (p : Nat → Bool) (l : List Nat) :
    (l.dropWhile p).length ≤ l.length := by
  induction l with
  | nil => simp
  | cons a as ih =>
      simp only [List.dropWhile_cons]
      split
      · simp only [List.length_cons]
        omega
      · simp

theorem tokenizeF_mono (f : Nat) :
    ∀ (xs : List Nat) (ts : List (List Nat)) (k : Nat),
    tokenizeF f xs = some ts → tokenizeF (f + k) xs = some ts := by
  induction f with
  | zero => intro xs ts k h; rw [tokF_zero] at h; cases h
  | succ f ih =>
      intro xs ts k h
      have hfk : f + 1 + k = (f + k) + 1 := by omega
      cases xs with
      | nil =>
          rw [tokF_nil] at h
          rw [hfk, tokF_nil]
          exact h
      | cons b rest =>
          by_cases hw : wsByte b = true
          · rw [tokF_ws f b rest hw] at h
            rw [hfk, tokF_ws (f + k) b rest hw]
            exact ih rest ts k h
          · have hwf : wsByte b = false := by
              rw [Bool.not_eq_true] at hw
              exact hw
            by_cases h1 : b = 0x25
            · subst h1
              rw [tokF_comment] at h
              rw [hfk, tokF_comment]
              exact ih _ ts k h
            · by_cases h2 : b = 0x28
              · subst h2
                cases hs : scanStr rest 0 with
                | none =>
                    rw [tokF_str_none f rest hs] at h
                    rw [hfk, tokF_str_none (f + k) rest hs]
                    exact h
                | some q =>
                    obtain ⟨c1, r1⟩ := q
                    rw [tokF_str_some f rest c1 r1 hs] at h
                    rw [hfk, tokF_str_some (f + k) rest c1 r1 hs]
                    obtain ⟨ts2, hts2, hval⟩ := omap_some _ _ _ h
                    rw [ih r1 ts2 k hts2, ← hval]
                    rfl
              · by_cases h3 : b = 0x3c
                · subst h3
                  by_cases hh : rest.head? = some 0x3c
                  · rw [tokF_lt2 f rest hh] at h
                    rw [hfk, tokF_lt2 (f + k) rest hh]
                    obtain ⟨ts2, hts2, hval⟩ := omap_some _ _ _ h
                    rw [ih rest.tail ts2 k hts2, ← hval]
                    rfl
                  · cases hs : scanHex rest with
                    | none =>
                        rw [tokF_hex_none f rest hh hs] at h
                        rw [hfk, tokF_hex_none (f + k) rest hh hs]
                        exact h
                    | some q =>
                        obtain ⟨c1, r1⟩ := q
                        rw [tokF_hex_some f rest c1 r1 hh hs] at h
                        rw [hfk, tokF_hex_some (f + k) rest c1 r1 hh hs]
                        obtain ⟨ts2, hts2, hval⟩ := omap_some _ _ _ h
                        rw [ih r1 ts2 k hts2, ← hval]
                        rfl
                · by_cases h4 : b = 0x3e
                  · subst h4
                    by_cases hh : rest.head? = some 0x3e
                    · rw [tokF_gt2 f rest hh] at h
                      rw [hfk, tokF_gt2 (f + k) rest hh]
                      obtain ⟨ts2, hts2, hval⟩ := omap_some _ _ _ h
                      rw [ih rest.tail ts2 k hts2, ← hval]
                      rfl
                    · rw [tokF_gt_stuck f rest hh] at h
                      cases h
                  · by_cases h5 : b = 0x5b
                    · subst h5
                      cases hs : scanArr rest 0 with
                      | none =>
                          rw [tokF_arr_none f rest hs] at h
                          rw [hfk, tokF_arr_none (f + k) rest hs]
                          exact h
                      | some q =>
                          obtain ⟨c1, r1⟩ := q
                          rw [tokF_arr_some f rest c1 r1 hs] at h
                          rw [hfk, tokF_arr_some (f + k) rest c1 r1 hs]
                          obtain ⟨ts2, hts2, hval⟩ := omap_some _ _ _ h
                          rw [ih r1 ts2 k hts2, ← hval]
                          rfl
                    · by_cases h6 : b = 0x29
                      · subst h6
                        rw [tokF_paren_stuck] at h
                        cases h
                      · by_cases h7 : b = 0x5d
                        · subst h7
                          rw [tokF_brk_stuck] at h
                          cases h
                        · by_cases h8 : b = 0x2f
                          · subst h8
                            rw [tokF_name] at h
                            rw [hfk, tokF_name]
                            obtain ⟨ts2, hts2, hval⟩ := omap_some _ _ _ h
                            rw [ih _ ts2 k hts2, ← hval]
                            rfl
                          · rw [tokF_reg f b rest hwf h1 h2 h3 h4 h5 h6 h7 h8] at h
                            rw [hfk, tokF_reg (f + k) b rest hwf h1 h2 h3 h4 h5 h6 h7 h8]
                            obtain ⟨ts2, hts2, hval⟩ := omap_some _ _ _ h
                            rw [ih _ ts2 k hts2, ← hval]
                            rfl

theorem tokenizeF_fuel (f : Nat) :
    ∀ (xs : List Nat) (ts : List (List Nat)),
    tokenizeF f xs = some ts → tokenizeF (xs.length + 1) xs = some ts := by
  induction f with
  | zero => intro xs ts h; rw [tokF_zero] at h; cases h
  | succ f ih =>
      intro xs ts h
      cases xs with
      | nil =>
          rw [tokF_nil] at h
          rw [show ([] : List Nat).length + 1 = 1 from rfl, tokF_nil]
          exact h
      | cons b rest =>
          have hstep : ∀ (xs2 : List Nat) (ts2 : List (List Nat)),
              xs2.length ≤ rest.length → tokenizeF f xs2 = some ts2 →
              tokenizeF ((b :: rest).length) xs2 = some ts2 := by
            intro xs2 ts2 hlen h2
            have h3 := ih xs2 ts2 h2
            have h4 := tokenizeF_mono (xs2.length + 1) xs2 ts2
              (rest.length - xs2.length) h3
            have : xs2.length + 1 + (rest.length - xs2.length) = (b :: rest).length := by
              simp only [List.length_cons]
              omega
            rw [this] at h4
            exact h4
          have hlc : (b :: rest).length + 1 = (b :: rest).length + 1 := rfl
          by_cases hw : wsByte b = true
          · rw [tokF_ws f b rest hw] at h
            rw [show (b :: rest).length + 1 = ((b :: rest).length) + 1 from rfl,
              tokF_ws ((b :: rest).length) b rest hw]
            exact hstep rest ts (by simp) h
          · have hwf : wsByte b = false := by
              rw [Bool.not_eq_true] at hw
              exact hw
            by_cases h1 : b = 0x25
            · subst h1
              rw [tokF_comment] at h
              rw [tokF_comment ((0x25 :: rest).length) rest]
              exact hstep _ ts (dropWhile_length_le _ _) h
            · by_cases h2 : b = 0x28
              · subst h2
                cases hs : scanStr rest 0 with
                | none =>
                    rw [tokF_str_none f rest hs] at h
                    rw [tokF_str_none ((0x28 :: rest).length) rest hs]
                    exact h
                | some q =>
                    obtain ⟨c1, r1⟩ := q
                    rw [tokF_str_some f rest c1 r1 hs] at h
                    rw [tokF_str_some ((0x28 :: rest).length) rest c1 r1 hs]
                    obtain ⟨ts2, hts2, hval⟩ := omap_some _ _ _ h
                    have hr1 : r1.length ≤ rest.length := by
                      have := scanStr_pre rest 0 c1 r1 hs
                      rw [this]
                      simp
                    rw [hstep r1 ts2 hr1 hts2, ← hval]
                    rfl
              · by_cases h3 : b = 0x3c
                · subst h3
                  by_cases hh : rest.head? = some 0x3c
                  · rw [tokF_lt2 f rest hh] at h
                    rw [tokF_lt2 ((0x3c :: rest).length) rest hh]
                    obtain ⟨ts2, hts2, hval⟩ := omap_some _ _ _ h
                    have : rest.tail.length ≤ rest.length := by
                      simp [List.length_tail]
                    rw [hstep rest.tail ts2 this hts2, ← hval]
                    rfl
                  · cases hs : scanHex rest with
                    | none =>
                        rw [tokF_hex_none f rest hh hs] at h
                        rw [tokF_hex_none ((0x3c :: rest).length) rest hh hs]
                        exact h
                    | some q =>
                        obtain ⟨c1, r1⟩ := q
                        rw [tokF_hex_some f rest c1 r1 hh hs] at h
                        rw [tokF_hex_some ((0x3c :: rest).length) rest c1 r1 hh hs]
                        obtain ⟨ts2, hts2, hval⟩ := omap_some _ _ _ h
                        have hr1 : r1.length ≤ rest.length := by
                          have := scanHex_pre rest c1 r1 hs
                          rw [this]
                          simp
                        rw [hstep r1 ts2 hr1 hts2, ← hval]
                        rfl
                · by_cases h4 : b = 0x3e
                  · subst h4
                    by_cases hh : rest.head? = some 0x3e
                    · rw [tokF_gt2 f rest hh] at h
                      rw [tokF_gt2 ((0x3e :: rest).length) rest hh]
                      obtain ⟨ts2, hts2, hval⟩ := omap_some _ _ _ h
                      have : rest.tail.length ≤ rest.length := by
                        simp [List.length_tail]
                      rw [hstep rest.tail ts2 this hts2, ← hval]
                      rfl
                    · rw [tokF_gt_stuck f rest hh] at h
                      cases h
                  · by_cases h5 : b = 0x5b
                    · subst h5
                      cases hs : scanArr rest 0 with
                      | none =>
                          rw [tokF_arr_none f rest hs] at h
                          rw [tokF_arr_none ((0x5b :: rest).length) rest hs]
                          exact h
                      | some q =>
                          obtain ⟨c1, r1⟩ := q
                          rw [tokF_arr_some f rest c1 r1 hs] at h
                          rw [tokF_arr_some ((0x5b :: rest).length) rest c1 r1 hs]
                          obtain ⟨ts2, hts2, hval⟩ := omap_some _ _ _ h
                          have hr1 : r1.length ≤ rest.length := by
                            have := scanArr_pre rest 0 c1 r1 hs
                            rw [this]
                            simp
                          rw [hstep r1 ts2 hr1 hts2, ← hval]
                          rfl
                    · by_cases h6 : b = 0x29
                      · subst h6
                        rw [tokF_paren_stuck] at h
                        cases h
                      · by_cases h7 : b = 0x5d
                        · subst h7
                          rw [tokF_brk_stuck] at h
                          cases h
                        · by_cases h8 : b = 0x2f
                          · subst h8
                            rw [tokF_name] at h
                            rw [tokF_name ((0x2f :: rest).length) rest]
                            obtain ⟨ts2, hts2, hval⟩ := omap_some _ _ _ h
                            rw [hstep _ ts2 (dropWhile_length_le _ _) hts2, ← hval]
                            rfl
                          · rw [tokF_reg f b rest hwf h1 h2 h3 h4 h5 h6 h7 h8] at h
                            rw [tokF_reg ((b :: rest).length) b rest hwf
                              h1 h2 h3 h4 h5 h6 h7 h8]
                            obtain ⟨ts2, hts2, hval⟩ := omap_some _ _ _ h
                            rw [hstep _ ts2 (dropWhile_length_le _ _) hts2, ← hval]
                            rfl

theorem takeWhile_mem_pred (p : Nat → Bool) :
    ∀ (l : List Nat) (x : Nat), x ∈ l.takeWhile p → p x = true := by
  intro l
  induction l with
  | nil => intro x hx; cases hx
  | cons a as ih =>
      intro x hx
      by_cases ha : p a = true
      · rw [List.takeWhile_cons_of_pos ha] at hx
        cases hx with
        | head => exact ha
        | tail _ h => exact ih x h
      · rw [List.takeWhile_cons_of_neg (by simpa using ha)] at hx
        cases hx

theorem tokenizeF_roundtrip (f : Nat) :
    ∀ (xs : List Nat) (ts : List (List Nat)),
    tokenizeF f xs = some ts → ∃ g, tokenizeF g (joinTokens ts) = some ts := by
  induction f with
  | zero => intro xs ts h; rw [tokF_zero] at h; cases h
  | succ f ih =>
      intro xs ts h
      cases xs with
      | nil =>
          rw [tokF_nil] at h
          injection h with h2
          subst h2
          exact ⟨1, tokF_nil 0⟩
      | cons b rest =>
          by_cases hw : wsByte b = true
          · rw [tokF_ws f b rest hw] at h
            exact ih rest ts h
          · have hwf : wsByte b = false := by
              rw [Bool.not_eq_true] at hw
              exact hw
            by_cases h1 : b = 0x25
            · subst h1
              rw [tokF_comment] at h
              exact ih _ ts h
            · by_cases h2 : b = 0x28
              · subst h2
                cases hs : scanStr rest 0 with
                | none =>
                    rw [tokF_str_none f rest hs] at h
                    injection h with h3
                    subst h3
                    exact ⟨1, tokF_str_none 0 rest hs⟩
                | some q =>
                    obtain ⟨c1, r1⟩ := q
                    rw [tokF_str_some f rest c1 r1 hs] at h
                    obtain ⟨ts2, hts2, hval⟩ := omap_some _ _ _ h
                    subst hval
                    obtain ⟨g, hg⟩ := ih r1 ts2 hts2
                    have hself := scanStr_self rest 0 c1 r1 hs
                    cases ts2 with
                    | nil =>
                        refine ⟨2, ?_⟩
                        show tokenizeF 2 (0x28 :: c1) = some [0x28 :: c1]
                        rw [tokF_str_some 1 c1 c1 [] hself, tokF_nil 0]
                        rfl
                    | cons t2 ts3 =>
                        refine ⟨g + 2, ?_⟩
                        rw [joinTokens_cons _ _ (by simp)]
                        show tokenizeF (g + 2)
                          (0x28 :: (c1 ++ 0x20 :: joinTokens (t2 :: ts3))) = _
                        have hloc : scanStr (c1 ++ 0x20 :: joinTokens (t2 :: ts3)) 0 =
                            some (c1, 0x20 :: joinTokens (t2 :: ts3)) := by
                          have := scanStr_local c1 0 c1 [] hself
                            (0x20 :: joinTokens (t2 :: ts3))
                          simpa using this
                        rw [tokF_str_some (g + 1) _ c1 _ hloc]
                        rw [tokF_ws g 0x20 _ (by decide)]
                        rw [hg]
                        rfl
              · by_cases h3 : b = 0x3c
                · subst h3
                  by_cases hh : rest.head? = some 0x3c
                  · rw [tokF_lt2 f rest hh] at h
                    obtain ⟨ts2, hts2, hval⟩ := omap_some _ _ _ h
                    subst hval
                    obtain ⟨g, hg⟩ := ih rest.tail ts2 hts2
                    cases ts2 with
                    | nil =>
                        refine ⟨2, ?_⟩
                        show tokenizeF 2 [0x3c, 0x3c] = some [[0x3c, 0x3c]]
                        rw [tokF_lt2 1 [0x3c] rfl]
                        rw [show ([0x3c] : List Nat).tail = [] from rfl, tokF_nil 0]
                        rfl
                    | cons t2 ts3 =>
                        refine ⟨g + 2, ?_⟩
                        rw [joinTokens_cons _ _ (by simp)]
                        show tokenizeF (g + 2)
                          (0x3c :: 0x3c :: 0x20 :: joinTokens (t2 :: ts3)) = _
                        rw [tokF_lt2 (g + 1) (0x3c :: 0x20 :: joinTokens (t2 :: ts3)) rfl]
                        rw [show (0x3c :: 0x20 :: joinTokens (t2 :: ts3)).tail =
                          0x20 :: joinTokens (t2 :: ts3) from rfl]
                        rw [tokF_ws g 0x20 _ (by decide)]
                        rw [hg]
                        rfl
                  · cases hs : scanHex rest with
                    | none =>
                        rw [tokF_hex_none f rest hh hs] at h
                        injection h with h4
                        subst h4
                        exact ⟨1, tokF_hex_none 0 rest hh hs⟩
                    | some q =>
                        obtain ⟨c1, r1⟩ := q
                        rw [tokF_hex_some f rest c1 r1 hh hs] at h
                        obtain ⟨ts2, hts2, hval⟩ := omap_some _ _ _ h
                        subst hval
                        obtain ⟨g, hg⟩ := ih r1 ts2 hts2
                        have hself := scanHex_self rest c1 r1 hs
                        have hch : c1.head? = rest.head? := scanHex_head rest c1 r1 hs
                        have hc1 : ¬ c1.head? = some 0x3c := by
                          rw [hch]
                          exact hh
                        have hc1ne : c1 ≠ [] := by
                          cases rest with
                          | nil => cases hs
                          | cons y ys =>
                              intro h0
                              rw [h0] at hch
                              cases hch
                        cases ts2 with
                        | nil =>
                            refine ⟨2, ?_⟩
                            show tokenizeF 2 (0x3c :: c1) = some [0x3c :: c1]
                            rw [tokF_hex_some 1 c1 c1 [] hc1 hself, tokF_nil 0]
                            rfl
                        | cons t2 ts3 =>
                            refine ⟨g + 2, ?_⟩
                            rw [joinTokens_cons _ _ (by simp)]
                            show tokenizeF (g + 2)
                              (0x3c :: (c1 ++ 0x20 :: joinTokens (t2 :: ts3))) = _
                            have hc2 : ¬ (c1 ++ 0x20 :: joinTokens (t2 :: ts3)).head? =
                                some 0x3c := by
                              cases c1 with
                              | nil => exact absurd rfl hc1ne
                              | cons z zs => simpa using hc1
                            have hloc : scanHex (c1 ++ 0x20 :: joinTokens (t2 :: ts3)) =
                                some (c1, 0x20 :: joinTokens (t2 :: ts3)) := by
                              have := scanHex_local c1 c1 [] hself
                                (0x20 :: joinTokens (t2 :: ts3))
                              simpa using this
                            rw [tokF_hex_some (g + 1) _ c1 _ hc2 hloc]
                            rw [tokF_ws g 0x20 _ (by decide)]
                            rw [hg]
                            rfl
                · by_cases h4 : b = 0x3e
                  · subst h4
                    by_cases hh : rest.head? = some 0x3e
                    · rw [tokF_gt2 f rest hh] at h
                      obtain ⟨ts2, hts2, hval⟩ := omap_some _ _ _ h
                      subst hval
                      obtain ⟨g, hg⟩ := ih rest.tail ts2 hts2
                      cases ts2 with
                      | nil =>
                          refine ⟨2, ?_⟩
                          show tokenizeF 2 [0x3e, 0x3e] = some [[0x3e, 0x3e]]
                          rw [tokF_gt2 1 [0x3e] rfl]
                          rw [show ([0x3e] : List Nat).tail = [] from rfl, tokF_nil 0]
                          rfl
                      | cons t2 ts3 =>
                          refine ⟨g + 2, ?_⟩
                          rw [joinTokens_cons _ _ (by simp)]
                          show tokenizeF (g + 2)
                            (0x3e :: 0x3e :: 0x20 :: joinTokens (t2 :: ts3)) = _
                          rw [tokF_gt2 (g + 1) (0x3e :: 0x20 :: joinTokens (t2 :: ts3)) rfl]
                          rw [show (0x3e :: 0x20 :: joinTokens (t2 :: ts3)).tail =
                            0x20 :: joinTokens (t2 :: ts3) from rfl]
                          rw [tokF_ws g 0x20 _ (by decide)]
                          rw [hg]
                          rfl
                    · rw [tokF_gt_stuck f rest hh] at h
                      cases h
                  · by_cases h5 : b = 0x5b
                    · subst h5
                      cases hs : scanArr rest 0 with
                      | none =>
                          rw [tokF_arr_none f rest hs] at h
                          injection h with h6
                          subst h6
                          exact ⟨1, tokF_arr_none 0 rest hs⟩
                      | some q =>
                          obtain ⟨c1, r1⟩ := q
                          rw [tokF_arr_some f rest c1 r1 hs] at h
                          obtain ⟨ts2, hts2, hval⟩ := omap_some _ _ _ h
                          subst hval
                          obtain ⟨g, hg⟩ := ih r1 ts2 hts2
                          have hself := scanArr_self rest 0 c1 r1 hs
                          cases ts2 with
                          | nil =>
                              refine ⟨2, ?_⟩
                              show tokenizeF 2 (0x5b :: c1) = some [0x5b :: c1]
                              rw [tokF_arr_some 1 c1 c1 [] hself, tokF_nil 0]
                              rfl
                          | cons t2 ts3 =>
                              refine ⟨g + 2, ?_⟩
                              rw [joinTokens_cons _ _ (by simp)]
                              show tokenizeF (g + 2)
                                (0x5b :: (c1 ++ 0x20 :: joinTokens (t2 :: ts3))) = _
                              have hloc : scanArr (c1 ++ 0x20 :: joinTokens (t2 :: ts3)) 0 =
                                  some (c1, 0x20 :: joinTokens (t2 :: ts3)) := by
                                have := scanArr_local c1 0 c1 []
                                  (0x20 :: joinTokens (t2 :: ts3)) hself
                                simpa using this
                              rw [tokF_arr_some (g + 1) _ c1 _ hloc]
                              rw [tokF_ws g 0x20 _ (by decide)]
                              rw [hg]
                              rfl
                    · by_cases h6 : b = 0x29
                      · subst h6
                        rw [tokF_paren_stuck] at h
                        cases h
                      · by_cases h7 : b = 0x5d
                        · subst h7
                          rw [tokF_brk_stuck] at h
                          cases h
                        · -- name and regular tokens share the takeWhile shape
                          have hname : ∀ (pre : Nat) (hpre : stopByte pre = false)
                              (heq : ∀ (g2 : Nat) (u : List Nat),
                                tokenizeF (g2 + 1) (pre :: u) =
                                (tokenizeF g2 (u.dropWhile (fun c => ! stopByte c))).map
                                  (fun ts => (pre :: u.takeWhile (fun c => ! stopByte c)) :: ts)),
                              tokenizeF f (rest.dropWhile (fun c => ! stopByte c)) =
                                some ts →
                              ts = [] ∨ True →
                              True := fun _ _ _ _ _ => trivial
                          clear hname
                          by_cases h8 : b = 0x2f
                          · subst h8
                            rw [tokF_name] at h
                            obtain ⟨ts2, hts2, hval⟩ := omap_some _ _ _ h
                            subst hval
                            obtain ⟨g, hg⟩ := ih _ ts2 hts2
                            have hall : ∀ x ∈ rest.takeWhile (fun c => ! stopByte c),
                                (! stopByte x) = true :=
                              fun x hx => takeWhile_mem_pred _ _ x hx
                            cases ts2 with
                            | nil =>
                                refine ⟨2, ?_⟩
                                show tokenizeF 2
                                  (0x2f :: rest.takeWhile (fun c => ! stopByte c)) = _
                                rw [tokF_name 1]
                                rw [takeWhile_all_self _ _ hall]
                                rw [dropWhile_all_nil _ _ hall]
                                rw [tokF_nil 0]
                                rfl
                            | cons t2 ts3 =>
                                refine ⟨g + 2, ?_⟩
                                rw [joinTokens_cons _ _ (by simp)]
                                show tokenizeF (g + 2)
                                  (0x2f :: (rest.takeWhile (fun c => ! stopByte c) ++
                                    0x20 :: joinTokens (t2 :: ts3))) = _
                                rw [tokF_name (g + 1)]
                                rw [takeWhile_all_append _ _ 0x20 _ hall (by decide)]
                                rw [dropWhile_all_append _ _ 0x20 _ hall (by decide)]
                                rw [tokF_ws g 0x20 _ (by decide)]
                                rw [hg]
                                rfl
                          · rw [tokF_reg f b rest hwf h1 h2 h3 h4 h5 h6 h7 h8] at h
                            obtain ⟨ts2, hts2, hval⟩ := omap_some _ _ _ h
                            subst hval
                            obtain ⟨g, hg⟩ := ih _ ts2 hts2
                            have hall : ∀ x ∈ rest.takeWhile (fun c => ! stopByte c),
                                (! stopByte x) = true :=
                              fun x hx => takeWhile_mem_pred _ _ x hx
                            cases ts2 with
                            | nil =>
                                refine ⟨2, ?_⟩
                                show tokenizeF 2
                                  (b :: rest.takeWhile (fun c => ! stopByte c)) = _
                                rw [tokF_reg 1 b _ hwf h1 h2 h3 h4 h5 h6 h7 h8]
                                rw [takeWhile_all_self _ _ hall]
                                rw [dropWhile_all_nil _ _ hall]
                                rw [tokF_nil 0]
                                rfl
                            | cons t2 ts3 =>
                                refine ⟨g + 2, ?_⟩
                                rw [joinTokens_cons _ _ (by simp)]
                                show tokenizeF (g + 2)
                                  (b :: (rest.takeWhile (fun c => ! stopByte c) ++
                                    0x20 :: joinTokens (t2 :: ts3))) = _
                                rw [tokF_reg (g + 1) b _ hwf h1 h2 h3 h4 h5 h6 h7 h8]
                                rw [takeWhile_all_append _ _ 0x20 _ hall (by decide)]
                                rw [dropWhile_all_append _ _ 0x20 _ hall (by decide)]
                                rw [tokF_ws g 0x20 _ (by decide)]
                                rw [hg]
                                rfl

theorem escapePdf_length (raw : List Nat) : raw.length ≤ (escapePdf raw).length := by
  induction raw with
  | nil => simp [escapePdf]
  | cons b rest ih =>
      unfold escapePdf
      split_ifs <;> simp <;> omega

theorem unescapeF_escape (raw : List Nat) : ∀ fuel, raw.length ≤ fuel →
    unescapeF fuel (escapePdf raw) = raw := by
  induction raw with
  | nil =>
      intro fuel h
      cases fuel <;> simp [escapePdf, unescapeF]
  | cons b rest ih =>
      intro fuel h
      cases fuel with
      | zero => simp at h
      | succ f =>
          have hf : rest.length ≤ f := by
            simp only [List.length_cons] at h
            omega
          by_cases h1 : b = 0x5c
          · subst h1
            simp [escapePdf, unescapeF, escMap, ih f hf]
          · by_cases h2 : b = 0x28
            · subst h2
              simp [escapePdf, unescapeF, escMap, ih f hf]
            · by_cases h3 : b = 0x29
              · subst h3
                simp [escapePdf, unescapeF, escMap, ih f hf]
              · by_cases h4 : b = 0x0d
                · subst h4
                  simp [escapePdf, unescapeF, escMap, ih f hf]
                · by_cases h5 : b = 0x0a
                  · subst h5
                    simp [escapePdf, unescapeF, escMap, ih f hf]
                  · simp [escapePdf, unescapeF, h1, h2, h3, h4, h5, ih f hf]

theorem unescapePdf_escape (raw : List Nat) : unescapePdf (escapePdf raw) = raw :=
  unescapeF_escape raw (escapePdf raw).length (escapePdf_length raw)

theorem encChar_decByte (codec : Codec) (c : Char) (b : Nat)
    (h : encChar codec c = some b) : decByte codec b = c := by
  cases codec with
  | latin1 =>
      simp only [encChar] at h
      split_ifs at h with hc
      · simp only [Option.some_inj] at h
        subst h
        exact Char.ofNat_toNat c
  | macroman =>
      simp only [encChar, macRomanEnc] at h
      have := List.find?_some h
      simpa [decByte] using of_decide_eq_true this

theorem encodeBytes_decode (codec : Codec) (text : List Char) (raw : List Nat)
    (h : encodeBytes codec text = some raw) : raw.map (decByte codec) = text := by
  induction text generalizing raw with
  | nil =>
      simp [encodeBytes] at h
      subst h
      rfl
  | cons c rest ih =>
      unfold encodeBytes at h
      cases he : encChar codec c with
      | none => rw [he] at h; simp at h
      | some b =>
          cases hr : encodeBytes codec rest with
          | none => rw [he, hr] at h; simp at h
          | some bs =>
              rw [he, hr] at h
              simp at h
              subst h
              simp [List.map, ih bs hr, encChar_decByte codec c b he]

theorem wrapTok_head (a b : Nat) (l : List Nat) : (a :: l ++ [b]).head? = some a := rfl

theorem wrapTok_last (a b : Nat) (l : List Nat) :
    (a :: l ++ [b]).getLast? = some b := by
  rw [show a :: l ++ [b] = (a :: l) ++ [b] from rfl]
  exact List.getLast?_concat _

theorem wrapTok_mid (a b : Nat) (l : List Nat) : (a :: l ++ [b]).tail.dropLast = l := by
  simp [List.dropLast_concat]

theorem decode_encode_pdf (text : List Char) (encName : Option (List Char))
    (token : List Nat) (h : encodePdfString text encName = some token) :
    decodePdfString token encName = some text := by
  unfold encodePdfString at h
  cases he : encodeBytes (codecOf encName) text with
  | none => rw [he] at h; simp at h
  | some raw =>
      rw [he] at h
      simp only [Option.some_inj] at h
      subst h
      unfold decodePdfString
      rw [wrapTok_head, wrapTok_last]
      simp only [Option.some_inj, if_pos, Bool.and_self]
      rw [if_pos (by simp)]
      rw [wrapTok_mid, unescapePdf_escape, encodeBytes_decode _ _ _ he]

theorem alookup_mem {α β : Type} [DecidableEq α] (l : List (α × β)) (x : α) (v : β)
    (h : alookup l x = some v) : (x, v) ∈ l := by
  induction l with
  | nil => simp [alookup] at h
  | cons p rest ih =>
      cases p with
      | mk k w =>
          unfold alookup at h
          split_ifs at h with hk
          · cases h; subst hk; exact List.mem_cons_self _ _
          · exact List.mem_cons_of_mem _ (ih h)

theorem alookup_of_mem_nodup {α β : Type} [DecidableEq α] (l : List (α × β))
    (k : α) (v : β) (hmem : (k, v) ∈ l) (hnd : (l.map Prod.fst).Nodup) :
    alookup l k = some v := by
  induction l with
  | nil => simp at hmem
  | cons p rest ih =>
      cases p with
      | mk k2 v2 =>
          simp only [List.map_cons, List.nodup_cons] at hnd
          rcases List.mem_cons.mp hmem with heq | htail
          · cases heq
            simp [alookup]
          · unfold alookup
            split_ifs with hk
            · subst hk
              exfalso
              exact hnd.1 (List.mem_map.mpr ⟨(k, v), htail, rfl⟩)
            · exact ih htail hnd.2

theorem buildRevAux_mem (c : Char) (code : Nat) :
    ∀ (l : List (Nat × List Char)) (acc : List (Char × Nat)),
    (c, code) ∈ buildRevAux acc l → (c, code) ∈ acc ∨ (code, [c]) ∈ l := by
  intro l
  induction l with
  | nil =>
      intro acc h
      exact Or.inl (by simpa [buildRevAux] using h)
  | cons p rest ih =>
      intro acc h
      obtain ⟨cd, uni⟩ := p
      cases uni with
      | nil =>
          simp only [buildRevAux] at h
          rcases ih acc h with ha | hr
          · exact Or.inl ha
          · exact Or.inr (List.mem_cons_of_mem _ hr)
      | cons c2 us =>
          cases us with
          | nil =>
              simp only [buildRevAux] at h
              split_ifs at h with hs
              · rcases ih acc h with ha | hr
                · exact Or.inl ha
                · exact Or.inr (List.mem_cons_of_mem _ hr)
              · rcases ih (acc ++ [(c2, cd)]) h with ha | hr
                · rcases List.mem_append.mp ha with h1 | h2
                  · exact Or.inl h1
                  · simp at h2
                    obtain ⟨hc, hcd⟩ := h2
                    exact Or.inr (by rw [hc, hcd]; exact List.mem_cons_self _ _)
                · exact Or.inr (List.mem_cons_of_mem _ hr)
          | cons c3 us2 =>
              simp only [buildRevAux] at h
              rcases ih acc h with ha | hr
              · exact Or.inl ha
              · exact Or.inr (List.mem_cons_of_mem _ hr)

theorem beBytes_length (w code : Nat) : (beBytes w code).length = w := by
  induction w generalizing code with
  | zero => rfl
  | succ n ih => simp [beBytes, ih]

theorem beVal_beBytes_mod (w code : Nat) : beVal (beBytes w code) = code % 256 ^ w := by
  induction w generalizing code with
  | zero => simp [beBytes, beVal, Nat.mod_one]
  | succ n ih =>
      rw [show beBytes (n + 1) code = (code / 256 ^ n) % 256 :: beBytes n code from rfl]
      unfold beVal
      rw [ih, beBytes_length]
      rw [show (256 : Nat) ^ (n + 1) = 256 ^ n * 256 from pow_succ 256 n]
      rw [Nat.mod_mul]
      ring

theorem beVal_beBytes (w code : Nat) (h : code < 256 ^ w) :
    beVal (beBytes w code) = code := by
  rw [beVal_beBytes_mod, Nat.mod_eq_of_lt h]

theorem chunk_beBytes (bpc : Nat) (hb : 1 ≤ bpc) :
    ∀ (codes : List Nat) (fuel : Nat), codes.length ≤ fuel →
    (∀ code ∈ codes, code < 256 ^ bpc) →
    chunkCodesF fuel bpc ((codes.map (beBytes bpc)).flatten) = codes := by
  intro codes
  induction codes with
  | nil =>
      intro fuel _ _
      cases fuel with
      | zero => rfl
      | succ f =>
          unfold chunkCodesF
          split
          · rename_i hcond
            simp only [List.map_nil, List.flatten_nil, List.length_nil,
              Bool.and_eq_true, decide_eq_true_eq] at hcond
            exfalso
            omega
          · rfl
  | cons code cs ih =>
      intro fuel hlen hlt
      cases fuel with
      | zero => simp at hlen
      | succ f =>
          have hxl : ((code :: cs).map (beBytes bpc)).flatten =
              beBytes bpc code ++ (cs.map (beBytes bpc)).flatten := by simp
          unfold chunkCodesF
          rw [hxl]
          have htake : (beBytes bpc code ++ (cs.map (beBytes bpc)).flatten).take bpc =
              beBytes bpc code := List.take_left' (beBytes_length bpc code)
          have hdrop : (beBytes bpc code ++ (cs.map (beBytes bpc)).flatten).drop bpc =
              (cs.map (beBytes bpc)).flatten := List.drop_left' (beBytes_length bpc code)
          rw [if_pos]
          · rw [htake, hdrop]
            rw [beVal_beBytes bpc code (hlt code (List.mem_cons_self _ _))]
            rw [ih f (by simpa using hlen) (fun x hx => hlt x (List.mem_cons_of_mem _ hx))]
          · simp only [Bool.and_eq_true, decide_eq_true_eq]
            constructor
            · simp only [List.length_append, beBytes_length]
              omega
            · omega

theorem encCmap_spec (fwd : List (Nat × List Char)) (rev : List (Char × Nat))
    (bpc : Nat) (text : List Char)
    (h : ∀ c ∈ text, ∃ code, alookup rev c = some code ∧ code < 256 ^ bpc ∧
      alookup fwd code = some [c]) :
    ∃ codes, encCmapRaw rev bpc text = .ok ((codes.map (beBytes bpc)).flatten) ∧
      codes.length = text.length ∧ (∀ code ∈ codes, code < 256 ^ bpc) ∧
      cmapDecodeCodes fwd bpc codes = text := by
  induction text with
  | nil => exact ⟨[], rfl, rfl, by simp, rfl⟩
  | cons c rest ih =>
      obtain ⟨code, hrev, hlt, hfwd⟩ := h c (List.mem_cons_self _ _)
      obtain ⟨codes, henc, hlen, hcodes, hdec⟩ :=
        ih (fun x hx => h x (List.mem_cons_of_mem _ hx))
      refine ⟨code :: codes, ?_, by simp [hlen], ?_, ?_⟩
      · simp only [encCmapRaw, cmapCharCode, hrev, henc]
        rw [if_neg (by omega : ¬ 256 ^ bpc ≤ code)]
        simp
      · intro x hx
        rcases List.mem_cons.mp hx with h1 | h2
        · subst h1; exact hlt
        · exact hcodes x h2
      · simp only [cmapDecodeCodes, hfwd, hdec]
        rfl

theorem hexDigitU_val (n : Nat) (h : n < 16) : hexDigitVal (hexDigitU n) = some n := by
  unfold hexDigitU hexDigitVal
  split_ifs <;> simp_all <;> omega

theorem hexDigitU_not_ws (n : Nat) :
    (hexDigitU n ≠ 0x20 && hexDigitU n ≠ 0x0a && hexDigitU n ≠ 0x0d) = true := by
  unfold hexDigitU
  split_ifs <;> simp <;> omega

theorem toHexUpper_no_ws (raw : List Nat) :
    (toHexUpper raw).filter (fun b => b ≠ 0x20 && b ≠ 0x0a && b ≠ 0x0d) =
    toHexUpper raw := by
  rw [List.filter_eq_self]
  intro a ha
  induction raw with
  | nil => simp [toHexUpper] at ha
  | cons b rest ih =>
      unfold toHexUpper at ha
      rcases List.mem_cons.mp ha with h1 | h2
      · subst h1; exact hexDigitU_not_ws _
      · rcases List.mem_cons.mp h2 with h3 | h4
        · subst h3; exact hexDigitU_not_ws _
        · exact ih h4

theorem toHexUpper_length (raw : List Nat) :
    (toHexUpper raw).length = 2 * raw.length := by
  induction raw with
  | nil => rfl
  | cons b rest ih => simp [toHexUpper, ih]; omega

theorem hexPairs_toHexUpper (raw : List Nat) (h : ∀ b ∈ raw, b < 256) :
    hexPairs (toHexUpper raw) = some raw := by
  induction raw with
  | nil => rfl
  | cons b rest ih =>
      have hb := h b (List.mem_cons_self _ _)
      unfold toHexUpper hexPairs
      rw [hexDigitU_val (b / 16) (by omega), hexDigitU_val (b % 16) (by omega)]
      rw [ih (fun x hx => h x (List.mem_cons_of_mem _ hx))]
      have : b / 16 * 16 + b % 16 = b := by omega
      simp [this]

theorem parseHexBody_toHexUpper (raw : List Nat) (h : ∀ b ∈ raw, b < 256) :
    parseHexBody (toHexUpper raw) = some raw := by
  simp only [parseHexBody, toHexUpper_no_ws]
  rw [if_neg (by rw [toHexUpper_length]; omega)]
  exact hexPairs_toHexUpper raw h

theorem flatten_beBytes_length (bpc : Nat) (codes : List Nat) :
    ((codes.map (beBytes bpc)).flatten).length = bpc * codes.length := by
  induction codes with
  | nil => simp
  | cons x xs ih =>
      simp only [List.map_cons, List.flatten_cons, List.length_append,
        beBytes_length, ih, List.length_cons]
      ring

theorem beBytes_all_lt (w code : Nat) : ∀ b ∈ beBytes w code, b < 256 := by
  induction w generalizing code with
  | zero => simp [beBytes]
  | succ n ih =>
      intro b hb
      unfold beBytes at hb
      rcases List.mem_cons.mp hb with h1 | h2
      · subst h1; exact Nat.mod_lt _ (by omega)
      · exact ih code b h2

theorem undoOp_restores_pushed (s : HState) (d : List Char) (w : List (List Nat))
    (old cur : List Nat) (hv : validateDocId d = true)
    (hstack : s.undoStacks d = w ++ [old]) (hf : s.files d = some cur) :
    (undoOp d s).1 = some true ∧ (undoOp d s).2.files d = some old := by
  cases w with
  | nil =>
      refine ⟨?_, ?_⟩ <;> simp [undoOp, hv, hstack, hf, setMap_self]
  | cons c wr =>
      have hlast : (wr ++ [old]).getLastD c = old := by
        rw [List.getLastD_eq_getLast?]
        simp [List.getLast?_concat]
      refine ⟨?_, ?_⟩ <;> simp [undoOp, hv, hstack, hf, setMap_self, hlast]

/-! ## Driver lemmas -/

theorem pass1_nil (env : FontEnv) (tgtS new : List Char) (i : Nat)
    (p1 p2 : Option (List Nat)) (fm : FontMode) :
    pass1 env tgtS new [] i p1 p2 fm = .noMatch := rfl

theorem pass1_cons (env : FontEnv) (tgtS new : List Char) (tok : List Nat)
    (rest : List (List Nat)) (i : Nat) (p1 p2 : Option (List Nat))
    (fm : FontMode) :
    pass1 env tgtS new (tok :: rest) i p1 p2 fm =
      (if (tfStep env fm tok p2).skip then
        pass1 env tgtS new rest (i + 1) (some tok) p1 (tfStep env fm tok p2)
      else if tok = TjTok then
        p1.elim (pass1 env tgtS new rest (i + 1) (some tok) p1 (tfStep env fm tok p2))
          (fun st =>
            if st.head? = some 0x28 || st.head? = some 0x3c then
              (decTok (tfStep env fm tok p2) st).elim .err (fun d =>
                if pyStrip d = tgtS then encOut (tfStep env fm tok p2) new (i - 1) false
                else pass1 env tgtS new rest (i + 1) (some tok) p1 (tfStep env fm tok p2))
            else pass1 env tgtS new rest (i + 1) (some tok) p1 (tfStep env fm tok p2))
      else if tok = TJTok then
        p1.elim (pass1 env tgtS new rest (i + 1) (some tok) p1 (tfStep env fm tok p2))
          (fun arr =>
            if arr.head? = some 0x5b && arr.getLast? = some 0x5d then
              if (extractTjStrings arr).isEmpty then
                pass1 env tgtS new rest (i + 1) (some tok) p1 (tfStep env fm tok p2)
              else
                (decParts (tfStep env fm tok p2) (extractTjStrings arr)).elim .err
                  (fun full =>
                    if pyStrip full = tgtS then
                      encOut (tfStep env fm tok p2) new (i - 1) true
                    else
                      pass1 env tgtS new rest (i + 1) (some tok) p1
                        (tfStep env fm tok p2))
            else pass1 env tgtS new rest (i + 1) (some tok) p1 (tfStep env fm tok p2))
      else pass1 env tgtS new rest (i + 1) (some tok) p1 (tfStep env fm tok p2)) := rfl

theorem pass2_nil (env : FontEnv) (tgtS new : List Char) (i : Nat)
    (p1 p2 : Option (List Nat)) (fm : FontMode) (inBt : Bool) (β : BState) :
    pass2 env tgtS new [] i p1 p2 fm inBt β = .noMatch := rfl

theorem pass2_cons (env : FontEnv) (tgtS new : List Char) (tok : List Nat)
    (rest : List (List Nat)) (i : Nat) (p1 p2 : Option (List Nat))
    (fm : FontMode) (inBt : Bool) (β : BState) :
    pass2 env tgtS new (tok :: rest) i p1 p2 fm inBt β =
      (if tok = BTTok then
        pass2 env tgtS new rest (i + 1) (some tok) p1 fm true (initB fm)
      else if !inBt then
        pass2 env tgtS new rest (i + 1) (some tok) p1 (tfStep env fm tok p2) false β
      else
        (bStep env i p1 p2 tok β).elim .err (fun β2 =>
          if tok = ETTok then
            if β2.hasUnsafeFont || decide (1 < β2.changes) then
              pass2 env tgtS new rest (i + 1) (some tok) p1 fm false β2
            else if β2.ops.isEmpty || (pyStrip β2.text).isEmpty then
              pass2 env tgtS new rest (i + 1) (some tok) p1 fm false β2
            else if pyStrip β2.text = tgtS then etOut β2 new
            else pass2 env tgtS new rest (i + 1) (some tok) p1 fm false β2
          else pass2 env tgtS new rest (i + 1) (some tok) p1 fm true β2)) := rfl

theorem blockFold_nil (env : FontEnv) (i : Nat) (p1 p2 : Option (List Nat))
    (β : BState) : blockFold env [] i p1 p2 β = some β := rfl

theorem blockFold_cons (env : FontEnv) (tok : List Nat)
    (rest : List (List Nat)) (i : Nat) (p1 p2 : Option (List Nat))
    (β : BState) :
    blockFold env (tok :: rest) i p1 p2 β =
      (bStep env i p1 p2 tok β).elim none (fun β2 =>
        blockFold env rest (i + 1) (some tok) p1 β2) := rfl

theorem encOut_found (fm : FontMode) (new : List Char) (idx i2 : Nat)
    (w : Bool) (bs : List Nat) (h : encOut fm new idx w = .found i2 bs) :
    i2 = idx := by
  unfold encOut at h
  split at h
  · injection h with h1 h2
    exact h1.symm
  · cases h
  · cases h

theorem etOut_success (β2 : BState) (new : List Char) (ops : List (Bool × Nat))
    (bs : List Nat) (h : etOut β2 new = .success ops bs) : ops = β2.ops := by
  unfold etOut at h
  split at h
  · injection h with h1 h2
    exact h1.symm
  · cases h
  · cases h

theorem bTf_ops (env : FontEnv) (tok : List Nat) (p2 : Option (List Nat))
    (β : BState) : (bTf env tok p2 β).ops = β.ops := by
  unfold bTf
  split
  · cases p2 with
    | none => rfl
    | some ft =>
        rw [Option.elim_some]
        split
        · split <;> rfl
        · rfl
  · rfl

theorem bStepCore_ops (i : Nat) (p1 : Option (List Nat)) (tok : List Nat)
    (β1 β2 : BState) (h : bStepCore i p1 tok β1 = some β2) :
    β2.ops = β1.ops ∨
    (tok = TjTok ∧ p1.isSome = true ∧ β2.ops = β1.ops ++ [(true, i - 1)]) ∨
    (tok = TJTok ∧ p1.isSome = true ∧ β2.ops = β1.ops ++ [(false, i - 1)]) := by
  unfold bStepCore at h
  split at h
  · injection h with h2
    left
    rw [← h2]
  · split at h
    · rename_i htj
      cases p1 with
      | none =>
          rw [Option.elim_none] at h
          injection h with h2
          left
          rw [← h2]
      | some st =>
          rw [Option.elim_some] at h
          split at h
          · obtain ⟨d, _, hfd⟩ := Option.map_eq_some'.mp h
            right; left
            refine ⟨htj, rfl, ?_⟩
            rw [← hfd]
          · injection h with h2
            left
            rw [← h2]
    · split at h
      · rename_i htJ
        cases p1 with
        | none =>
            rw [Option.elim_none] at h
            injection h with h2
            left
            rw [← h2]
        | some arr =>
            rw [Option.elim_some] at h
            split at h
            · obtain ⟨d, _, hfd⟩ := Option.map_eq_some'.mp h
              right; right
              refine ⟨htJ, rfl, ?_⟩
              rw [← hfd]
            · injection h with h2
              left
              rw [← h2]
      · injection h with h2
        left
        rw [← h2]

theorem bStep_ops (env : FontEnv) (i : Nat) (p1 p2 : Option (List Nat))
    (tok : List Nat) (β β2 : BState) (h : bStep env i p1 p2 tok β = some β2) :
    β2.ops = β.ops ∨
    (tok = TjTok ∧ p1.isSome = true ∧ β2.ops = β.ops ++ [(true, i - 1)]) ∨
    (tok = TJTok ∧ p1.isSome = true ∧ β2.ops = β.ops ++ [(false, i - 1)]) := by
  have hb := bTf_ops env tok p2 β
  unfold bStep at h
  rcases bStepCore_ops i p1 tok (bTf env tok p2 β) β2 h with h1 | ⟨ha, hs, ho⟩ | ⟨ha, hs, ho⟩
  · left; rw [h1, hb]
  · right; left; exact ⟨ha, hs, by rw [ho, hb]⟩
  · right; right; exact ⟨ha, hs, by rw [ho, hb]⟩

theorem bStep_notOp (env : FontEnv) (i : Nat) (p1 p2 : Option (List Nat))
    (tok : List Nat) (β : BState) (h1 : tok ≠ TfTok) (h2 : tok ≠ TjTok)
    (h3 : tok ≠ TJTok) : bStep env i p1 p2 tok β = some β := by
  unfold bStep bTf bStepCore
  rw [if_neg h1, if_neg h2, if_neg h3]
  split <;> rfl

theorem applyRestOps_length :
    ∀ (ops : List (Bool × Nat)) (tokens : List (List Nat)),
    (applyRestOps tokens ops).length = tokens.length := by
  intro ops
  induction ops with
  | nil => intro tokens; rfl
  | cons q rest ih =>
      intro tokens
      show (applyRestOps (tokens.set q.2 _) rest).length = tokens.length
      rw [ih, List.length_set]

theorem applyRestOps_changed :
    ∀ (ops : List (Bool × Nat)) (tokens : List (List Nat)) (j : Nat),
    (applyRestOps tokens ops)[j]? ≠ tokens[j]? → ∃ q ∈ ops, j = q.2 := by
  intro ops
  induction ops with
  | nil => intro tokens j h; exact absurd rfl h
  | cons q rest ih =>
      intro tokens j h
      by_cases hj : j = q.2
      · exact ⟨q, List.mem_cons_self q rest, hj⟩
      · have hset : (tokens.set q.2
            (if q.1 then [0x28, 0x29] else [0x5b, 0x28, 0x29, 0x5d]))[j]? =
            tokens[j]? := List.getElem?_set_ne (fun hh => hj hh.symm)
        have h2 : (applyRestOps (tokens.set q.2
            (if q.1 then [0x28, 0x29] else [0x5b, 0x28, 0x29, 0x5d])) rest)[j]? ≠
            (tokens.set q.2
              (if q.1 then [0x28, 0x29] else [0x5b, 0x28, 0x29, 0x5d]))[j]? := by
          rw [hset]
          exact h
        obtain ⟨q2, hq2, he⟩ := ih _ j h2
        exact ⟨q2, List.mem_cons_of_mem q hq2, he⟩

theorem etOut_ok (β2 : BState) (new : List Char) (bs : List Nat)
    (h : encTok β2.fm new = .ok bs) : etOut β2 new = .success β2.ops bs := by
  unfold etOut
  split
  · rename_i bs2 heq
    rw [h] at heq
    injection heq with heq2
    rw [heq2]
  · rename_i heq
    rw [h] at heq
    cases heq
  · rename_i heq
    rw [h] at heq
    cases heq

theorem pass1_found_adj (env : FontEnv) (tgtS new : List Char)
    (tokens : List (List Nat)) :
    ∀ (rest : List (List Nat)) (i : Nat) (p1 p2 : Option (List Nat))
      (fm : FontMode) (idx : Nat) (bs : List Nat),
      rest = tokens.drop i → (p1.isSome = true → 1 ≤ i) →
      pass1 env tgtS new rest i p1 p2 fm = .found idx bs →
      tokens[idx + 1]? = some TjTok ∨ tokens[idx + 1]? = some TJTok := by
  intro rest
  induction rest with
  | nil =>
      intro i p1 p2 fm idx bs _ _ h
      rw [pass1_nil] at h
      cases h
  | cons tok rest ih =>
      intro i p1 p2 fm idx bs hdrop hp1 h
      have hdrop2 : rest = tokens.drop (i + 1) := by
        rw [← List.tail_drop, ← hdrop]
        rfl
      have hti : tokens[i]? = some tok := by
        have h0 := List.getElem?_drop tokens i 0
        rw [← hdrop] at h0
        simpa using h0.symm
      have hN : pass1 env tgtS new rest (i + 1) (some tok) p1
          (tfStep env fm tok p2) = .found idx bs →
          tokens[idx + 1]? = some TjTok ∨ tokens[idx + 1]? = some TJTok :=
        fun hh => ih (i + 1) (some tok) p1 (tfStep env fm tok p2) idx bs hdrop2
          (fun _ => by omega) hh
      rw [pass1_cons] at h
      split at h
      · exact hN h
      · split at h
        · rename_i htj
          cases p1 with
          | none =>
              rw [Option.elim_none] at h
              exact hN h
          | some st =>
              rw [Option.elim_some] at h
              split at h
              · cases hdec : decTok (tfStep env fm tok p2) st with
                | none =>
                    rw [hdec, Option.elim_none] at h
                    cases h
                | some d =>
                    rw [hdec, Option.elim_some] at h
                    split at h
                    · have hidx := encOut_found _ _ _ _ _ _ h
                      have h1i : 1 ≤ i := hp1 rfl
                      left
                      rw [hidx, show i - 1 + 1 = i from by omega, hti, htj]
                    · exact hN h
              · exact hN h
        · split at h
          · rename_i htJ
            cases p1 with
            | none =>
                rw [Option.elim_none] at h
                exact hN h
            | some arr =>
                rw [Option.elim_some] at h
                split at h
                · split at h
                  · exact hN h
                  · cases hdec : decParts (tfStep env fm tok p2)
                        (extractTjStrings arr) with
                    | none =>
                        rw [hdec, Option.elim_none] at h
                        cases h
                    | some full =>
                        rw [hdec, Option.elim_some] at h
                        split at h
                        · have hidx := encOut_found _ _ _ _ _ _ h
                          have h1i : 1 ≤ i := hp1 rfl
                          right
                          rw [hidx, show i - 1 + 1 = i from by omega, hti, htJ]
                        · exact hN h
                · exact hN h
          · exact hN h

theorem pass2_success_ops (env : FontEnv) (tgtS new : List Char)
    (tokens : List (List Nat)) :
    ∀ (rest : List (List Nat)) (i : Nat) (p1 p2 : Option (List Nat))
      (fm : FontMode) (inBt : Bool) (β : BState) (ops : List (Bool × Nat))
      (bs : List Nat),
      rest = tokens.drop i → (p1.isSome = true → 1 ≤ i) →
      (∀ q ∈ β.ops, tokens[q.2 + 1]? = some (cond q.1 TjTok TJTok)) →
      pass2 env tgtS new rest i p1 p2 fm inBt β = .success ops bs →
      ∀ q ∈ ops, tokens[q.2 + 1]? = some (cond q.1 TjTok TJTok) := by
  intro rest
  induction rest with
  | nil =>
      intro i p1 p2 fm inBt β ops bs _ _ _ h
      rw [pass2_nil] at h
      cases h
  | cons tok rest ih =>
      intro i p1 p2 fm inBt β ops bs hdrop hp1 hβ h
      have hdrop2 : rest = tokens.drop (i + 1) := by
        rw [← List.tail_drop, ← hdrop]
        rfl
      have hti : tokens[i]? = some tok := by
        have h0 := List.getElem?_drop tokens i 0
        rw [← hdrop] at h0
        simpa using h0.symm
      rw [pass2_cons] at h
      split at h
      · refine ih (i + 1) (some tok) p1 fm true (initB fm) ops bs hdrop2
          (fun _ => by omega) ?_ h
        intro q hq
        simp [initB] at hq
      · split at h
        · exact ih (i + 1) (some tok) p1 (tfStep env fm tok p2) false β ops bs
            hdrop2 (fun _ => by omega) hβ h
        · cases hb : bStep env i p1 p2 tok β with
          | none =>
              rw [hb, Option.elim_none] at h
              cases h
          | some β2 =>
              rw [hb, Option.elim_some] at h
              have hβ2 : ∀ q ∈ β2.ops,
                  tokens[q.2 + 1]? = some (cond q.1 TjTok TJTok) := by
                rcases bStep_ops env i p1 p2 tok β β2 hb with
                  h1 | ⟨ha, hs, ho⟩ | ⟨ha, hs, ho⟩
                · rw [h1]; exact hβ
                · rw [ho]
                  intro q hq
                  rcases List.mem_append.mp hq with hq1 | hq2
                  · exact hβ q hq1
                  · have hq3 : q = (true, i - 1) := by simpa using hq2
                    subst hq3
                    have h1i : 1 ≤ i := hp1 hs
                    show tokens[i - 1 + 1]? = some (cond true TjTok TJTok)
                    rw [show i - 1 + 1 = i from by omega, hti, ha]
                    rfl
                · rw [ho]
                  intro q hq
                  rcases List.mem_append.mp hq with hq1 | hq2
                  · exact hβ q hq1
                  · have hq3 : q = (false, i - 1) := by simpa using hq2
                    subst hq3
                    have h1i : 1 ≤ i := hp1 hs
                    show tokens[i - 1 + 1]? = some (cond false TjTok TJTok)
                    rw [show i - 1 + 1 = i from by omega, hti, ha]
                    rfl
              split at h
              · split at h
                · exact ih (i + 1) (some tok) p1 fm false β2 ops bs hdrop2
                    (fun _ => by omega) hβ2 h
                · split at h
                  · exact ih (i + 1) (some tok) p1 fm false β2 ops bs hdrop2
                      (fun _ => by omega) hβ2 h
                  · split at h
                    · have hoe := etOut_success β2 new ops bs h
                      intro q hq
                      exact hβ2 q (hoe ▸ hq)
                    · exact ih (i + 1) (some tok) p1 fm false β2 ops bs hdrop2
                        (fun _ => by omega) hβ2 h
              · exact ih (i + 1) (some tok) p1 fm true β2 ops bs hdrop2
                  (fun _ => by omega) hβ2 h

theorem pass2_block_success (env : FontEnv) (tgtS new : List Char) :
    ∀ (body tail : List (List Nat)) (i : Nat) (p1 p2 : Option (List Nat))
      (fm : FontMode) (β β' : BState) (bs : List Nat),
      (∀ t ∈ body, t ≠ BTTok ∧ t ≠ ETTok) →
      blockFold env body i p1 p2 β = some β' →
      β'.hasUnsafeFont = false → β'.changes ≤ 1 → β'.ops ≠ [] →
      pyStrip β'.text ≠ [] → pyStrip β'.text = tgtS →
      encTok β'.fm new = .ok bs →
      pass2 env tgtS new (body ++ ETTok :: tail) i p1 p2 fm true β =
        .success β'.ops bs := by
  intro body
  induction body with
  | nil =>
      intro tail i p1 p2 fm β β' bs _ hfold hu hc ho hs hm he
      rw [blockFold_nil] at hfold
      injection hfold with hβ
      subst hβ
      rw [List.nil_append, pass2_cons]
      rw [if_neg (by decide : ¬(ETTok = BTTok))]
      rw [if_neg (by decide : ¬((!true) = true))]
      rw [bStep_notOp env i p1 p2 ETTok β (by decide) (by decide) (by decide),
        Option.elim_some]
      rw [if_pos rfl]
      have hcond : ¬((β.hasUnsafeFont || decide (1 < β.changes)) = true) := by
        simp [hu]
        omega
      rw [if_neg hcond]
      have hcond2 : ¬((β.ops.isEmpty || (pyStrip β.text).isEmpty) = true) := by
        simp [List.isEmpty_iff]
        exact ⟨ho, hs⟩
      rw [if_neg hcond2]
      rw [if_pos hm]
      exact etOut_ok β new bs he
  | cons t body ihb =>
      intro tail i p1 p2 fm β β' bs hmem hfold hu hc ho hs hm he
      obtain ⟨ht1, ht2⟩ := hmem t (List.mem_cons_self t body)
      rw [blockFold_cons] at hfold
      cases hb : bStep env i p1 p2 t β with
      | none =>
          rw [hb, Option.elim_none] at hfold
          cases hfold
      | some β2 =>
          rw [hb, Option.elim_some] at hfold
          rw [List.cons_append, pass2_cons]
          rw [if_neg ht1]
          rw [if_neg (by decide : ¬((!true) = true))]
          rw [hb, Option.elim_some]
          rw [if_neg ht2]
          exact ihb tail (i + 1) (some t) p1 fm β2 β' bs
            (fun u hu2 => hmem u (List.mem_cons_of_mem t hu2)) hfold hu hc ho hs
            hm he

/-! ## Extraction lemmas -/

theorem hasInk_append_left (a b : List Char) (h : hasInk a = true) :
    hasInk (a ++ b) = true := by
  unfold hasInk at *
  rw [List.any_append, h, Bool.true_or]

theorem joinNl_ink (t : List Char) (ts : List (List Char))
    (h : hasInk t = true) : hasInk (joinNl (t :: ts)) = true := by
  cases ts with
  | nil => exact h
  | cons t2 ts2 =>
      show hasInk (t ++ '\n' :: joinNl (t2 :: ts2)) = true
      exact hasInk_append_left _ _ h

theorem rawLines_ink (b : PBlock) : ∀ r ∈ rawLines b, hasInk r.text = true := by
  intro r hr
  obtain ⟨l, _, hf⟩ := List.mem_filterMap.mp hr
  by_cases hink : hasInk (lineText l) = true
  · rw [if_pos hink] at hf
    injection hf with hf2
    rw [← hf2]
    exact hink
  · rw [if_neg hink] at hf
    cases hf

theorem mergeRows_nil (last : RLine) : mergeRows last [] = [last] := rfl

theorem mergeRows_cons (last r : RLine) (rest : List RLine) :
    mergeRows last (r :: rest) =
      if sameRow last.bbox r.bbox then mergeRows (mergeRLine last r) rest
      else last :: mergeRows r rest := rfl

theorem mergeRows_ink :
    ∀ (rest : List RLine) (last : RLine), hasInk last.text = true →
      (∀ r ∈ rest, hasInk r.text = true) →
      ∀ x ∈ mergeRows last rest, hasInk x.text = true := by
  intro rest
  induction rest with
  | nil =>
      intro last hl _ x hx
      rw [mergeRows_nil] at hx
      have hxl : x = last := by simpa using hx
      rw [hxl]
      exact hl
  | cons r rest ih =>
      intro last hl hr x hx
      rw [mergeRows_cons] at hx
      split at hx
      · have hm : hasInk (mergeRLine last r).text = true := by
          show hasInk (last.text ++ sepSpace last.text r.text ++ r.text) = true
          exact hasInk_append_left _ r.text (hasInk_append_left last.text _ hl)
        exact ih (mergeRLine last r) hm
          (fun q hq => hr q (List.mem_cons_of_mem r hq)) x hx
      · rcases List.mem_cons.mp hx with h1 | h2
        · rw [h1]; exact hl
        · exact ih r (hr r (List.mem_cons_self r rest))
            (fun q hq => hr q (List.mem_cons_of_mem r hq)) x h2

theorem gapGroups_nil (l : RLine) : gapGroups l [] = [[l]] := rfl

theorem gapGroups_cons (l r : RLine) (rest : List RLine) :
    gapGroups l (r :: rest) =
      (if l.bbox.y1 - l.bbox.y0 < r.bbox.y0 - l.bbox.y1 then
        [l] :: gapGroups r rest
      else
        match gapGroups r rest with
        | g :: gs => (l :: g) :: gs
        | [] => [[l]]) := rfl

theorem gapGroups_head :
    ∀ (rest : List RLine) (l : RLine) (P : RLine → Prop), P l →
      (∀ r ∈ rest, P r) →
      ∀ g ∈ gapGroups l rest, ∃ h t, g = h :: t ∧ P h := by
  intro rest
  induction rest with
  | nil =>
      intro l P hl _ g hg
      rw [gapGroups_nil] at hg
      have : g = [l] := by simpa using hg
      exact ⟨l, [], this, hl⟩
  | cons r rest ih =>
      intro l P hl hr g hg
      rw [gapGroups_cons] at hg
      split at hg
      · rcases List.mem_cons.mp hg with h1 | h2
        · exact ⟨l, [], h1, hl⟩
        · exact ih r P (hr r (List.mem_cons_self r rest))
            (fun q hq => hr q (List.mem_cons_of_mem r hq)) g h2
      · cases hgg : gapGroups r rest with
        | nil =>
            rw [hgg] at hg
            have : g = [l] := by simpa using hg
            exact ⟨l, [], this, hl⟩
        | cons g0 gs =>
            rw [hgg] at hg
            rcases List.mem_cons.mp hg with h1 | h2
            · obtain ⟨h0, t0, hgt, hP0⟩ := ih r P (hr r (List.mem_cons_self r rest))
                (fun q hq => hr q (List.mem_cons_of_mem r hq)) g0
                (by rw [hgg]; exact List.mem_cons_self g0 gs)
              exact ⟨l, g0, h1, hl⟩
            · exact ih r P (hr r (List.mem_cons_self r rest))
                (fun q hq => hr q (List.mem_cons_of_mem r hq)) g
                (by rw [hgg]; exact List.mem_cons_of_mem g0 h2)

theorem bulletGroups_nil (cur : List RLine) :
    bulletGroups cur [] = if cur.isEmpty then [] else [cur] := rfl

theorem bulletGroups_cons (cur : List RLine) (r : RLine) (rest : List RLine) :
    bulletGroups cur (r :: rest) =
      if r.bullet && !cur.isEmpty then cur :: bulletGroups [r] rest
      else bulletGroups (cur ++ [r]) rest := rfl

theorem bulletGroups_head :
    ∀ (rest cur : List RLine) (P : RLine → Prop), (∀ x ∈ cur, P x) →
      (∀ r ∈ rest, P r) →
      ∀ g ∈ bulletGroups cur rest, ∃ h t, g = h :: t ∧ P h := by
  intro rest
  induction rest with
  | nil =>
      intro cur P hc _ g hg
      rw [bulletGroups_nil] at hg
      split at hg
      · cases hg
      · rename_i hne
        have hgc : g = cur := by simpa using hg
        subst hgc
        cases g with
        | nil => exact absurd rfl hne
        | cons c cs => exact ⟨c, cs, rfl, hc c (List.mem_cons_self c cs)⟩
  | cons r rest ih =>
      intro cur P hc hr g hg
      rw [bulletGroups_cons] at hg
      split at hg
      · rename_i hcond
        rcases List.mem_cons.mp hg with h1 | h2
        · subst h1
          have hne : ¬g.isEmpty = true := by
            have := (Bool.and_eq_true _ _).mp hcond
            simpa using this.2
          cases g with
          | nil => exact absurd rfl hne
          | cons c cs => exact ⟨c, cs, rfl, hc c (List.mem_cons_self c cs)⟩
        · refine ih [r] P ?_ (fun q hq => hr q (List.mem_cons_of_mem r hq)) g h2
          intro x hx
          have : x = r := by simpa using hx
          rw [this]
          exact hr r (List.mem_cons_self r rest)
      · refine ih (cur ++ [r]) P ?_
          (fun q hq => hr q (List.mem_cons_of_mem r hq)) g hg
        intro x hx
        rcases List.mem_append.mp hx with h1 | h2
        · exact hc x h1
        · have : x = r := by simpa using h2
          rw [this]
          exact hr r (List.mem_cons_self r rest)

theorem insertItem_mem (x : PItem) :
    ∀ (l : List PItem) (y : PItem), y ∈ insertItem x l → y = x ∨ y ∈ l := by
  intro l
  induction l with
  | nil =>
      intro y hy
      left
      rw [show insertItem x [] = [x] from rfl] at hy
      simpa using hy
  | cons z zs ih =>
      intro y hy
      rw [show insertItem x (z :: zs) =
          (if keyLe x z then x :: z :: zs else z :: insertItem x zs) from rfl] at hy
      split at hy
      · rcases List.mem_cons.mp hy with h1 | h2
        · exact Or.inl h1
        · exact Or.inr h2
      · rcases List.mem_cons.mp hy with h1 | h2
        · exact Or.inr (h1 ▸ List.mem_cons_self z zs)
        · rcases ih y h2 with h3 | h4
          · exact Or.inl h3
          · exact Or.inr (List.mem_cons_of_mem z h4)

theorem sortItems_mem :
    ∀ (l : List PItem) (y : PItem), y ∈ sortItems l → y ∈ l := by
  intro l
  induction l with
  | nil => intro y hy; exact hy
  | cons x xs ih =>
      intro y hy
      rcases insertItem_mem x (sortItems xs) y hy with h1 | h2
      · exact h1 ▸ List.mem_cons_self x xs
      · exact List.mem_cons_of_mem x (ih y h2)

theorem mergeItems_nil (last : PItem) : mergeItems last [] = [last] := rfl

theorem mergeItems_cons (last r : PItem) (rest : List PItem) :
    mergeItems last (r :: rest) =
      (if sameRow last.bbox r.bbox &&
          (0 : ℚ) ≤ r.bbox.x0 - last.bbox.x1 &&
          r.bbox.x0 - last.bbox.x1 < max (psize last.fspan) (psize r.fspan) then
        mergeItems (mergePItem last r) rest
      else last :: mergeItems r rest) := rfl

theorem mergeItems_ink :
    ∀ (rest : List PItem) (last : PItem), hasInk last.text = true →
      (∀ r ∈ rest, hasInk r.text = true) →
      ∀ x ∈ mergeItems last rest, hasInk x.text = true := by
  intro rest
  induction rest with
  | nil =>
      intro last hl _ x hx
      rw [mergeItems_nil] at hx
      have hxl : x = last := by simpa using hx
      rw [hxl]
      exact hl
  | cons r rest ih =>
      intro last hl hr x hx
      rw [mergeItems_cons] at hx
      split at hx
      · have hm : hasInk (mergePItem last r).text = true := by
          show hasInk (last.text ++ sepSpace last.text r.text ++ r.text) = true
          exact hasInk_append_left _ r.text (hasInk_append_left last.text _ hl)
        exact ih (mergePItem last r) hm
          (fun q hq => hr q (List.mem_cons_of_mem r hq)) x hx
      · rcases List.mem_cons.mp hx with h1 | h2
        · rw [h1]; exact hl
        · exact ih r (hr r (List.mem_cons_self r rest))
            (fun q hq => hr q (List.mem_cons_of_mem r hq)) x h2

theorem collectBlockLines_ink (b : PBlock) :
    ∀ x ∈ (collectBlockLines b).1, hasInk x.text = true := by
  have hraw := rawLines_ink b
  show ∀ x ∈ (match rawLines b with
    | [] => ([] : List RLine)
    | r :: rest => mergeRows r rest), hasInk x.text = true
  cases hr : rawLines b with
  | nil => intro x hx; cases hx
  | cons r rest =>
      intro x hx
      rw [hr] at hraw
      exact mergeRows_ink rest r (hraw r (List.mem_cons_self r rest))
        (fun q hq => hraw q (List.mem_cons_of_mem r hq)) x hx

theorem splitBlock_ink (b : PBlock) :
    ∀ it ∈ splitBlock b, hasInk it.text = true := by
  intro it hit
  rcases hcb : collectBlockLines b with ⟨lines, bfs⟩
  cases lines with
  | nil =>
      have hz : splitBlock b = [] := by
        unfold splitBlock
        rw [hcb]
        cases bfs <;> rfl
      rw [hz] at hit
      cases hit
  | cons l ls =>
      cases bfs with
      | none =>
          have hz : splitBlock b = [] := by
            unfold splitBlock
            rw [hcb]
          rw [hz] at hit
          cases hit
      | some sp =>
          have heq : splitBlock b =
              (if (l :: ls).any RLine.bullet then
                (bulletGroups [] (l :: ls)).map groupItem
              else (gapGroups l ls).map groupItem) := by
            unfold splitBlock
            rw [hcb]
          rw [heq] at hit
          have hlines : ∀ x ∈ l :: ls, hasInk x.text = true := by
            have hcl := collectBlockLines_ink b
            rw [hcb] at hcl
            exact hcl
          split at hit
          · obtain ⟨g, hg, he⟩ := List.mem_map.mp hit
            obtain ⟨h0, t0, hgt, hP⟩ := bulletGroups_head (l :: ls) []
              (fun x => hasInk x.text = true) (fun x hx => by cases hx)
              (fun r hr => hlines r hr) g hg
            rw [← he, hgt]
            exact joinNl_ink h0.text (t0.map RLine.text) hP
          · obtain ⟨g, hg, he⟩ := List.mem_map.mp hit
            obtain ⟨h0, t0, hgt, hP⟩ := gapGroups_head ls l
              (fun x => hasInk x.text = true)
              (hlines l (List.mem_cons_self l ls))
              (fun r hr => hlines r (List.mem_cons_of_mem l hr)) g hg
            rw [← he, hgt]
            exact joinNl_ink h0.text (t0.map RLine.text) hP

theorem collectPageItems_ink (blocks : List PBlock) :
    ∀ it ∈ collectPageItems blocks, hasInk it.text = true := by
  intro it hit
  have hraw : ∀ x ∈ (((blocks.filter (fun b => b.btype = 0)).map
      splitBlock).flatten), hasInk x.text = true := by
    intro x hx
    obtain ⟨l, hl, hxl⟩ := List.mem_flatten.mp hx
    obtain ⟨b, _, hbl⟩ := List.mem_map.mp hl
    exact splitBlock_ink b x (hbl ▸ hxl)
  unfold collectPageItems at hit
  cases hs : sortItems (((blocks.filter (fun b => b.btype = 0)).map
      splitBlock).flatten) with
  | nil =>
      rw [hs] at hit
      cases hit
  | cons r rest =>
      rw [hs] at hit
      have hmem : ∀ y ∈ r :: rest, hasInk y.text = true := by
        intro y hy
        exact hraw y (sortItems_mem _ y (hs ▸ hy))
      exact mergeItems_ink rest r (hmem r (List.mem_cons_self r rest))
        (fun q hq => hmem q (List.mem_cons_of_mem r hq)) it hit

/-! ## Claim theorems -/

/-- C3: after exactly one successful mutation on an existing document
(snapshot first, then the write to the file, as every mutating path in
`text_service.py` and its peers does), `undo(doc_id)` returns True and
the document file again holds exactly the pre-mutation bytes. -/
theorem claim3_undo_after_single_mutation (s : HState) (d : List Char)
    (old new : List Nat) (hv : validateDocId d = true)
    (hf : s.files d = some old) :
    (undoOp d (writeOp d new (snapshotOp d s))).1 = some true ∧
    (undoOp d (writeOp d new (snapshotOp d s))).2.files d = some old := by
  have hsnap : (snapshotOp d s).undoStacks d =
      (if MAX_UNDO < (s.undoStacks d ++ [old]).length
       then (s.undoStacks d ++ [old]).tail else (s.undoStacks d ++ [old])) := by
    simp [snapshotOp, hv, hf, setMap_self]
  obtain ⟨w, hw⟩ : ∃ w,
      (if MAX_UNDO < (s.undoStacks d ++ [old]).length
       then (s.undoStacks d ++ [old]).tail else (s.undoStacks d ++ [old])) =
      w ++ [old] := by
    split
    · rename_i hgt
      cases hu : s.undoStacks d with
      | nil =>
          rw [hu] at hgt
          simp [MAX_UNDO] at hgt
      | cons c u => exact ⟨u, by simp⟩
    · exact ⟨s.undoStacks d, rfl⟩
  apply undoOp_restores_pushed _ _ w old new hv
  · rw [show (writeOp d new (snapshotOp d s)).undoStacks = (snapshotOp d s).undoStacks
        from rfl, hsnap, hw]
  · simp [writeOp, setMap_self]

/-- C3 witness: a concrete run from an empty store. -/
theorem claim3_witness :
    validateDocId ("00112233aabbccdd".toList) = true ∧
    ((writeOp ("00112233aabbccdd".toList) [1, 2] initHState).files
      ("00112233aabbccdd".toList) = some [1, 2]) ∧
    (undoOp ("00112233aabbccdd".toList)
      (writeOp ("00112233aabbccdd".toList) [9]
        (snapshotOp ("00112233aabbccdd".toList)
          (writeOp ("00112233aabbccdd".toList) [1, 2] initHState)))).1 = some true ∧
    (undoOp ("00112233aabbccdd".toList)
      (writeOp ("00112233aabbccdd".toList) [9]
        (snapshotOp ("00112233aabbccdd".toList)
          (writeOp ("00112233aabbccdd".toList) [1, 2] initHState)))).2.files
      ("00112233aabbccdd".toList) = some [1, 2] := by
  refine ⟨by decide, by decide, ?_⟩
  exact claim3_undo_after_single_mutation _ _ [1, 2] [9] (by decide) (by decide)

/-- C5: starting from the initial empty state, both snapshot stacks of any
document stay bounded by MAX_UNDO = 20 under any operation sequence; when
a snapshot would push the undo stack past the bound the oldest entry is
discarded; and a snapshot taken on an existing file clears the document's
redo stack. -/
theorem claim5_bounded_stacks :
    (∀ (ops : List HOp) (d : List Char),
      ((applyHOps ops initHState).undoStacks d).length ≤ MAX_UNDO ∧
      ((applyHOps ops initHState).redoStacks d).length ≤ MAX_UNDO) ∧
    (∀ (s : HState) (d : List Char) (b : List Nat),
      validateDocId d = true → s.files d = some b →
      (s.undoStacks d).length = MAX_UNDO →
      (snapshotOp d s).undoStacks d = (s.undoStacks d).tail ++ [b]) ∧
    (∀ (s : HState) (d : List Char) (b : List Nat),
      validateDocId d = true → s.files d = some b →
      (snapshotOp d s).redoStacks d = []) := by
  refine ⟨?_, ?_, ?_⟩
  · intro ops d
    have h := histInv_applyHOps ops initHState histInv_init d
    omega
  · intro s d b hv hf hlen
    have hgt : MAX_UNDO < (s.undoStacks d ++ [b]).length := by
      simp only [List.length_append, List.length_cons, List.length_nil]
      omega
    have hne : s.undoStacks d ≠ [] := by
      intro h0
      rw [h0] at hlen
      simp [MAX_UNDO] at hlen
    cases hu : s.undoStacks d with
    | nil => exact absurd hu hne
    | cons c u =>
        rw [hu] at hlen
        simp only [List.length_cons] at hlen
        simp [snapshotOp, hv, hf, setMap_self, hu]
        omega
  · intro s d b hv hf
    simp [snapshotOp, hv, hf, setMap_self]

/-- C5 witness: concrete instances for all three parts. -/
theorem claim5_witness :
    (((applyHOps [HOp.write ("00112233aabbccdd".toList) [7],
        HOp.snap ("00112233aabbccdd".toList)] initHState).undoStacks
        ("00112233aabbccdd".toList)).length ≤ MAX_UNDO ∧
      ((applyHOps [HOp.write ("00112233aabbccdd".toList) [7],
        HOp.snap ("00112233aabbccdd".toList)] initHState).redoStacks
        ("00112233aabbccdd".toList)).length ≤ MAX_UNDO) ∧
    ((snapshotOp ("00112233aabbccdd".toList)
        { files := fun x => if x = ("00112233aabbccdd".toList) then some [1] else none,
          undoStacks := fun x =>
            if x = ("00112233aabbccdd".toList) then List.replicate 20 [2] else [],
          redoStacks := fun _ => [] }).undoStacks ("00112233aabbccdd".toList) =
      (List.replicate 20 [2]).tail ++ [[1]]) ∧
    ((snapshotOp ("00112233aabbccdd".toList)
        { files := fun x => if x = ("00112233aabbccdd".toList) then some [1] else none,
          undoStacks := fun x =>
            if x = ("00112233aabbccdd".toList) then List.replicate 20 [2] else [],
          redoStacks := fun _ => [] }).redoStacks ("00112233aabbccdd".toList) = []) := by
  refine ⟨claim5_bounded_stacks.1 _ _, ?_, ?_⟩
  · have h := claim5_bounded_stacks.2.1
      { files := fun x => if x = ("00112233aabbccdd".toList) then some [1] else none,
        undoStacks := fun x =>
          if x = ("00112233aabbccdd".toList) then List.replicate 20 [2] else [],
        redoStacks := fun _ => [] }
      ("00112233aabbccdd".toList) [1] (by decide) (by decide) (by decide)
    simpa using h
  · exact claim5_bounded_stacks.2.2
      { files := fun x => if x = ("00112233aabbccdd".toList) then some [1] else none,
        undoStacks := fun x =>
          if x = ("00112233aabbccdd".toList) then List.replicate 20 [2] else [],
        redoStacks := fun _ => [] }
      ("00112233aabbccdd".toList) [1] (by decide) (by decide)

/-- C6: the id validator embeds `re.match(r"^[0-9a-f]{16}$", doc_id)`,
whose `$` also matches just before one trailing newline; the 17-character
input "0123456789abcdef\n" is therefore accepted even though the claim
(and the function's own docstring, "Reject any doc_id that isn't exactly
16 hex chars") requires rejection.  Plain 16-hex ids are accepted and
other malformed ids are rejected, as claimed. -/
theorem claim6_validator_trailing_newline :
    validateDocId ("0123456789abcdef\n".toList) = true ∧
    ("0123456789abcdef\n".toList).length = 17 ∧
    validateDocId ("0123456789abcdef".toList) = true ∧
    validateDocId ("0123456789abcdeg".toList) = false ∧
    validateDocId ("0123456789ABCDEF".toList) = false ∧
    validateDocId ("0123456789abcde".toList) = false := by
  decide

/-- C1 (amended): encode-then-decode round-trips.  For a winansi or
macroman simple font, whenever `_encode_pdf_string` succeeds, decoding the
produced token yields the original text.  For a CMap-backed font whose
reverse map is built by `_build_reverse_cmap` from a forward map with
unique codes fitting `bytes_per_code` bytes, the law holds whenever every
character of the text is directly in the reverse map (the claim's extra
allowance for the character-equivalents table is refuted separately: an
equivalent substitutes a different character, which then decodes to the
substitute). -/
theorem claim1_codec_roundtrip :
    (∀ (text : List Char) (encName : Option (List Char)) (token : List Nat),
      (encName = some ("WinAnsiEncoding".toList) ∨
       encName = some ("MacRomanEncoding".toList)) →
      encodePdfString text encName = some token →
      decodePdfString token encName = some text) ∧
    (∀ (fwd : List (Nat × List Char)) (bpc : Nat) (text : List Char)
       (token : List Nat),
      (fwd.map Prod.fst).Nodup → 1 ≤ bpc →
      (∀ p ∈ fwd, p.1 < 256 ^ bpc) →
      (∀ c ∈ text, (alookup (buildReverseCmap fwd) c).isSome) →
      encodeWithCmap text (buildReverseCmap fwd) bpc = .ok token →
      decodeWithCmap token fwd bpc = some text) := by
  constructor
  · intro text encName token _ h
    exact decode_encode_pdf text encName token h
  · intro fwd bpc text token hnd hb hfit hrev henc
    have hchar : ∀ c ∈ text, ∃ code,
        alookup (buildReverseCmap fwd) c = some code ∧ code < 256 ^ bpc ∧
        alookup fwd code = some [c] := by
      intro c hc
      obtain ⟨code, hcode⟩ := Option.isSome_iff_exists.mp (hrev c hc)
      refine ⟨code, hcode, ?_, ?_⟩
      · have hmem := alookup_mem _ _ _ hcode
        rcases buildRevAux_mem c code fwd [] hmem with h0 | hf
        · simp at h0
        · exact hfit _ hf
      · have hmem := alookup_mem _ _ _ hcode
        rcases buildRevAux_mem c code fwd [] hmem with h0 | hf
        · simp at h0
        · exact alookup_of_mem_nodup fwd code [c] hf hnd
    obtain ⟨codes, hER, hlen, hcodes, hdec⟩ :=
      encCmap_spec fwd (buildReverseCmap fwd) bpc text hchar
    have hflat_lt : ∀ b ∈ (codes.map (beBytes bpc)).flatten, b < 256 := by
      intro b hbm
      rcases List.mem_flatten.mp hbm with ⟨l, hl, hbl⟩
      rcases List.mem_map.mp hl with ⟨code, _, rfl⟩
      exact beBytes_all_lt bpc code b hbl
    have hflat_len : ((codes.map (beBytes bpc)).flatten).length = bpc * codes.length :=
      flatten_beBytes_length bpc codes
    have henc2 :
        (if 1 < bpc then
          EncRes.ok (0x3c :: toHexUpper ((codes.map (beBytes bpc)).flatten) ++ [0x3e])
         else
          EncRes.ok (0x28 :: escapePdf ((codes.map (beBytes bpc)).flatten) ++ [0x29])) =
        EncRes.ok token := by
      rw [← henc]
      unfold encodeWithCmap
      rw [hER]
    by_cases hbig : 1 < bpc
    · rw [if_pos hbig] at henc2
      simp only [EncRes.ok.injEq] at henc2
      subst henc2
      unfold decodeWithCmap
      rw [wrapTok_head]
      rw [if_neg (by simp)]
      rw [wrapTok_last]
      rw [if_pos (by simp)]
      rw [wrapTok_mid]
      rw [parseHexBody_toHexUpper _ hflat_lt]
      show some (cmapDecodeCodes fwd bpc
        (chunkCodesF (((codes.map (beBytes bpc)).flatten).length + 1) bpc
          ((codes.map (beBytes bpc)).flatten))) = some text
      rw [chunk_beBytes bpc hb codes (((codes.map (beBytes bpc)).flatten).length + 1)
            (by rw [hflat_len]; calc
              codes.length ≤ bpc * codes.length := Nat.le_mul_of_pos_left _ (by omega)
              _ ≤ bpc * codes.length + 1 := by omega) hcodes]
      rw [hdec]
    · rw [if_neg hbig] at henc2
      simp only [EncRes.ok.injEq] at henc2
      subst henc2
      unfold decodeWithCmap
      rw [wrapTok_head, wrapTok_last]
      rw [if_pos (by simp)]
      rw [wrapTok_mid, unescapePdf_escape]
      show some (cmapDecodeCodes fwd bpc
        (chunkCodesF (((codes.map (beBytes bpc)).flatten).length + 1) bpc
          ((codes.map (beBytes bpc)).flatten))) = some text
      rw [chunk_beBytes bpc hb codes (((codes.map (beBytes bpc)).flatten).length + 1)
            (by rw [hflat_len]; calc
              codes.length ≤ bpc * codes.length := Nat.le_mul_of_pos_left _ (by omega)
              _ ≤ bpc * codes.length + 1 := by omega) hcodes]
      rw [hdec]

/-- C1 counterexample to the claim as stated: with a CMap whose reverse
map holds only the apostrophe, the right single quote U+2019 is "in the
character-equivalents table", encoding succeeds through the apostrophe
equivalent, but decoding returns the apostrophe, not the original text. -/
theorem claim1_counterexample :
    ((alookup (buildReverseCmap [(1, [Char.ofNat 0x27])]) (Char.ofNat 0x2019)).isSome ∨
     (alookup CHAR_EQUIVALENTS (Char.ofNat 0x2019)).isSome) ∧
    encodeWithCmap [Char.ofNat 0x2019] (buildReverseCmap [(1, [Char.ofNat 0x27])]) 1 =
      .ok [0x28, 1, 0x29] ∧
    decodeWithCmap [0x28, 1, 0x29] [(1, [Char.ofNat 0x27])] 1 ≠
      some [Char.ofNat 0x2019] := by
  refine ⟨Or.inr (by decide), by decide, by decide⟩

/-- C1 witness: concrete round trips through both parts of the theorem. -/
theorem claim1_witness :
    decodePdfString [0x28, 0x48, 0x69, 0x29] (some ("WinAnsiEncoding".toList)) =
      some ("Hi".toList) ∧
    decodeWithCmap [0x28, 1, 2, 0x29] [(1, ['H']), (2, ['i'])] 1 =
      some ("Hi".toList) := by
  constructor
  · exact claim1_codec_roundtrip.1 ("Hi".toList) _ _ (Or.inl rfl) (by decide)
  · exact claim1_codec_roundtrip.2 [(1, ['H']), (2, ['i'])] 1 ("Hi".toList) _
      (by decide) (by decide) (by decide) (by decide) (by decide)

/-- C9: `_normalize_font` computes exactly the claim's description — first
FONT_MAP substring match on the normalised key with the bold/italic
suffix, else the hebo/heit/helv fallback on the raw lowercased name. -/
theorem claim9_normalize_font (name : List Char) :
    normalizeFont name = normalizeFontClaim name := by
  simp only [normalizeFont, normalizeFontClaim, fontMapScan_eq_find]
  cases hf : List.find?
      (fun p => containsSub p.1 (afterPlus (dropSpaceDash (lowerStr name)))) FONT_MAP with
  | none =>
      simp only [hf, Option.map_none']
      split_ifs <;> simp_all
  | some p =>
      simp only [hf, Option.map_some']
      split_ifs <;> simp_all

/-- C4: whenever the tokenizer produces a token list for an input byte
sequence, joining those tokens with single space separators and tokenizing
the result yields exactly the same token sequence. -/
theorem claim4_tokenizer_roundtrip (raw : List Nat) (ts : List (List Nat))
    (h : tokenizeStream raw = some ts) :
    tokenizeStream (joinTokens ts) = some ts := by
  obtain ⟨g, hg⟩ := tokenizeF_roundtrip (raw.length + 1) raw ts h
  exact tokenizeF_fuel g _ ts hg

/-- C4 witness: the stream "(a) Tj" tokenizes and round-trips. -/
theorem claim4_witness :
    tokenizeStream (joinTokens [[0x28, 0x61, 0x29], [0x54, 0x6a]]) =
      some [[0x28, 0x61, 0x29], [0x54, 0x6a]] :=
  claim4_tokenizer_roundtrip [0x28, 0x61, 0x29, 0x20, 0x54, 0x6a]
    [[0x28, 0x61, 0x29], [0x54, 0x6a]] (by decide)

/-- C7: for every target text containing a newline character,
`try_direct_edit` returns failure immediately: for every font environment
and page stream the result is `False` with no stream written (no
tokenizing, matching or modification happens). -/
theorem claim7_newline_short_circuit (env : FontEnv) (raw : Option (List Nat))
    (target new : List Char) (h : '\n' ∈ target) :
    tryDirectEdit env raw target new = some (false, none) := by
  have hc : target.any (fun c => c = '\n') = true := by
    simp only [List.any_eq_true]
    exact ⟨'\n', h, by decide⟩
  unfold tryDirectEdit
  rw [if_pos hc]

/-- C7 witness: a concrete newline target. -/
theorem claim7_witness :
    tryDirectEdit trivEnv none ['\n'] [] = some (false, none) :=
  claim7_newline_short_circuit trivEnv none ['\n'] [] (by decide)

/-- C10: `_find_and_replace_text` leaves the token list exactly as given
whenever it does not return `True` — including the caught-ValueError
paths of both passes and the uncaught raises — and on the `True` paths
the list keeps its length and every changed position is a string/array
operand position of the matched occurrence: the next token of the
original list is `Tj` or `TJ`. -/
theorem claim10_mutation_discipline (env : FontEnv)
    (tokens : List (List Nat)) (target new : List Char) :
    ((findAndReplaceText env tokens target new).ret ≠ some true →
      (findAndReplaceText env tokens target new).tokens = tokens) ∧
    (findAndReplaceText env tokens target new).tokens.length = tokens.length ∧
    ∀ j, (findAndReplaceText env tokens target new).tokens[j]? ≠ tokens[j]? →
      tokens[j + 1]? = some TjTok ∨ tokens[j + 1]? = some TJTok := by
  unfold findAndReplaceText
  cases hp1 : pass1 env (pyStrip target) new tokens 0 none none initFM with
  | found idx bs =>
      refine ⟨fun hne => absurd rfl hne, List.length_set tokens idx bs,
        fun j hj => ?_⟩
      have hj2 : j = idx := by
        by_contra hne
        exact hj (List.getElem?_set_ne fun hh => hne hh.symm)
      subst hj2
      exact pass1_found_adj env (pyStrip target) new tokens tokens 0 none none
        initFM j bs (by rw [List.drop_zero]) (fun hh => absurd hh (by decide))
        hp1
  | fail => exact ⟨fun _ => rfl, rfl, fun j hj => absurd rfl hj⟩
  | err => exact ⟨fun _ => rfl, rfl, fun j hj => absurd rfl hj⟩
  | noMatch =>
      cases hp2 : pass2 env (pyStrip target) new tokens 0 none none initFM
          false (initB initFM) with
      | success ops bs =>
          have hops : ∀ q ∈ ops,
              tokens[q.2 + 1]? = some (cond q.1 TjTok TJTok) :=
            pass2_success_ops env (pyStrip target) new tokens tokens 0 none
              none initFM false (initB initFM) ops bs (by rw [List.drop_zero])
              (fun hh => absurd hh (by decide))
              (fun q hq => by simp [initB] at hq) hp2
          cases ops with
          | nil => exact ⟨fun _ => rfl, rfl, fun j hj => absurd rfl hj⟩
          | cons op rest =>
              refine ⟨fun hne => absurd rfl hne, ?_, ?_⟩
              · rw [applyRestOps_length]
                unfold applyFirstOp
                exact List.length_set tokens op.2 _
              · intro j hj
                unfold applyFirstOp at hj
                have hq : ∃ q ∈ op :: rest, j = q.2 := by
                  by_cases hfirst : (applyRestOps
                      (tokens.set op.2 (if op.1 then bs else 0x5b :: bs ++ [0x5d]))
                      rest)[j]? =
                      (tokens.set op.2
                        (if op.1 then bs else 0x5b :: bs ++ [0x5d]))[j]?
                  · have hch : (tokens.set op.2
                        (if op.1 then bs else 0x5b :: bs ++ [0x5d]))[j]? ≠
                        tokens[j]? := by
                      rw [← hfirst]
                      exact hj
                    have hje : j = op.2 := by
                      by_contra hne
                      exact hch (List.getElem?_set_ne fun hh => hne hh.symm)
                    exact ⟨op, List.mem_cons_self op rest, hje⟩
                  · obtain ⟨q, hqm, hqe⟩ := applyRestOps_changed rest
                      (tokens.set op.2 (if op.1 then bs else 0x5b :: bs ++ [0x5d]))
                      j hfirst
                    exact ⟨q, List.mem_cons_of_mem op hqm, hqe⟩
                obtain ⟨q, hqm, hqe⟩ := hq
                subst hqe
                have hadj := hops q hqm
                cases hq1 : q.1 with
                | true =>
                    left
                    rw [hq1] at hadj
                    simpa using hadj
                | false =>
                    right
                    rw [hq1] at hadj
                    simpa using hadj
      | fail => exact ⟨fun _ => rfl, rfl, fun j hj => absurd rfl hj⟩
      | err => exact ⟨fun _ => rfl, rfl, fun j hj => absurd rfl hj⟩
      | noMatch => exact ⟨fun _ => rfl, rfl, fun j hj => absurd rfl hj⟩

/-- C10 witness: a successful single-`Tj` replacement keeps the length and
changes only the operand before `Tj`; a no-match run returns the tokens
untouched. -/
theorem claim10_witness :
    (findAndReplaceText trivEnv [[0x28, 0x61, 0x29], [0x54, 0x6a]] "a".toList
        "b".toList).tokens.length = 2 ∧
    (([[0x28, 0x61, 0x29], [0x54, 0x6a]] : List (List Nat))[0 + 1]? =
        some TjTok ∨
      ([[0x28, 0x61, 0x29], [0x54, 0x6a]] : List (List Nat))[0 + 1]? =
        some TJTok) ∧
    (findAndReplaceText trivEnv [[0x28, 0x61, 0x29], [0x54, 0x6a]] "zz".toList
        "b".toList).tokens = [[0x28, 0x61, 0x29], [0x54, 0x6a]] :=
  ⟨(claim10_mutation_discipline trivEnv [[0x28, 0x61, 0x29], [0x54, 0x6a]]
      "a".toList "b".toList).2.1,
   (claim10_mutation_discipline trivEnv [[0x28, 0x61, 0x29], [0x54, 0x6a]]
      "a".toList "b".toList).2.2 0 (by decide),
   (claim10_mutation_discipline trivEnv [[0x28, 0x61, 0x29], [0x54, 0x6a]]
      "zz".toList "b".toList).1 (by decide)⟩

/-- C2 (amended): in pass 2, a `BT .. ET` block — entered at any loop
position, prior font state and block body free of `BT`/`ET` — whose scan
marks no unsafe font, counts at most one `Tf` switch, records at least
one operand, accumulates text with nonempty strip equal to the stripped
target, and whose block font mode encodes the replacement successfully,
makes the `ET` decision fire: pass 2 returns success carrying exactly the
recorded operands (the first is replaced with the encoded token, bracket
wrapped for `TJ`, the rest with the empty equivalents, per
`applyFirstOp`/`applyRestOps` in `findAndReplaceText`). -/
theorem claim2_block_replacement (env : FontEnv) (tgt new : List Char)
    (body tail : List (List Nat)) (i : Nat) (p1 p2 : Option (List Nat))
    (fm : FontMode) (inBt : Bool) (β β' : BState) (bs : List Nat)
    (hmem : ∀ t ∈ body, t ≠ BTTok ∧ t ≠ ETTok)
    (hscan : blockFold env body (i + 1) (some BTTok) p1 (initB fm) = some β')
    (hu : β'.hasUnsafeFont = false) (hc : β'.changes ≤ 1) (ho : β'.ops ≠ [])
    (hs : pyStrip β'.text ≠ []) (hm : pyStrip β'.text = pyStrip tgt)
    (he : encTok β'.fm new = .ok bs) :
    pass2 env (pyStrip tgt) new (BTTok :: (body ++ ETTok :: tail)) i p1 p2 fm
      inBt β = .success β'.ops bs := by
  rw [pass2_cons]
  rw [if_pos rfl]
  exact pass2_block_success env (pyStrip tgt) new body tail (i + 1)
    (some BTTok) p1 fm (initB fm) β' bs hmem hscan hu hc ho hs hm he

/-- C2 counterexample: in `BT (a) Tj (b) Tj /F1 12 Tf ET` with `F1`
resolving to a skipped font, both operands are recorded under safe fonts,
there is exactly one `Tf` switch, the block text matches the target
\"ab\", and the replacement \"c\" encodes — yet the driver returns
`False` and leaves the tokens untouched, because the block is discarded
for having SEEN an unsafe font, not for containing an operand under
one. -/
theorem claim2_counterexample :
    ((blockFold cexEnv cexBody 1 (some BTTok) none (initB initFM)).map
        (fun β => (β.ops, pyStrip β.text, β.changes, β.hasUnsafeFont))) =
      some ([(true, 1), (true, 3)], "ab".toList, 1, true) ∧
    (findAndReplaceText cexEnv cexToks "ab".toList "c".toList).ret =
      some false ∧
    (findAndReplaceText cexEnv cexToks "ab".toList "c".toList).tokens =
      cexToks ∧
    encTok initFM "c".toList = .ok [0x28, 0x63, 0x29] :=
  ⟨rfl, rfl, rfl, rfl⟩

/-- C2 witness: a one-operand block `BT (a) Tj ET` under the trivial
environment replaces the operand. -/
theorem claim2_witness :
    pass2 trivEnv (pyStrip "a".toList) "b".toList
      (BTTok :: ([[0x28, 0x61, 0x29], TjTok] ++ ETTok :: [])) 0 none none initFM
      false (initB initFM) =
    .success [(true, 1)] [0x28, 0x62, 0x29] :=
  claim2_block_replacement trivEnv "a".toList "b".toList
    [[0x28, 0x61, 0x29], TjTok] [] 0 none none initFM false (initB initFM)
    ⟨"a".toList, initFM, false, 0, [(true, 1)]⟩ [0x28, 0x62, 0x29]
    (by decide) rfl rfl (by decide) (by decide) (by decide) rfl rfl

/-- C8: for every page text dictionary, the extracted span list is
densely indexed — the `index` fields read `0..N-1` in list order — and
every returned span's text contains at least one non-whitespace
character (blank lines and items are dropped before indexing). -/
theorem claim8_dense_indices_and_ink (blocks : List PBlock) :
    (extractTextSpans blocks).map SpanOut.index =
      List.range (extractTextSpans blocks).length ∧
    (extractTextSpans blocks).all (fun s => hasInk s.text) = true := by
  constructor
  · have hlen : (extractTextSpans blocks).length =
        (collectPageItems blocks).length := by
      show ((collectPageItems blocks).enum.map _).length = _
      rw [List.length_map, List.enum_length]
    rw [hlen]
    show ((collectPageItems blocks).enum.map _).map SpanOut.index = _
    rw [List.map_map]
    exact List.enum_map_fst (collectPageItems blocks)
  · rw [List.all_eq_true]
    intro s hs
    obtain ⟨p, hp, hps⟩ := List.mem_map.mp hs
    have hink := collectPageItems_ink blocks p.2 (List.snd_mem_of_mem_enum hp)
    have h2 : hasInk s.text = true := by
      rw [← hps]
      exact hink
    exact h2

end EditPDF
